import Mathlib

set_option maxHeartbeats 1000000
set_option linter.deprecated false

/-
Verification of the bpylist NSKeyedArchiver object-graph codec
(src/bpylist/archiver.py and src/bpylist/archive_types.py).

The external bplist primitive codec is out of scope (per the spec): the
model works on the primitive-value tree `PValue` that `bplist.loads`
returns / `bplist.dumps` consumes.  Python machine floats are modelled as
exact fractions; Python object identity is modelled by explicit heap
addresses; Python recursion is modelled with an explicit fuel parameter
(enough fuel makes the model agree with the source).
-/

namespace Bpylist

/-- Exact-fraction model of a Python float: the archiver only ever adds,
subtracts and compares floats, and on the representable values those
operations are exact, so floats are modelled as unreduced fractions with
exact integer arithmetic (numeric equality is cross-multiplication). -/
structure PyFloat : Type where
  num : Int
  den : Int
deriving DecidableEq

/-- Exact float addition. -/
def PyFloat.add (a b : PyFloat) : PyFloat :=
  ⟨a.num * b.den + b.num * a.den, a.den * b.den⟩

/-- Exact float subtraction. -/
def PyFloat.sub (a b : PyFloat) : PyFloat :=
  ⟨a.num * b.den - b.num * a.den, a.den * b.den⟩

/-- Python `==` between two numbers (cross-multiplication). -/
def PyFloat.eqv (a b : PyFloat) : Bool :=
  a.num * b.den = b.num * a.den

/-- A whole number as a float. -/
def PyFloat.ofInt (n : Int) : PyFloat := ⟨n, 1⟩

/-- Primitive plist values exchanged with the external bplist codec. -/
inductive PValue : Type where
  | pbool (b : Bool)
  | pint (n : Int)
  | pfloat (q : PyFloat)
  | pstr (s : String)
  | pbytes (bs : List Nat)
  | puid (n : Nat)
  | parray (xs : List PValue)
  | pdict (kvs : List (String × PValue))

/-- Fabricated opaque class (archiver.OpaqueClassMap._make_class): a name plus a
single-parent lineage terminating at archive_types.OpaqueObject. -/
inductive FabType : Type where
  | opaqueBase
  | derived (name : String) (parent : FabType)

/-- Unarchiving delegates reachable through the class maps
(archive_types.Dict/MutableDict/Array/MutableArray/Set/MutableSet/MutableData/
timestamp_decoder, plus fabricated opaque classes). -/
inductive Delegate : Type where
  | dictD
  | mutableDictD
  | arrayD
  | mutableArrayD
  | setD
  | mutableSetD
  | mutableDataD
  | timestampDecD
  | opaqueD (f : FabType)

/-- Python values produced by the unarchiver.  Mutable containers are
represented by an address `dref` into the decoded-object heap (`DNode` list);
`dcycleToken` is the archive_types.CycleToken class object; `dparr`/`dpdict`
are raw plist values returned verbatim by `decode_key`. -/
inductive DVal : Type where
  | dnone
  | dbool (b : Bool)
  | dint (n : Int)
  | dfloat (q : PyFloat)
  | dstr (s : String)
  | dbytes (bs : List Nat)
  | duid (n : Nat)
  | dtimestamp (q : PyFloat)
  | dcycleToken
  | dref (m : Nat)
  | dparr (xs : List PValue)
  | dpdict (kvs : List (String × PValue))

/-- Mutable container objects materialized by the unarchiver, addressed by
`DVal.dref`.  The Bool tags the NSMutable* variants. -/
inductive DNode : Type where
  | ddict (mu : Bool) (kvs : List (DVal × DVal))
  | dlist (mu : Bool) (xs : List DVal)
  | dset (mu : Bool) (xs : List DVal)
  | ddata (bs : List Nat)
  | dfab (f : FabType) (fields : List (String × DVal))

/-- Python exceptions raised by the archiver module.  The ArchiverError
subclasses carry the payload needed to identify them; `indexError`,
`typeError`, `attributeError` and `assertFailed` stand for the corresponding
built-in Python exceptions; `fuelOut` is the model's recursion-fuel artifact
(never reached with enough fuel). -/
inductive PyErr : Type where
  | unsupportedArchiver
  | unsupportedArchiveVersion
  | missingTopObject
  | missingTopObjectUID
  | missingObjectsArray
  | missingClassMetaData (index : Nat)
  | missingClassName
  | missingClassList
  | invalidClassList
  | missingClassUID (index : Nat)
  | circularReference (index : Nat)
  | missingClassMapping (name : String)
  | missingClassMappingE (obj : Nat)
  | assertFailed
  | indexError
  | typeError
  | attributeError
  | fuelOut

/-- Association-list get, the model of Python `dict.get` (first binding wins;
updates are modelled by consing, so the newest binding shadows). -/
def alistGet {κ α : Type} [DecidableEq κ] : List (κ × α) → κ → Option α
  | [], _ => none
  | (k', v) :: t, k => if k' = k then some v else alistGet t k

/-- Python `dict.get` on a keyed record. -/
def recordGet (kvs : List (String × PValue)) (k : String) : Option PValue :=
  alistGet kvs k

/-- archive_types.timestamp.unix2apple_epoch_delta. -/
def unix2apple_epoch_delta : PyFloat := ⟨978307200, 1⟩

/-- archiver.NSKeyedArchiveVersion. -/
def NSKeyedArchiveVersion : Int := 100000

/-- DefaultClassMap.unarchive_class_map: wire class name to delegate. -/
def unarchive_class_map (s : String) : Option Delegate :=
  if s = "NSDictionary" then some .dictD
  else if s = "NSMutableDictionary" then some .mutableDictD
  else if s = "NSArray" then some .arrayD
  else if s = "NSMutableArray" then some .mutableArrayD
  else if s = "NSSet" then some .setD
  else if s = "NSMutableSet" then some .mutableSetD
  else if s = "NSMutableData" then some .mutableDataD
  else if s = "NSDate" then some .timestampDecD
  else none

/-- OpaqueClassMap._make_class: walk the chain tail-first, fabricating one
type per not-yet-cached segment; the cache maps class name to fabricated
type.  Non-string chain elements make Python's `type(...)` raise. -/
def make_class : List PValue → List (String × FabType) →
    Except PyErr (FabType × List (String × FabType))
  | [], cache => .ok (.opaqueBase, cache)
  | c :: rest, cache =>
    match c with
    | .pstr s =>
      match alistGet cache s with
      | some k => .ok (k, cache)
      | none => do
        let (base, cache') ← make_class rest cache
        let k := FabType.derived s base
        .ok (k, (s, k) :: cache')
    | _ => .error .typeError

/-- OpaqueClassMap._get_class_chain: collect names walking the single-parent
lineage from the most-derived fabricated type back to (excluding)
OpaqueObject. -/
def get_class_chain : FabType → List String
  | .opaqueBase => []
  | .derived s p => s :: get_class_chain p

/-- State of one Unarchive call: the `$objects` table, the `unpacked_uids`
cache, the heap of materialized mutable objects, and the class map
(DefaultClassMap, wrapped in an OpaqueClassMap with its own fabrication
cache when `useOpaque`). -/
structure UState : Type where
  objects : List PValue
  cache : List (Nat × DVal)
  dheap : List DNode
  useOpaque : Bool
  fabCache : List (String × FabType)

/-- ClassMap.get_python_class: DefaultClassMap keys on `class_chain[0]`
(IndexError on an empty chain); OpaqueClassMap defers to it and fabricates a
type on a miss, updating the fabrication cache. -/
def get_python_class (st : UState) (classes : List PValue) :
    Except PyErr (Option Delegate × UState) :=
  match classes with
  | [] => .error .indexError
  | c0 :: _ =>
    let base : Option Delegate :=
      match c0 with
      | .pstr s => unarchive_class_map s
      | _ => none
    if st.useOpaque then
      match base with
      | some k => .ok (some k, st)
      | none => do
        let (f, fc) ← make_class classes st.fabCache
        .ok (some (.opaqueD f), { st with fabCache := fc })
    else .ok (base, st)

/-- Unarchive.class_for_uid: fetch the class-metadata slot, validate
`$classname`/`$classes`, resolve through the class map. -/
def class_for_uid (st : UState) (index : Nat) : Except PyErr (Delegate × UState) :=
  match st.objects.get? index with
  | none => .error .indexError
  | some meta =>
    match meta with
    | .pdict kvs =>
      match recordGet kvs "$classname" with
      | some (.pstr name) =>
        match recordGet kvs "$classes" with
        | some (.parray classes) =>
          match classes with
          | [] => .error .invalidClassList
          | c0 :: _ =>
            match c0 with
            | .pstr s0 =>
              if s0 = name then do
                let (k, st) ← get_python_class st classes
                match k with
                | some klass => .ok (klass, st)
                | none => .error (.missingClassMapping name)
              else .error .invalidClassList
            | _ => .error .invalidClassList
        | _ => .error .missingClassList
      | _ => .error .missingClassName
    | _ => .error (.missingClassMetaData index)

/-- klass.__new__(klass): the placeholder each delegate installs before
population.  Containers allocate an empty mutable object;
timestamp_decoder.__new__ returns the CycleToken class itself. -/
def delegate_new (d : Delegate) (dh : List DNode) : DVal × List DNode :=
  match d with
  | .dictD => (.dref dh.length, dh ++ [.ddict false []])
  | .mutableDictD => (.dref dh.length, dh ++ [.ddict true []])
  | .arrayD => (.dref dh.length, dh ++ [.dlist false []])
  | .mutableArrayD => (.dref dh.length, dh ++ [.dlist true []])
  | .setD => (.dref dh.length, dh ++ [.dset false []])
  | .mutableSetD => (.dref dh.length, dh ++ [.dset true []])
  | .mutableDataD => (.dref dh.length, dh ++ [.ddata []])
  | .timestampDecD => (.dcycleToken, dh)
  | .opaqueD f => (.dref dh.length, dh ++ [.dfab f []])

/-- Conversion applied when the unarchiver hands a raw plist value through
unchanged (primitive slots, and `decode_key` on a non-UID value). -/
def pvalToDVal : PValue → DVal
  | .pbool b => .dbool b
  | .pint n => .dint n
  | .pfloat q => .dfloat q
  | .pstr s => .dstr s
  | .pbytes bs => .dbytes bs
  | .puid n => .duid n
  | .parray xs => .dparr xs
  | .pdict kvs => .dpdict kvs

/-- Python numeric value of a decoded object, when it is a number
(bool/int/float/uid/timestamp all compare and add numerically). -/
def numValD : DVal → Option PyFloat
  | .dbool b => some (.ofInt (if b then 1 else 0))
  | .dint n => some (.ofInt n)
  | .dfloat q => some q
  | .duid n => some (.ofInt n)
  | .dtimestamp q => some q
  | _ => none

/-- Python `==` on decoded values as used for dict keys / set elements.
Only hashable values reach this comparison (the archiver checks
hashability first); for the mutable-container references that would be
unhashable we compare addresses, which matches Python only on identity. -/
def pyEqD (a b : DVal) : Bool :=
  match numValD a, numValD b with
  | some x, some y => x.eqv y
  | _, _ =>
    match a, b with
    | .dnone, .dnone => true
    | .dstr s, .dstr t => s = t
    | .dbytes s, .dbytes t => s = t
    | .dcycleToken, .dcycleToken => true
    | .dref m, .dref n => m = n
    | _, _ => false

/-- Hashable decoded values (everything except mutable containers and raw
plist arrays/dicts). -/
def isHashableD : DVal → Bool
  | .dref _ => false
  | .dparr _ => false
  | .dpdict _ => false
  | _ => true

/-- Python `d[k] = v`: replace the value of the first `==`-equal key (keeping
the original key object and position), else append. -/
def pyInsertD : List (DVal × DVal) → DVal → DVal → List (DVal × DVal)
  | [], k, v => [(k, v)]
  | (k0, v0) :: rest, k, v =>
    if pyEqD k0 k then (k0, v) :: rest else (k0, v0) :: pyInsertD rest k v

/-- Python `s.add(v)`: append unless an `==`-equal element is present. -/
def pySetAddD (xs : List DVal) (v : DVal) : List DVal :=
  if xs.any (fun x => pyEqD x v) then xs else xs ++ [v]

/-- Python `d[k] = v` for string-keyed field maps (OpaqueObject.__dict__). -/
def pyInsertStr : List (String × DVal) → String → DVal → List (String × DVal)
  | [], k, v => [(k, v)]
  | (k0, v0) :: rest, k, v =>
    if k0 = k then (k0, v) :: rest else (k0, v0) :: pyInsertStr rest k v

/-- The type of the recursive `decode_object` call handed to delegates
(one fuel step below the caller). -/
def Deco : Type := UState → Nat → Except PyErr (DVal × UState)

/-- Unarchive.decode_key: fetch a record field; dereference it through the
unarchiver when it is a UID, otherwise return it verbatim (a missing key
yields Python None). -/
def decode_key (deco : Deco) (st : UState) (kvs : List (String × PValue))
    (key : String) : Except PyErr (DVal × UState) :=
  match recordGet kvs key with
  | some (.puid n) => deco st n
  | some v => .ok (pvalToDVal v, st)
  | none => .ok (.dnone, st)

/-- ArchivedObject._decode_index: delegates call `decode_object` on raw table
positions pulled out of NS.keys/NS.objects; ints and bools index like UIDs
in Python, anything else fails as a list index. -/
def decode_index (deco : Deco) (st : UState) (v : PValue) :
    Except PyErr (DVal × UState) :=
  match v with
  | .puid n => deco st n
  | .pint n => if n < 0 then .error .indexError else deco st n.toNat
  | .pbool b => deco st (if b then 1 else 0)
  | _ => .error .typeError

/-- Dict.decode_archive's loop: pair NS.keys[i] with NS.objects[i],
dereference both, and insert into the placeholder dict at heap address m.
Unhashable keys make `self[key] = val` raise. -/
def dict_loop (deco : Deco) (m : Nat) : List PValue → DVal → UState →
    Except PyErr UState
  | [], _, st => .ok st
  | k :: ks, vv, st =>
    match vv with
    | .dparr [] => .error .indexError
    | .dparr (v :: vs) => do
      let (kd, st) ← decode_index deco st k
      let (vd, st) ← decode_index deco st v
      if isHashableD kd then
        match st.dheap.get? m with
        | some (.ddict mu prs) =>
          dict_loop deco m ks (.dparr vs)
            { st with dheap := st.dheap.set m (.ddict mu (pyInsertD prs kd vd)) }
        | _ => .error .typeError
      else .error .typeError
    | _ => .error .typeError

/-- Array.decode_archive's loop: dereference each NS.objects entry and append
it to the placeholder list at heap address m. -/
def arr_loop (deco : Deco) (m : Nat) : List PValue → UState → Except PyErr UState
  | [], st => .ok st
  | v :: vs, st => do
    let (vd, st) ← decode_index deco st v
    match st.dheap.get? m with
    | some (.dlist mu xs) =>
      arr_loop deco m vs { st with dheap := st.dheap.set m (.dlist mu (xs ++ [vd])) }
    | _ => .error .typeError

/-- Set.decode_archive's loop: dereference each NS.objects entry and add it
to the placeholder set at heap address m (unhashable elements raise). -/
def set_loop (deco : Deco) (m : Nat) : List PValue → UState → Except PyErr UState
  | [], st => .ok st
  | v :: vs, st => do
    let (vd, st) ← decode_index deco st v
    if isHashableD vd then
      match st.dheap.get? m with
      | some (.dset mu xs) =>
        set_loop deco m vs { st with dheap := st.dheap.set m (.dset mu (pySetAddD xs vd)) }
      | _ => .error .typeError
    else .error .typeError

/-- OpaqueObject.decode_archive's loop: for every non-`$class` key of the
record, decode the field and store it on the placeholder instance at heap
address m. -/
def opaque_loop (deco : Deco) (m : Nat) (allkvs : List (String × PValue)) :
    List (String × PValue) → UState → Except PyErr UState
  | [], st => .ok st
  | (k, _) :: rest, st =>
    if k = "$class" then opaque_loop deco m allkvs rest st
    else do
      let (dv, st) ← decode_key deco st allkvs k
      match st.dheap.get? m with
      | some (.dfab f fields) =>
        opaque_loop deco m allkvs rest
          { st with dheap := st.dheap.set m (.dfab f (pyInsertStr fields k dv)) }
      | _ => .error .typeError

/-- klass.decode_archive(obj, ArchivedObject(uid, raw_obj, self)): populate
the placeholder `self` from the record `kvs`; in-place delegates return
none, the replace-strategy timestamp delegate returns its final value. -/
def delegate_decode_archive (deco : Deco) (d : Delegate) (self : DVal)
    (kvs : List (String × PValue)) (st : UState) :
    Except PyErr (Option DVal × UState) :=
  match d with
  | .dictD | .mutableDictD => do
    let (kv, st) ← decode_key deco st kvs "NS.keys"
    let (vv, st) ← decode_key deco st kvs "NS.objects"
    match self with
    | .dref m =>
      match kv with
      | .dparr ks => do
        let st ← dict_loop deco m ks vv st
        .ok (none, st)
      | _ => .error .typeError
    | _ => .error .typeError
  | .arrayD | .mutableArrayD => do
    let (vv, st) ← decode_key deco st kvs "NS.objects"
    match self with
    | .dref m =>
      match vv with
      | .dparr vs => do
        let st ← arr_loop deco m vs st
        .ok (none, st)
      | _ => .error .typeError
    | _ => .error .typeError
  | .setD | .mutableSetD => do
    let (vv, st) ← decode_key deco st kvs "NS.objects"
    match self with
    | .dref m =>
      match vv with
      | .dparr vs => do
        let st ← set_loop deco m vs st
        .ok (none, st)
      | _ => .error .typeError
    | _ => .error .typeError
  | .mutableDataD => do
    let (dv, st) ← decode_key deco st kvs "NS.data"
    match self with
    | .dref m =>
      match dv with
      | .dbytes bs =>
        match st.dheap.get? m with
        | some (.ddata old) =>
          .ok (none, { st with dheap := st.dheap.set m (.ddata (old ++ bs)) })
        | _ => .error .typeError
      | _ => .error .typeError
    | _ => .error .typeError
  | .timestampDecD => do
    let (tv, st) ← decode_key deco st kvs "NS.time"
    match numValD tv with
    | some q => .ok (some (.dtimestamp (unix2apple_epoch_delta.add q)), st)
    | none => .error .typeError
  | .opaqueD _ => do
    match self with
    | .dref m => do
      let st ← opaque_loop deco m kvs kvs st
      .ok (none, st)
    | _ => .error .typeError

/-- The uncached path of Unarchive.decode_object: fetch slot `index`; a
non-record slot is returned verbatim (and, unlike record slots, is not
cached); a record slot resolves its `$class`, installs the delegate's
placeholder in the cache before populating it, and asserts that in-place
delegates returned no replacement value. -/
def decode_slot (deco : Deco) (st : UState) (index : Nat) :
    Except PyErr (DVal × UState) :=
  match st.objects.get? index with
  | none => .error .indexError
  | some raw =>
    match raw with
    | .pdict kvs =>
      match recordGet kvs "$class" with
      | some (.puid cuid) => do
        let (klass, st) ← class_for_uid st cuid
        let (obj, dh) := delegate_new klass st.dheap
        let st := { st with dheap := dh, cache := (index, obj) :: st.cache }
        let (newObj, st) ← delegate_decode_archive deco klass obj kvs st
        match obj with
        | .dcycleToken =>
          match newObj with
          | some v => .ok (v, { st with cache := (index, v) :: st.cache })
          | none => .ok (.dnone, { st with cache := (index, .dnone) :: st.cache })
        | _ =>
          match newObj with
          | some _ => .error .assertFailed
          | none => .ok (obj, st)
      | _ => .error (.missingClassUID index)
    | _ => .ok (pvalToDVal raw, st)

/-- Unarchive.decode_object: UID 0 is None; a cached CycleToken is a
circular-reference error; a cached non-None value is returned; otherwise the
slot is decoded.  Recursion fuel decreases one step per nesting level. -/
def decode_object : Nat → UState → Nat → Except PyErr (DVal × UState)
  | 0, _, _ => .error .fuelOut
  | fuel + 1, st, index =>
    if index = 0 then .ok (.dnone, st)
    else
      match alistGet st.cache index with
      | some .dcycleToken => .error (.circularReference index)
      | some .dnone => decode_slot (decode_object fuel) st index
      | some v => .ok (v, st)
      | none => decode_slot (decode_object fuel) st index

/-- The `$archiver` check: Python `archiver != 'NSKeyedArchiver'` fails for
any non-string and any other string. -/
def archiverFieldOk (kvs : List (String × PValue)) : Bool :=
  match recordGet kvs "$archiver" with
  | some (.pstr s) => s = "NSKeyedArchiver"
  | _ => false

/-- The `$version` check: Python `version != 100000` compares numerically,
so an int, float or uid wire value equal to 100000 all pass. -/
def versionFieldOk (kvs : List (String × PValue)) : Bool :=
  match recordGet kvs "$version" with
  | some (.pint n) => n = NSKeyedArchiveVersion
  | some (.pfloat q) => q.eqv (.ofInt NSKeyedArchiveVersion)
  | some (.puid n) => (n : Int) = NSKeyedArchiveVersion
  | _ => false

/-- `$top` when it is a dict (isinstance check). -/
def topDictOf (kvs : List (String × PValue)) : Option (List (String × PValue)) :=
  match recordGet kvs "$top" with
  | some (.pdict top) => some top
  | _ => none

/-- `top.root` when it is a uid (isinstance check — a plain int fails). -/
def rootUidOf (top : List (String × PValue)) : Option Nat :=
  match recordGet top "root" with
  | some (.puid n) => some n
  | _ => none

/-- `$objects` when it is a list (isinstance check). -/
def objectsOf (kvs : List (String × PValue)) : Option (List PValue) :=
  match recordGet kvs "$objects" with
  | some (.parray objs) => some objs
  | _ => none

/-- Unarchive.unpack_archive_header: validate `$archiver`, `$version`,
`$top.root` and `$objects`, in that order; returns the root UID and the
object table. -/
def unpack_archive_header (plist : PValue) : Except PyErr (Nat × List PValue) :=
  match plist with
  | .pdict kvs =>
    if archiverFieldOk kvs then
      if versionFieldOk kvs then
        match topDictOf kvs with
        | some top =>
          match rootUidOf top with
          | some n =>
            match objectsOf kvs with
            | some objs => .ok (n, objs)
            | none => .error .missingObjectsArray
          | none => .error .missingTopObjectUID
        | none => .error .missingTopObject
      else .error .unsupportedArchiveVersion
    else .error .unsupportedArchiver
  | _ => .error .attributeError

/-- A fresh Unarchive state over a given object table. -/
def initUState (objs : List PValue) (useOp : Bool) : UState :=
  { objects := objs, cache := [], dheap := [], useOpaque := useOp, fabCache := [] }

/-- Unarchive.top_object: unpack the header, then recursively decode the
root UID.  Returns the decoded value together with the final unarchiver
state (whose heap holds the materialized mutable objects). -/
def top_object (fuel : Nat) (plist : PValue) (useOp : Bool) :
    Except PyErr (DVal × UState) := do
  let (topUid, objs) ← unpack_archive_header plist
  decode_object fuel (initUState objs useOp) topUid

/-- Live Python objects handed to Archive, one node per object identity
(heap address = list position).  Container fields are heap addresses.
`customN` stands for an instance of any type outside this module (no
Class Registry entry). -/
inductive PyNode : Type where
  | noneN
  | boolN (b : Bool)
  | intN (n : Int)
  | floatN (q : PyFloat)
  | strN (s : String)
  | bytesN (bs : List Nat)
  | uidN (n : Nat)
  | timestampN (q : PyFloat)
  | listN (rs : List Nat)
  | dictN (prs : List (Nat × Nat))
  | setN (rs : List Nat)
  | mutListN (rs : List Nat)
  | mutDictN (prs : List (Nat × Nat))
  | mutSetN (rs : List Nat)
  | mutDataN (bs : List Nat)
  | customN (tyName : String)
deriving DecidableEq

/-- State of one Archive call: class-name → UID cache, object-identity →
UID cache, and the growing `$objects` table (seeded with '$null'). -/
structure AState : Type where
  class_cache : List (String × Nat)
  ref_cache : List (Nat × Nat)
  objects : List PValue

/-- The fresh Archive state ('$null' occupies slot 0). -/
def initAState : AState :=
  { class_cache := [], ref_cache := [], objects := [.pstr "$null"] }

/-- Archive.primitive_types membership for a live object. -/
def isPrimitiveNode : PyNode → Bool
  | .intN _ | .floatN _ | .boolN _ | .strN _ | .bytesN _ | .uidN _ => true
  | _ => false

/-- The inline slot written for a primitive object. -/
def primPValue : PyNode → PValue
  | .boolN b => .pbool b
  | .intN n => .pint n
  | .floatN q => .pfloat q
  | .strN s => .pstr s
  | .bytesN bs => .pbytes bs
  | .uidN n => .puid n
  | _ => .pstr ""

/-- DefaultClassMap.archive_class_map: runtime type → wire class name. -/
def archive_class_map : PyNode → Option String
  | .dictN _ => some "NSDictionary"
  | .mutDictN _ => some "NSMutableDictionary"
  | .listN _ => some "NSArray"
  | .mutListN _ => some "NSMutableArray"
  | .setN _ => some "NSSet"
  | .mutSetN _ => some "NSMutableSet"
  | .mutDataN _ => some "NSMutableData"
  | .timestampN _ => some "NSDate"
  | _ => none

/-- String prefix test on the underlying character lists (Python
str.startswith). -/
def strStarts (s p : String) : Bool :=
  p.data.isPrefixOf s.data

/-- DefaultClassMap.get_objc_class: synthesize the full ancestor chain from
the mapped wire name ('NSMutable' names insert the immutable parent). -/
def get_objc_class (node : PyNode) : Option (List String) :=
  match archive_class_map node with
  | none => none
  | some klass =>
    if strStarts klass "NSMutable" then
      some [klass, String.mk ('N' :: 'S' :: (klass.data.drop 9)), "NSObject"]
    else some [klass, "NSObject"]

/-- Archive.uid_for_class_chain: return the cached metadata UID for the
chain's leading name, else append one metadata record and cache its UID
(note the Python truthiness test: a cached uid(0) would not count as a
hit, though slot numbers are always positive). -/
def uid_for_class_chain (st : AState) (chain : List String) :
    Except PyErr (Nat × AState) :=
  match chain with
  | [] => .error .indexError
  | c0 :: _ =>
    let hit : Option Nat :=
      match alistGet st.class_cache c0 with
      | some v => if v = 0 then none else some v
      | none => none
    match hit with
    | some v => .ok (v, st)
    | none =>
      let v := st.objects.length
      .ok (v, { st with
        class_cache := (c0, v) :: st.class_cache,
        objects := st.objects ++
          [.pdict [("$classes", .parray (chain.map .pstr)), ("$classname", .pstr c0)]] })

/-- The type of the recursive `archive` call handed to the per-type encoders
(one fuel step below the caller). -/
def Arc : Type := AState → Nat → Except PyErr (Nat × AState)

/-- Archive.encode_list / encode_set loop: archive each element, collecting
the UIDs for NS.objects. -/
def arc_list (arc : Arc) : List Nat → AState → Except PyErr (List Nat × AState)
  | [], st => .ok ([], st)
  | r :: rs, st => do
    let (u, st) ← arc st r
    let (us, st) ← arc_list arc rs st
    .ok (u :: us, st)

/-- Archive.encode_dict loop: archive each key then its value, in dict
iteration order, collecting parallel NS.keys/NS.objects UID lists. -/
def arc_pairs (arc : Arc) : List (Nat × Nat) → AState →
    Except PyErr (List Nat × List Nat × AState)
  | [], st => .ok ([], [], st)
  | (k, v) :: rest, st => do
    let (ku, st) ← arc st k
    let (vu, st) ← arc st v
    let (kus, vus, st) ← arc_pairs arc rest st
    .ok (ku :: kus, vu :: vus, st)

/-- Archive.encode_top_level: build the record for a non-primitive object.
Exact-class dispatch handles list/dict/set; everything else resolves a wire
chain through the registry and invokes the type's encode_archive delegate —
which only timestamp defines, so the registered NSMutable* container types
raise AttributeError, and unregistered types raise MissingClassMapping
carrying the object itself. -/
def encode_top_level (arc : Arc) (st : AState) (r : Nat) (node : PyNode) :
    Except PyErr (List (String × PValue) × AState) :=
  match node with
  | .listN rs => do
    let (c, st) ← uid_for_class_chain st ["NSArray", "NSObject"]
    let (us, st) ← arc_list arc rs st
    .ok ([("$class", .puid c), ("NS.objects", .parray (us.map .puid))], st)
  | .setN rs => do
    let (c, st) ← uid_for_class_chain st ["NSSet", "NSObject"]
    let (us, st) ← arc_list arc rs st
    .ok ([("$class", .puid c), ("NS.objects", .parray (us.map .puid))], st)
  | .dictN prs => do
    let (c, st) ← uid_for_class_chain st ["NSDictionary", "NSObject"]
    let (kus, vus, st) ← arc_pairs arc prs st
    .ok ([("$class", .puid c), ("NS.keys", .parray (kus.map .puid)),
          ("NS.objects", .parray (vus.map .puid))], st)
  | .timestampN q => do
    match get_objc_class node with
    | some chain => do
      let (c, st) ← uid_for_class_chain st chain
      .ok ([("$class", .puid c), ("NS.time", .pfloat (q.sub unix2apple_epoch_delta))], st)
    | none => .error (.missingClassMappingE r)
  | _ =>
    match get_objc_class node with
    | some chain => do
      -- cls.encode_archive does not exist on the NSMutable* container types,
      -- so after the metadata lookup the attribute access raises
      let _ ← uid_for_class_chain st chain
      .error .attributeError
    | none => .error (.missingClassMappingE r)

/-- The uncached path of Archive.archive: reserve the next UID and cache it
against the object's identity before any recursion, then append the object —
inline for primitive types, else as a record populated by encode_top_level
(the in-place mutation of the appended dict is modelled by writing the
finished record back to the reserved slot). -/
def archive_uncached (arcf : Arc) (st : AState) (r : Nat) (node : PyNode) :
    Except PyErr (Nat × AState) :=
  let index := st.objects.length
  let st := { st with ref_cache := (r, index) :: st.ref_cache }
  if isPrimitiveNode node then
    .ok (index, { st with objects := st.objects ++ [primPValue node] })
  else do
    let st := { st with objects := st.objects ++ [.pdict []] }
    let (rec', st) ← encode_top_level arcf st r node
    .ok (index, { st with objects := st.objects.set index (.pdict rec') })

/-- Archive.archive: None is UID 0; a cached identity returns its UID (with
Python truthiness: uid(0) would not count, but slot numbers are positive);
otherwise the uncached path runs.  Recursion fuel decreases one step per
nesting level. -/
def archive (h : List PyNode) : Nat → AState → Nat → Except PyErr (Nat × AState)
  | 0, _, _ => .error .fuelOut
  | fuel + 1, st, r =>
    match h.get? r with
    | none => .error .indexError
    | some node =>
      if node = .noneN then .ok (0, st)
      else
        let hit : Option Nat :=
          match alistGet st.ref_cache r with
          | some u => if u = 0 then none else some u
          | none => none
        match hit with
        | some u => .ok (u, st)
        | none => archive_uncached (archive h fuel) st r node

mutual
/-- A tree-shaped Python object graph over the round-trippable supported
types: every sub-object is a distinct identity (no sharing, no cycles). -/
inductive PyTree : Type where
  | vnone
  | vbool (b : Bool)
  | vint (n : Int)
  | vfloat (q : PyFloat)
  | vstr (s : String)
  | vbytes (bs : List Nat)
  | vuid (n : Nat)
  | vtimestamp (q : PyFloat)
  | vlist (xs : PyForest)
  | vdict (kvs : PyPairs)
  | vset (xs : PyForest)
inductive PyForest : Type where
  | nil
  | cons (t : PyTree) (ts : PyForest)
inductive PyPairs : Type where
  | nil
  | cons (k : PyTree) (v : PyTree) (rest : PyPairs)
end

mutual
/-- Lay a tree out as live objects: children first, then the node, so the
root is the last address; every sub-object gets a fresh address. -/
def pushTree : PyTree → List PyNode → List PyNode × Nat
  | .vnone, h => (h ++ [.noneN], h.length)
  | .vbool b, h => (h ++ [.boolN b], h.length)
  | .vint n, h => (h ++ [.intN n], h.length)
  | .vfloat q, h => (h ++ [.floatN q], h.length)
  | .vstr s, h => (h ++ [.strN s], h.length)
  | .vbytes bs, h => (h ++ [.bytesN bs], h.length)
  | .vuid n, h => (h ++ [.uidN n], h.length)
  | .vtimestamp q, h => (h ++ [.timestampN q], h.length)
  | .vlist xs, h =>
    let (h', rs) := pushForest xs h
    (h' ++ [.listN rs], h'.length)
  | .vdict kvs, h =>
    let (h', prs) := pushPairs kvs h
    (h' ++ [.dictN prs], h'.length)
  | .vset xs, h =>
    let (h', rs) := pushForest xs h
    (h' ++ [.setN rs], h'.length)
def pushForest : PyForest → List PyNode → List PyNode × List Nat
  | .nil, h => (h, [])
  | .cons t ts, h =>
    let (h', r) := pushTree t h
    let (hb, rs) := pushForest ts h'
    (hb, r :: rs)
def pushPairs : PyPairs → List PyNode → List PyNode × List (Nat × Nat)
  | .nil, h => (h, [])
  | .cons k v rest, h =>
    let (h', rk) := pushTree k h
    let (hb, rv) := pushTree v h'
    let (hc, prs) := pushPairs rest hb
    (hc, (rk, rv) :: prs)
end

/-- Hashable tree values: anything a Python dict key / set element can be
(not a container). -/
def isHashableT : PyTree → Bool
  | .vlist _ | .vdict _ | .vset _ => false
  | _ => true

/-- Python numeric value of a scalar tree (mirrors numValD). -/
def numValT : PyTree → Option PyFloat
  | .vbool b => some (.ofInt (if b then 1 else 0))
  | .vint n => some (.ofInt n)
  | .vfloat q => some q
  | .vuid n => some (.ofInt n)
  | .vtimestamp q => some q
  | _ => none

/-- Python `==` on hashable tree values. -/
def pyEqT (a b : PyTree) : Bool :=
  match numValT a, numValT b with
  | some x, some y => x.eqv y
  | _, _ =>
    match a, b with
    | .vnone, .vnone => true
    | .vstr s, .vstr t => s = t
    | .vbytes s, .vbytes t => s = t
    | _, _ => false

/-- No element of the list is Python-`==` to a later one. -/
def distinctT : List PyTree → Bool
  | [] => true
  | t :: ts => (ts.all fun u => !pyEqT t u) && distinctT ts

mutual
/-- Well-formed tree: it can exist as a live Python object graph — dict keys
and set elements are hashable and pairwise distinct under Python `==`. -/
def wfT : PyTree → Bool
  | .vnone | .vbool _ | .vint _ | .vfloat _ | .vstr _ | .vbytes _ | .vuid _
  | .vtimestamp _ => true
  | .vlist xs => wfF xs
  | .vdict kvs => wfP kvs && distinctT (pairKeys kvs) &&
      (pairKeys kvs).all isHashableT
  | .vset xs => wfF xs && distinctT (forestList xs) &&
      (forestList xs).all isHashableT
def wfF : PyForest → Bool
  | .nil => true
  | .cons t ts => wfT t && wfF ts
def wfP : PyPairs → Bool
  | .nil => true
  | .cons k v rest => wfT k && wfT v && wfP rest
def pairKeys : PyPairs → List PyTree
  | .nil => []
  | .cons k _ rest => k :: pairKeys rest
def forestList : PyForest → List PyTree
  | .nil => []
  | .cons t ts => t :: forestList ts
end

mutual
/-- Nesting depth of a tree (scalars are depth 0). -/
def depthT : PyTree → Nat
  | .vlist xs => depthF xs + 1
  | .vdict kvs => depthP kvs + 1
  | .vset xs => depthF xs + 1
  | _ => 0
def depthF : PyForest → Nat
  | .nil => 0
  | .cons t ts => max (depthT t) (depthF ts)
def depthP : PyPairs → Nat
  | .nil => 0
  | .cons k v rest => max (depthT k) (max (depthT v) (depthP rest))
end

mutual
/-- Structural equality between a decoded value (relative to the decoded
heap) and the original tree: exactly the contents-wise equality of the
claim, with plain (non-mutable) containers. -/
def agreesB (dh : List DNode) : DVal → PyTree → Bool
  | .dnone, .vnone => true
  | .dbool b, .vbool b' => b = b'
  | .dint n, .vint n' => n = n'
  | .dfloat q, .vfloat q' => q = q'
  | .dstr s, .vstr s' => s = s'
  | .dbytes bs, .vbytes bs' => bs = bs'
  | .duid n, .vuid n' => n = n'
  | .dtimestamp q, .vtimestamp q' => q = q'
  | .dref m, .vlist xs =>
    (match dh.get? m with
     | some (.dlist mu ys) => !mu && agreesF dh ys xs
     | _ => false)
  | .dref m, .vdict kvs =>
    (match dh.get? m with
     | some (.ddict mu prs) => !mu && agreesP dh prs kvs
     | _ => false)
  | .dref m, .vset xs =>
    (match dh.get? m with
     | some (.dset mu ys) => !mu && agreesF dh ys xs
     | _ => false)
  | _, _ => false
def agreesF (dh : List DNode) : List DVal → PyForest → Bool
  | [], .nil => true
  | y :: ys, .cons t ts => agreesB dh y t && agreesF dh ys ts
  | _, _ => false
def agreesP (dh : List DNode) : List (DVal × DVal) → PyPairs → Bool
  | [], .nil => true
  | (yk, yv) :: ys, .cons k v rest =>
    agreesB dh yk k && agreesB dh yv v && agreesP dh ys rest
  | _, _ => false
end

/-- Encoder-state evolution: non-zero identity-cache bindings are preserved
and the table only grows. -/
def StChain (st st' : AState) : Prop :=
  (∀ x v, v ≠ 0 → alistGet st.ref_cache x = some v → alistGet st'.ref_cache x = some v) ∧
  st.objects.length ≤ st'.objects.length

/-- The class-metadata record the tree encoder writes for a non-mutable
built-in chain [nm, "NSObject"]. -/
def metaFor (nm : String) : PValue :=
  .pdict [("$classes", .parray [.pstr nm, .pstr "NSObject"]),
          ("$classname", .pstr nm)]

/-- The decoded value of a hashable (scalar) tree. -/
def scalarDVal : PyTree → DVal
  | .vnone => .dnone
  | .vbool b => .dbool b
  | .vint n => .dint n
  | .vfloat q => .dfloat q
  | .vstr s => .dstr s
  | .vbytes bs => .dbytes bs
  | .vuid n => .duid n
  | .vtimestamp q => .dtimestamp q
  | _ => .dnone

/-- `a` is a prefix of `b`. -/
def ListPfx {α : Type} (a b : List α) : Prop := ∃ t2, b = a ++ t2

/-- Table evolution during encoding: no shorter, and already-written slots
keep their value. -/
def SlotsPres (a b : List PValue) : Prop :=
  a.length ≤ b.length ∧ ∀ i, i < a.length → b.get? i = a.get? i

/-- No identity in [lo, hi) is cached yet. -/
def RefFreshA (st : AState) (lo hi : Nat) : Prop :=
  ∀ i, lo ≤ i → i < hi → alistGet st.ref_cache i = none

/-- Identity-cache lookups outside [lo, hi) are unchanged. -/
def RefAddsA (st st' : AState) (lo hi : Nat) : Prop :=
  ∀ i, (lo ≤ i ∧ i < hi) ∨ alistGet st'.ref_cache i = alistGet st.ref_cache i

/-- Every cached class name points at a live, correct metadata slot. -/
def ClassInvA (st : AState) : Prop :=
  ∀ nm c, alistGet st.class_cache nm = some c →
    c ≠ 0 ∧ st.objects.get? c = some (metaFor nm)

/-- The decoder's table agrees with the encoder's output `objs` on the
window [lo, hi) and on every class-metadata slot of `objs`. -/
def TableOK (objs : List PValue) (sd : UState) (lo hi : Nat) : Prop :=
  (∀ i, lo ≤ i → i < hi → sd.objects.get? i = objs.get? i) ∧
  (∀ c nm, objs.get? c = some (metaFor nm) → sd.objects.get? c = some (metaFor nm))

/-- No UID in [lo, hi) is in the decode cache yet. -/
def CacheFreshI (sd : UState) (lo hi : Nat) : Prop :=
  ∀ i, lo ≤ i → i < hi → alistGet sd.cache i = none

/-- Decode-cache lookups outside [lo, hi) are unchanged. -/
def CacheAdds (sd sd' : UState) (lo hi : Nat) : Prop :=
  ∀ i, (lo ≤ i ∧ i < hi) ∨ alistGet sd'.cache i = alistGet sd.cache i

/-- `dh2` agrees with `ref` on heap addresses [lo, hi). -/
def AgreeOn (lo hi : Nat) (ref dh2 : List DNode) : Prop :=
  ∀ j, lo ≤ j → j < hi → dh2.get? j = ref.get? j

/-- Decode-correctness of one encoded slot: decoding UID `u` from any table
extending `objs` (with the decode cache fresh on the slot window [lo, hi))
succeeds, touches only that window of the cache, only appends to the
decoded heap, and produces a value structurally equal to the original tree
`t` — robustly under later heap extensions outside the freshly allocated
node range. -/
def DecOne (objs : List PValue) (u : Nat) (t : PyTree) (lo hi : Nat) : Prop :=
  ∀ dfuel (sd : UState), depthT t < dfuel →
    TableOK objs sd lo hi → CacheFreshI sd lo hi →
    ∃ v sd', decode_object dfuel sd u = .ok (v, sd') ∧
      sd'.objects = sd.objects ∧
      sd.dheap.length ≤ sd'.dheap.length ∧
      (∀ j, j < sd.dheap.length → sd'.dheap.get? j = sd.dheap.get? j) ∧
      CacheAdds sd sd' lo hi ∧
      (∀ dh2, AgreeOn sd.dheap.length sd'.dheap.length sd'.dheap dh2 →
        agreesB dh2 v t = true)

/-- Decode-correctness of a sequence of sibling slots, with a partition of
the table window. -/
def DecForest (objs : List PValue) : List Nat → PyForest → Nat → Nat → Prop
  | [], .nil, lo, hi => lo ≤ hi
  | u :: us, .cons t ts, lo, hi =>
    ∃ mid, lo ≤ mid ∧ mid ≤ hi ∧ DecOne objs u t lo mid ∧ DecForest objs us ts mid hi
  | _, _, _, _ => False

/-- Decode-correctness of interleaved key/value slot sequences. -/
def DecPairs (objs : List PValue) :
    List Nat → List Nat → PyPairs → Nat → Nat → Prop
  | [], [], .nil, lo, hi => lo ≤ hi
  | ku :: kus, vu :: vus, .cons k v rest, lo, hi =>
    ∃ m1 m2, lo ≤ m1 ∧ m1 ≤ m2 ∧ m2 ≤ hi ∧
      DecOne objs ku k lo m1 ∧ DecOne objs vu v m1 m2 ∧
      DecPairs objs kus vus rest m2 hi
  | _, _, _, _, _ => False

/-- The round-trip simulation statement for one tree: archiving the tree's
root from any sufficiently fresh encoder state succeeds, and the slots it
wrote decode back to a structurally equal value. -/
def EncT (t : PyTree) : Prop :=
  ∀ (h0 hfull : List PyNode) (st : AState) (fuel : Nat),
    wfT t = true →
    ListPfx (pushTree t h0).1 hfull →
    RefFreshA st h0.length (pushTree t h0).1.length →
    1 ≤ st.objects.length →
    ClassInvA st →
    depthT t < fuel →
    ∃ u st',
      archive hfull fuel st (pushTree t h0).2 = .ok (u, st') ∧
      SlotsPres st.objects st'.objects ∧
      RefAddsA st st' h0.length (pushTree t h0).1.length ∧
      ClassInvA st' ∧
      ((t = .vnone ∧ u = 0 ∧ st' = st) ∨ u = st.objects.length) ∧
      DecOne st'.objects u t st.objects.length st'.objects.length

/-- Simulation statement for a forest of siblings (the NS.objects loop). -/
def EncF (ts : PyForest) : Prop :=
  ∀ (h0 hfull : List PyNode) (st : AState) (fuel : Nat),
    wfF ts = true →
    ListPfx (pushForest ts h0).1 hfull →
    RefFreshA st h0.length (pushForest ts h0).1.length →
    1 ≤ st.objects.length →
    ClassInvA st →
    depthF ts < fuel →
    ∃ us st',
      arc_list (archive hfull fuel) (pushForest ts h0).2 st = .ok (us, st') ∧
      SlotsPres st.objects st'.objects ∧
      RefAddsA st st' h0.length (pushForest ts h0).1.length ∧
      ClassInvA st' ∧
      DecForest st'.objects us ts st.objects.length st'.objects.length

/-- Simulation statement for dict entries (the NS.keys/NS.objects loop). -/
def EncP (ps : PyPairs) : Prop :=
  ∀ (h0 hfull : List PyNode) (st : AState) (fuel : Nat),
    wfP ps = true →
    ListPfx (pushPairs ps h0).1 hfull →
    RefFreshA st h0.length (pushPairs ps h0).1.length →
    1 ≤ st.objects.length →
    ClassInvA st →
    depthP ps < fuel →
    ∃ kus vus st',
      arc_pairs (archive hfull fuel) (pushPairs ps h0).2 st = .ok (kus, vus, st') ∧
      SlotsPres st.objects st'.objects ∧
      RefAddsA st st' h0.length (pushPairs ps h0).1.length ∧
      ClassInvA st' ∧
      DecPairs st'.objects kus vus ps st.objects.length st'.objects.length

theorem pyerr_bind_ok {α β : Type} (a : α) (f : α → Except PyErr β) :
    (Except.ok a >>= f) = f a := rfl

theorem pyerr_bind_error {α β : Type} (e : PyErr) (f : α → Except PyErr β) :
    ((Except.error e : Except PyErr α) >>= f) = Except.error e := rfl

theorem pyerr_bind_eq_ok {α β : Type} {x : Except PyErr α} {f : α → Except PyErr β}
    {y : β} (h : x >>= f = .ok y) : ∃ a, x = .ok a ∧ f a = .ok y := by
  cases x with
  | ok a => exact ⟨a, rfl, h⟩
  | error e => rw [pyerr_bind_error] at h; exact absurd h (by simp)

theorem pyerr_bind_eq_error {α β : Type} {x : Except PyErr α} {f : α → Except PyErr β}
    {e : PyErr} (h : x >>= f = .error e) :
    x = .error e ∨ ∃ a, x = .ok a ∧ f a = .error e := by
  cases x with
  | ok a => exact Or.inr ⟨a, rfl, h⟩
  | error e' =>
    rw [pyerr_bind_error] at h
    simp only [Except.error.injEq] at h
    exact Or.inl (by rw [h])

/-- C3: the timestamp delegate converts by the fixed offset 978307200.0 —
decoding adds it to the wire `NS.time` (so wire 0.0 becomes Unix
978307200.0 and wire -978307200.0 becomes Unix 0.0), and encoding the Unix
epoch timestamp 0.0 writes wire `NS.time = -978307200.0`. -/
theorem c3_timestamp_epoch_offset :
    (∀ (q : PyFloat) (st : UState) (deco : Deco),
      delegate_decode_archive deco .timestampDecD .dcycleToken
        [("NS.time", .pfloat q)] st
        = .ok (some (.dtimestamp (unix2apple_epoch_delta.add q)), st)) ∧
    decode_object 2 (initUState
        [.pstr "$null",
         .pdict [("$class", .puid 2), ("NS.time", .pfloat ⟨0, 1⟩)],
         .pdict [("$classname", .pstr "NSDate"),
                 ("$classes", .parray [.pstr "NSDate", .pstr "NSObject"])]] false) 1
      = .ok (.dtimestamp ⟨978307200, 1⟩,
          { objects := [.pstr "$null",
              .pdict [("$class", .puid 2), ("NS.time", .pfloat ⟨0, 1⟩)],
              .pdict [("$classname", .pstr "NSDate"),
                      ("$classes", .parray [.pstr "NSDate", .pstr "NSObject"])]],
            cache := [(1, .dtimestamp ⟨978307200, 1⟩), (1, .dcycleToken)],
            dheap := [], useOpaque := false, fabCache := [] }) ∧
    decode_object 2 (initUState
        [.pstr "$null",
         .pdict [("$class", .puid 2), ("NS.time", .pfloat ⟨-978307200, 1⟩)],
         .pdict [("$classname", .pstr "NSDate"),
                 ("$classes", .parray [.pstr "NSDate", .pstr "NSObject"])]] false) 1
      = .ok (.dtimestamp ⟨0, 1⟩,
          { objects := [.pstr "$null",
              .pdict [("$class", .puid 2), ("NS.time", .pfloat ⟨-978307200, 1⟩)],
              .pdict [("$classname", .pstr "NSDate"),
                      ("$classes", .parray [.pstr "NSDate", .pstr "NSObject"])]],
            cache := [(1, .dtimestamp ⟨0, 1⟩), (1, .dcycleToken)],
            dheap := [], useOpaque := false, fabCache := [] }) ∧
    archive [.timestampN ⟨0, 1⟩] 2 initAState 0
      = .ok (1,
          { class_cache := [("NSDate", 2)], ref_cache := [(0, 1)],
            objects := [.pstr "$null",
              .pdict [("$class", .puid 2), ("NS.time", .pfloat ⟨-978307200, 1⟩)],
              .pdict [("$classes", .parray [.pstr "NSDate", .pstr "NSObject"]),
                      ("$classname", .pstr "NSDate")]] }) :=
  ⟨fun _ _ _ => rfl, rfl, rfl, rfl⟩

/-- C4: a payload whose `$archiver` is not "NSKeyedArchiver", or whose
`$version` is not 100000, or whose `$top`/`$objects` entry is missing or
malformed, fails with the corresponding envelope error — uniformly in the
decoding fuel, in particular with zero fuel, so no table object is ever
materialized; and on a well-formed envelope decoding proceeds directly to
the root object with no envelope error. -/
theorem c4_envelope_validation :
    (∀ fuel useOp kvs, archiverFieldOk kvs = false →
        top_object fuel (.pdict kvs) useOp = .error .unsupportedArchiver) ∧
    (∀ fuel useOp kvs, archiverFieldOk kvs = true → versionFieldOk kvs = false →
        top_object fuel (.pdict kvs) useOp = .error .unsupportedArchiveVersion) ∧
    (∀ fuel useOp kvs, archiverFieldOk kvs = true → versionFieldOk kvs = true →
        topDictOf kvs = none →
        top_object fuel (.pdict kvs) useOp = .error .missingTopObject) ∧
    (∀ fuel useOp kvs top, archiverFieldOk kvs = true → versionFieldOk kvs = true →
        topDictOf kvs = some top → rootUidOf top = none →
        top_object fuel (.pdict kvs) useOp = .error .missingTopObjectUID) ∧
    (∀ fuel useOp kvs top n, archiverFieldOk kvs = true → versionFieldOk kvs = true →
        topDictOf kvs = some top → rootUidOf top = some n → objectsOf kvs = none →
        top_object fuel (.pdict kvs) useOp = .error .missingObjectsArray) ∧
    (∀ fuel useOp kvs top n objs, archiverFieldOk kvs = true → versionFieldOk kvs = true →
        topDictOf kvs = some top → rootUidOf top = some n → objectsOf kvs = some objs →
        top_object fuel (.pdict kvs) useOp = decode_object fuel (initUState objs useOp) n) := by
  refine ⟨?_, ?_, ?_, ?_, ?_, ?_⟩
  · intro fuel useOp kvs h
    simp [top_object, unpack_archive_header, h, pyerr_bind_error]
  · intro fuel useOp kvs h1 h2
    simp [top_object, unpack_archive_header, h1, h2, pyerr_bind_error]
  · intro fuel useOp kvs h1 h2 h3
    simp [top_object, unpack_archive_header, h1, h2, h3, pyerr_bind_error]
  · intro fuel useOp kvs top h1 h2 h3 h4
    simp [top_object, unpack_archive_header, h1, h2, h3, h4, pyerr_bind_error]
  · intro fuel useOp kvs top n h1 h2 h3 h4 h5
    simp [top_object, unpack_archive_header, h1, h2, h3, h4, h5, pyerr_bind_error]
  · intro fuel useOp kvs top n objs h1 h2 h3 h4 h5
    simp [top_object, unpack_archive_header, h1, h2, h3, h4, h5, pyerr_bind_ok]

theorem c4_envelope_validation_witness :
    archiverFieldOk [("$archiver", .pstr "NSArchiver")] = false ∧
    top_object 0 (.pdict [("$archiver", .pstr "NSArchiver")]) false
      = .error .unsupportedArchiver ∧
    archiverFieldOk [("$archiver", .pstr "NSKeyedArchiver"), ("$version", .pint 99999)]
      = true ∧
    versionFieldOk [("$archiver", .pstr "NSKeyedArchiver"), ("$version", .pint 99999)]
      = false ∧
    top_object 0 (.pdict [("$archiver", .pstr "NSKeyedArchiver"), ("$version", .pint 99999)])
      false = .error .unsupportedArchiveVersion :=
  ⟨rfl, c4_envelope_validation.1 0 false _ rfl, rfl, rfl,
   c4_envelope_validation.2.1 0 false _ rfl rfl⟩

/-- C5: a UID whose cache entry is still the CycleToken sentinel (as
installed by the replace-strategy timestamp delegate) fails with a
circular-reference error naming that UID when dereferenced again; in
particular a timestamp record whose NS.time field references its own UID
fails that way for every sufficient fuel — it neither succeeds nor runs
forever. -/
theorem c5_cycle_sentinel_rejected :
    (∀ fuel (st : UState) i, i ≠ 0 → alistGet st.cache i = some .dcycleToken →
        decode_object (fuel + 1) st i = .error (.circularReference i)) ∧
    (∀ fuel, 2 ≤ fuel →
        decode_object fuel (initUState
          [.pstr "$null",
           .pdict [("$class", .puid 2), ("NS.time", .puid 1)],
           .pdict [("$classname", .pstr "NSDate"),
                   ("$classes", .parray [.pstr "NSDate", .pstr "NSObject"])]] false) 1
          = .error (.circularReference 1)) := by
  constructor
  · intro fuel st i hi hc
    simp [decode_object, hi, hc]
  · intro fuel hfuel
    obtain ⟨k, rfl⟩ : ∃ k, fuel = k + 2 := ⟨fuel - 2, by omega⟩
    rfl

theorem c5_cycle_sentinel_rejected_witness :
    decode_object 1
      { objects := [], cache := [(1, .dcycleToken)], dheap := [],
        useOpaque := false, fabCache := [] } 1
      = .error (.circularReference 1) ∧
    decode_object 2 (initUState
      [.pstr "$null",
       .pdict [("$class", .puid 2), ("NS.time", .puid 1)],
       .pdict [("$classname", .pstr "NSDate"),
               ("$classes", .parray [.pstr "NSDate", .pstr "NSObject"])]] false) 1
      = .error (.circularReference 1) :=
  ⟨c5_cycle_sentinel_rejected.1 0 _ 1 (by decide) rfl,
   c5_cycle_sentinel_rejected.2 2 (by decide)⟩

/-- C8 counterexample: decoding a non-record (primitive) slot does NOT cache
the value — the unarchiver state comes back unchanged, with no cache entry
for the UID, contrary to the claim that the value is cached under i. -/
theorem c8_counterexample :
    decode_object 1 (initUState [.pstr "$null", .pint 5] false) 1
      = .ok (.dint 5, initUState [.pstr "$null", .pint 5] false) ∧
    (initUState [.pstr "$null", .pint 5] false).cache = [] :=
  ⟨rfl, rfl⟩

/-- C8 (amended): when the slot of a non-zero, uncached UID is not a keyed
record, the decoder returns the slot's primitive value verbatim with the
state unchanged — it does not cache it, so a later decode of the same UID
re-reads the same slot and returns the same stored value rather than being
served from the cache. -/
theorem c8_primitive_slot_verbatim :
    ∀ fuel (st : UState) i raw, i ≠ 0 → alistGet st.cache i = none →
      st.objects.get? i = some raw → (∀ kvs, raw ≠ .pdict kvs) →
      decode_object (fuel + 1) st i = .ok (pvalToDVal raw, st) := by
  intro fuel st i raw hi hc hobj hraw
  simp only [decode_object, hi, if_neg hi, hc]
  simp only [decode_slot, hobj]
  cases raw with
  | pdict kvs => exact absurd rfl (hraw kvs)
  | _ => rfl

theorem c8_primitive_slot_verbatim_witness :
    decode_object 3 (initUState [.pstr "$null", .pint 5] false) 1
      = .ok (.dint 5, initUState [.pstr "$null", .pint 5] false) :=
  c8_primitive_slot_verbatim 2 _ 1 (.pint 5) (by decide) rfl rfl
    (fun kvs h => PValue.noConfusion h)

/-- C7: at most one class-metadata record per distinct leading class name —
a (non-zero) cached leading name returns the cached UID with the state
untouched; a miss appends exactly one metadata record and caches its UID
under the chain's first element; concretely, encoding two distinct lists
produces a single NSArray metadata record referenced by both. -/
theorem c7_class_metadata_dedup :
    (∀ (st : AState) name rest u, alistGet st.class_cache name = some u → u ≠ 0 →
        uid_for_class_chain st (name :: rest) = .ok (u, st)) ∧
    (∀ (st : AState) name rest, alistGet st.class_cache name = none →
        uid_for_class_chain st (name :: rest)
          = .ok (st.objects.length,
              { st with
                class_cache := (name, st.objects.length) :: st.class_cache,
                objects := st.objects ++
                  [.pdict [("$classes", .parray ((name :: rest).map .pstr)),
                           ("$classname", .pstr name)]] })) ∧
    archive [.listN [], .listN [], .listN [0, 1]] 6 initAState 2
      = .ok (1,
          { class_cache := [("NSArray", 2)], ref_cache := [(1, 4), (0, 3), (2, 1)],
            objects := [.pstr "$null",
              .pdict [("$class", .puid 2),
                      ("NS.objects", .parray [.puid 3, .puid 4])],
              .pdict [("$classes", .parray [.pstr "NSArray", .pstr "NSObject"]),
                      ("$classname", .pstr "NSArray")],
              .pdict [("$class", .puid 2), ("NS.objects", .parray [])],
              .pdict [("$class", .puid 2), ("NS.objects", .parray [])]] }) := by
  refine ⟨?_, ?_, rfl⟩
  · intro st name rest u h hu
    simp [uid_for_class_chain, h, hu]
  · intro st name rest h
    simp [uid_for_class_chain, h]

theorem c7_class_metadata_dedup_witness :
    uid_for_class_chain
        { class_cache := [("NSArray", 2)], ref_cache := [], objects := [.pstr "$null"] }
        ["NSArray", "NSObject"]
      = .ok (2, { class_cache := [("NSArray", 2)], ref_cache := [],
                  objects := [.pstr "$null"] }) ∧
    uid_for_class_chain initAState ["NSArray", "NSObject"]
      = .ok (1,
          { class_cache := [("NSArray", 1)], ref_cache := [],
            objects := [.pstr "$null",
              .pdict [("$classes", .parray [.pstr "NSArray", .pstr "NSObject"]),
                      ("$classname", .pstr "NSArray")]] }) :=
  ⟨c7_class_metadata_dedup.1 _ "NSArray" ["NSObject"] 2 rfl (by decide),
   c7_class_metadata_dedup.2.1 _ "NSArray" ["NSObject"] rfl⟩

theorem make_class_total (names : List String) :
    ∀ cache, ∃ f cache', make_class (names.map .pstr) cache = .ok (f, cache') := by
  induction names with
  | nil => intro cache; exact ⟨.opaqueBase, cache, rfl⟩
  | cons n0 rest ih =>
    intro cache
    cases hc : alistGet cache n0 with
    | some k => exact ⟨k, cache, by simp [make_class, hc]⟩
    | none =>
      obtain ⟨fb, cache', hrec⟩ := ih cache
      exact ⟨.derived n0 fb, (n0, .derived n0 fb) :: cache',
        by simp [make_class, hc, hrec, pyerr_bind_ok]⟩

theorem make_class_fresh (names : List String) :
    ∀ cache, (∀ s ∈ names, alistGet cache s = none) →
    ∃ f cache', make_class (names.map .pstr) cache = .ok (f, cache') ∧
      get_class_chain f = names ∧
      (names = [] ∨ alistGet cache' names.headI = some f) := by
  induction names with
  | nil => intro cache _; exact ⟨.opaqueBase, cache, rfl, rfl, Or.inl rfl⟩
  | cons n0 rest ih =>
    intro cache hfresh
    have hc : alistGet cache n0 = none := hfresh n0 (by simp)
    obtain ⟨fb, cache', hrec, hchain, _⟩ :=
      ih cache (fun s hs => hfresh s (by simp [hs]))
    refine ⟨.derived n0 fb, (n0, .derived n0 fb) :: cache', ?_, ?_, ?_⟩
    · simp [make_class, hc, hrec, pyerr_bind_ok]
    · simp [get_class_chain, hchain]
    · right; simp [alistGet]

/-- C6 counterexample: with the opaque fallback, fabricating the chain
["B", "C"] first and then requesting the chain ["A", "B"] reuses the cached
fabrication of "B", so chainForType on the resulting type reconstructs
["A", "B", "C"], not the original chain ["A", "B"]. -/
theorem c6_counterexample :
    get_python_class (initUState [] true) [.pstr "B", .pstr "C"]
      = .ok (some (.opaqueD (.derived "B" (.derived "C" .opaqueBase))),
          { objects := [], cache := [], dheap := [], useOpaque := true,
            fabCache := [("B", .derived "B" (.derived "C" .opaqueBase)),
                         ("C", .derived "C" .opaqueBase)] }) ∧
    get_python_class
        { objects := [], cache := [], dheap := [], useOpaque := true,
          fabCache := [("B", .derived "B" (.derived "C" .opaqueBase)),
                       ("C", .derived "C" .opaqueBase)] }
        [.pstr "A", .pstr "B"]
      = .ok (some (.opaqueD (.derived "A" (.derived "B" (.derived "C" .opaqueBase)))),
          { objects := [], cache := [], dheap := [], useOpaque := true,
            fabCache := [("A", .derived "A" (.derived "B" (.derived "C" .opaqueBase))),
                         ("B", .derived "B" (.derived "C" .opaqueBase)),
                         ("C", .derived "C" .opaqueBase)] }) ∧
    get_class_chain (.derived "A" (.derived "B" (.derived "C" .opaqueBase)))
      = ["A", "B", "C"] ∧
    (["A", "B", "C"] : List String) ≠ ["A", "B"] :=
  ⟨rfl, rfl, rfl, by decide⟩

/-- C6 (amended): with the opaque fallback, classForChain on any nonempty
chain of names never reports not-found; when the chain's head has no base
registry entry and none of the chain's names has been fabricated yet, the
returned fabricated type is cached under the head, chainForType
reconstructs exactly the original chain, and repeating the same request
returns the same fabricated type with the cache unchanged.  (When a name
was already fabricated from a different chain, the cached fabrication is
reused and reconstruction follows it instead — see the counterexample.) -/
theorem c6_opaque_fallback_fabrication :
    (∀ (st : UState) (n0 : String) (rest : List String), st.useOpaque = true →
      ∃ d st', get_python_class st ((n0 :: rest).map .pstr) = .ok (some d, st')) ∧
    (∀ (st : UState) (n0 : String) (rest : List String), st.useOpaque = true →
      unarchive_class_map n0 = none →
      (∀ s ∈ n0 :: rest, alistGet st.fabCache s = none) →
      ∃ f fc,
        get_python_class st ((n0 :: rest).map .pstr)
          = .ok (some (.opaqueD f), { st with fabCache := fc }) ∧
        get_class_chain f = n0 :: rest ∧
        alistGet fc n0 = some f ∧
        get_python_class { st with fabCache := fc } ((n0 :: rest).map .pstr)
          = .ok (some (.opaqueD f), { st with fabCache := fc })) := by
  constructor
  · intro st n0 rest hop
    cases hb : unarchive_class_map n0 with
    | some k =>
      exact ⟨k, st, by simp [get_python_class, hop, hb]⟩
    | none =>
      obtain ⟨f, fc, hmk⟩ := make_class_total (n0 :: rest) st.fabCache
      rw [List.map_cons] at hmk
      exact ⟨.opaqueD f, { st with fabCache := fc },
        by simp [get_python_class, hop, hb, hmk, pyerr_bind_ok]⟩
  · intro st n0 rest hop hb hfresh
    obtain ⟨f, fc, hmk, hchain, hhd⟩ := make_class_fresh (n0 :: rest) st.fabCache hfresh
    have hhd' : alistGet fc n0 = some f := by
      rcases hhd with h | h
      · exact absurd h (by simp)
      · simpa using h
    rw [List.map_cons] at hmk
    refine ⟨f, fc, ?_, hchain, hhd', ?_⟩
    · simp [get_python_class, hop, hb, hmk, pyerr_bind_ok]
    · have hmk2 : make_class (.pstr n0 :: rest.map .pstr) fc = .ok (f, fc) := by
        simp [make_class, hhd']
      simp [get_python_class, hop, hb, hmk2, pyerr_bind_ok]

theorem c6_opaque_fallback_fabrication_witness :
    (initUState [] true).useOpaque = true ∧
    unarchive_class_map "Foo" = none ∧
    (∀ s ∈ ["Foo", "Bar"], alistGet (initUState [] true).fabCache s = none) ∧
    (∃ f fc,
      get_python_class (initUState [] true) (["Foo", "Bar"].map .pstr)
        = .ok (some (.opaqueD f), { initUState [] true with fabCache := fc }) ∧
      get_class_chain f = ["Foo", "Bar"] ∧
      alistGet fc "Foo" = some f ∧
      get_python_class { initUState [] true with fabCache := fc } (["Foo", "Bar"].map .pstr)
        = .ok (some (.opaqueD f), { initUState [] true with fabCache := fc })) :=
  ⟨rfl, rfl, fun _ _ => rfl,
   c6_opaque_fallback_fabrication.2 (initUState [] true) "Foo" ["Bar"] rfl rfl
     (fun _ _ => rfl)⟩

theorem stchain_refl (st : AState) : StChain st st :=
  ⟨fun _ _ _ hx => hx, le_refl _⟩

theorem stchain_trans {a b c : AState} (h1 : StChain a b) (h2 : StChain b c) :
    StChain a c :=
  ⟨fun x v hv hx => h2.1 x v hv (h1.1 x v hv hx), le_trans h1.2 h2.2⟩

theorem uid_chain_st {st : AState} {ch : List String} {c : Nat} {st' : AState}
    (h : uid_for_class_chain st ch = .ok (c, st')) :
    st'.ref_cache = st.ref_cache ∧ st'.class_cache.length ≥ st.class_cache.length ∧
    st.objects.length ≤ st'.objects.length := by
  cases ch with
  | nil => exact absurd h (by simp [uid_for_class_chain])
  | cons c0 rest =>
    simp only [uid_for_class_chain] at h
    split at h <;>
      (simp only [Except.ok.injEq, Prod.mk.injEq] at h
       obtain ⟨rfl, rfl⟩ := h
       simp)

theorem arc_list_st {arc : Arc}
    (harc : ∀ st r u st', arc st r = .ok (u, st') → StChain st st') :
    ∀ {rs : List Nat} {st : AState} {us : List Nat} {st' : AState},
      arc_list arc rs st = .ok (us, st') → StChain st st' := by
  intro rs
  induction rs with
  | nil =>
    intro st us st' h
    simp only [arc_list, Except.ok.injEq, Prod.mk.injEq] at h
    obtain ⟨rfl, rfl⟩ := h
    exact stchain_refl st
  | cons r rs ih =>
    intro st us st' h
    simp only [arc_list] at h
    obtain ⟨⟨u1, st1⟩, h1, h2⟩ := pyerr_bind_eq_ok h
    obtain ⟨⟨us2, st2⟩, h3, h4⟩ := pyerr_bind_eq_ok h2
    simp only [Except.ok.injEq, Prod.mk.injEq] at h4
    obtain ⟨rfl, rfl⟩ := h4
    exact stchain_trans (harc _ _ _ _ h1) (ih h3)

theorem arc_pairs_st {arc : Arc}
    (harc : ∀ st r u st', arc st r = .ok (u, st') → StChain st st') :
    ∀ {prs : List (Nat × Nat)} {st : AState} {kus vus : List Nat} {st' : AState},
      arc_pairs arc prs st = .ok (kus, vus, st') → StChain st st' := by
  intro prs
  induction prs with
  | nil =>
    intro st kus vus st' h
    simp only [arc_pairs, Except.ok.injEq, Prod.mk.injEq] at h
    obtain ⟨rfl, rfl, rfl⟩ := h
    exact stchain_refl st
  | cons p rest ih =>
    intro st kus vus st' h
    obtain ⟨k, v⟩ := p
    simp only [arc_pairs] at h
    obtain ⟨⟨ku1, st1⟩, h1, h2⟩ := pyerr_bind_eq_ok h
    obtain ⟨⟨vu1, st2⟩, h3, h4⟩ := pyerr_bind_eq_ok h2
    obtain ⟨⟨kus2, vus2, st3⟩, h5, h6⟩ := pyerr_bind_eq_ok h4
    simp only [Except.ok.injEq, Prod.mk.injEq] at h6
    obtain ⟨rfl, rfl, rfl⟩ := h6
    exact stchain_trans (harc _ _ _ _ h1)
      (stchain_trans (harc _ _ _ _ h3) (ih h5))

theorem etl_st {arc : Arc}
    (harc : ∀ st r u st', arc st r = .ok (u, st') → StChain st st') :
    ∀ {st : AState} {r : Nat} {node : PyNode} {rec' : List (String × PValue)}
      {st' : AState},
      encode_top_level arc st r node = .ok (rec', st') → StChain st st' := by
  intro st r node rec' st' h
  cases node with
  | listN rs =>
    simp only [encode_top_level] at h
    obtain ⟨⟨c1, st1⟩, h1, h2⟩ := pyerr_bind_eq_ok h
    obtain ⟨⟨us2, st2⟩, h3, h4⟩ := pyerr_bind_eq_ok h2
    simp only [Except.ok.injEq, Prod.mk.injEq] at h4
    obtain ⟨rfl, rfl⟩ := h4
    obtain ⟨he, _, hl⟩ := uid_chain_st h1
    exact stchain_trans ⟨fun x v hv hx => by rw [he]; exact hx, hl⟩ (arc_list_st harc h3)
  | setN rs =>
    simp only [encode_top_level] at h
    obtain ⟨⟨c1, st1⟩, h1, h2⟩ := pyerr_bind_eq_ok h
    obtain ⟨⟨us2, st2⟩, h3, h4⟩ := pyerr_bind_eq_ok h2
    simp only [Except.ok.injEq, Prod.mk.injEq] at h4
    obtain ⟨rfl, rfl⟩ := h4
    obtain ⟨he, _, hl⟩ := uid_chain_st h1
    exact stchain_trans ⟨fun x v hv hx => by rw [he]; exact hx, hl⟩ (arc_list_st harc h3)
  | dictN prs =>
    simp only [encode_top_level] at h
    obtain ⟨⟨c1, st1⟩, h1, h2⟩ := pyerr_bind_eq_ok h
    obtain ⟨⟨kus2, vus2, st2⟩, h3, h4⟩ := pyerr_bind_eq_ok h2
    simp only [Except.ok.injEq, Prod.mk.injEq] at h4
    obtain ⟨rfl, rfl⟩ := h4
    obtain ⟨he, _, hl⟩ := uid_chain_st h1
    exact stchain_trans ⟨fun x v hv hx => by rw [he]; exact hx, hl⟩ (arc_pairs_st harc h3)
  | timestampN q =>
    rw [show encode_top_level arc st r (.timestampN q) =
        (do
          let (c, st) ← uid_for_class_chain st ["NSDate", "NSObject"]
          .ok ([("$class", .puid c),
                ("NS.time", .pfloat (q.sub unix2apple_epoch_delta))], st)) from rfl] at h
    obtain ⟨⟨c1, st1⟩, h1, h2⟩ := pyerr_bind_eq_ok h
    simp only [Except.ok.injEq, Prod.mk.injEq] at h2
    obtain ⟨rfl, rfl⟩ := h2
    obtain ⟨he, _, hl⟩ := uid_chain_st h1
    exact ⟨fun x v hv hx => by rw [he]; exact hx, hl⟩
  | mutListN rs =>
    rw [show encode_top_level arc st r (.mutListN rs) =
        (do
          let _ ← uid_for_class_chain st ["NSMutableArray", "NSArray", "NSObject"]
          (.error .attributeError : Except PyErr (List (String × PValue) × AState)))
      from rfl] at h
    obtain ⟨_, _, h2⟩ := pyerr_bind_eq_ok h
    exact absurd h2 (by simp)
  | mutDictN prs =>
    rw [show encode_top_level arc st r (.mutDictN prs) =
        (do
          let _ ← uid_for_class_chain st
            ["NSMutableDictionary", "NSDictionary", "NSObject"]
          (.error .attributeError : Except PyErr (List (String × PValue) × AState)))
      from rfl] at h
    obtain ⟨_, _, h2⟩ := pyerr_bind_eq_ok h
    exact absurd h2 (by simp)
  | mutSetN rs =>
    rw [show encode_top_level arc st r (.mutSetN rs) =
        (do
          let _ ← uid_for_class_chain st ["NSMutableSet", "NSSet", "NSObject"]
          (.error .attributeError : Except PyErr (List (String × PValue) × AState)))
      from rfl] at h
    obtain ⟨_, _, h2⟩ := pyerr_bind_eq_ok h
    exact absurd h2 (by simp)
  | mutDataN bs =>
    rw [show encode_top_level arc st r (.mutDataN bs) =
        (do
          let _ ← uid_for_class_chain st ["NSMutableData", "NSData", "NSObject"]
          (.error .attributeError : Except PyErr (List (String × PValue) × AState)))
      from rfl] at h
    obtain ⟨_, _, h2⟩ := pyerr_bind_eq_ok h
    exact absurd h2 (by simp)
  | customN nm => exact absurd h (by simp [encode_top_level, get_objc_class,
      archive_class_map])
  | noneN => exact absurd h (by simp [encode_top_level, get_objc_class,
      archive_class_map])
  | boolN b => exact absurd h (by simp [encode_top_level, get_objc_class,
      archive_class_map])
  | intN n => exact absurd h (by simp [encode_top_level, get_objc_class,
      archive_class_map])
  | floatN q => exact absurd h (by simp [encode_top_level, get_objc_class,
      archive_class_map])
  | strN s => exact absurd h (by simp [encode_top_level, get_objc_class,
      archive_class_map])
  | bytesN bs => exact absurd h (by simp [encode_top_level, get_objc_class,
      archive_class_map])
  | uidN n => exact absurd h (by simp [encode_top_level, get_objc_class,
      archive_class_map])

theorem archive_uncached_st {arcf : Arc}
    (harc : ∀ st r u st', arcf st r = .ok (u, st') → StChain st st') :
    ∀ {st : AState} {r : Nat} {node : PyNode} {u : Nat} {st' : AState},
      (alistGet st.ref_cache r = none ∨ alistGet st.ref_cache r = some 0) →
      archive_uncached arcf st r node = .ok (u, st') → StChain st st' := by
  intro st r node u st' hmiss h
  have hcons : StChain st
      { st with ref_cache := (r, st.objects.length) :: st.ref_cache } := by
    refine ⟨fun x v hv hx => ?_, le_refl _⟩
    simp only [alistGet]
    by_cases hxr : r = x
    · subst hxr
      rcases hmiss with hm | hm <;> rw [hm] at hx <;> simp at hx
      exact absurd hx.symm hv
    · rw [if_neg hxr]; exact hx
  simp only [archive_uncached] at h
  by_cases hp : isPrimitiveNode node = true
  · rw [if_pos hp] at h
    simp only [Except.ok.injEq, Prod.mk.injEq] at h
    obtain ⟨rfl, rfl⟩ := h
    refine stchain_trans hcons ⟨fun x v hv hx => hx, ?_⟩
    simp
  · rw [if_neg hp] at h
    obtain ⟨⟨rec1, st1⟩, h1, h2⟩ := pyerr_bind_eq_ok h
    simp only [Except.ok.injEq, Prod.mk.injEq] at h2
    obtain ⟨rfl, rfl⟩ := h2
    have hmid : StChain
        { st with ref_cache := (r, st.objects.length) :: st.ref_cache,
                  objects := st.objects ++ [.pdict []] } st1 :=
      etl_st harc h1
    refine stchain_trans hcons (stchain_trans ?_
      (stchain_trans hmid ⟨fun x v hv hx => hx, by simp⟩))
    exact ⟨fun x v hv hx => hx, by simp⟩

theorem archive_st (h : List PyNode) :
    ∀ fuel (st : AState) r u st', archive h fuel st r = .ok (u, st') →
      StChain st st' := by
  intro fuel
  induction fuel with
  | zero => intro st r u st' hh; exact absurd hh (by simp [archive])
  | succ fuel ih =>
    intro st r u st' hh
    simp only [archive] at hh
    split at hh
    · exact absurd hh (by simp)
    · split at hh
      · simp only [Except.ok.injEq, Prod.mk.injEq] at hh
        obtain ⟨rfl, rfl⟩ := hh
        exact stchain_refl st
      · split at hh
        · simp only [Except.ok.injEq, Prod.mk.injEq] at hh
          obtain ⟨rfl, rfl⟩ := hh
          exact stchain_refl st
        · rename_i hhit
          refine archive_uncached_st (fun a b c d he => ih a b c d he) ?_ hh
          cases hc : alistGet st.ref_cache r with
          | none => exact Or.inl rfl
          | some v =>
            rw [hc] at hhit
            have hhit' : (if v = 0 then none else some v : Option Nat) = none := hhit
            by_cases hv : v = 0
            · exact Or.inr (by rw [hv])
            · rw [if_neg hv] at hhit'; exact absurd hhit' (by simp)

/-- C2: per-identity dedup in one encode call — a cached identity is served
its previously assigned UID with no new table entry and no state change;
an uncached identity is assigned exactly the next UID and that binding is
installed before any recursion and still present afterwards; concretely, a
list referenced twice yields one record with both references resolving to
the same UID, and a self-referential list archives without error, its single
record referring back to its own UID. -/
theorem c2_identity_dedup :
    (∀ fuel (h : List PyNode) (st : AState) r node u,
        h.get? r = some node → node ≠ .noneN →
        alistGet st.ref_cache r = some u → u ≠ 0 →
        archive h (fuel + 1) st r = .ok (u, st)) ∧
    (∀ fuel (h : List PyNode) (st : AState) r node u st',
        h.get? r = some node → node ≠ .noneN →
        alistGet st.ref_cache r = none → 1 ≤ st.objects.length →
        archive h (fuel + 1) st r = .ok (u, st') →
        u = st.objects.length ∧ alistGet st'.ref_cache r = some u) ∧
    archive [.listN [1, 1], .listN []] 5 initAState 0
      = .ok (1,
          { class_cache := [("NSArray", 2)], ref_cache := [(1, 3), (0, 1)],
            objects := [.pstr "$null",
              .pdict [("$class", .puid 2),
                      ("NS.objects", .parray [.puid 3, .puid 3])],
              .pdict [("$classes", .parray [.pstr "NSArray", .pstr "NSObject"]),
                      ("$classname", .pstr "NSArray")],
              .pdict [("$class", .puid 2), ("NS.objects", .parray [])]] }) ∧
    archive [.listN [0]] 5 initAState 0
      = .ok (1,
          { class_cache := [("NSArray", 2)], ref_cache := [(0, 1)],
            objects := [.pstr "$null",
              .pdict [("$class", .puid 2), ("NS.objects", .parray [.puid 1])],
              .pdict [("$classes", .parray [.pstr "NSArray", .pstr "NSObject"]),
                      ("$classname", .pstr "NSArray")]] }) := by
  refine ⟨?_, ?_, rfl, rfl⟩
  · intro fuel h st r node u hn hnone hc hu
    have hn' : h[r]? = some node := by rw [← List.get?_eq_getElem?]; exact hn
    simp [archive, hn', hnone, hc, hu]
  · intro fuel h st r node u st' hn hnone hc hlen hh
    have hn' : h[r]? = some node := by rw [← List.get?_eq_getElem?]; exact hn
    have hstep : archive h (fuel + 1) st r
        = archive_uncached (archive h fuel) st r node := by
      simp [archive, hn', hnone, hc]
    rw [hstep] at hh
    simp only [archive_uncached] at hh
    have hins : alistGet ((r, st.objects.length) :: st.ref_cache) r
        = some st.objects.length := by simp [alistGet]
    by_cases hp : isPrimitiveNode node = true
    · rw [if_pos hp] at hh
      simp only [Except.ok.injEq, Prod.mk.injEq] at hh
      obtain ⟨rfl, rfl⟩ := hh
      exact ⟨rfl, hins⟩
    · rw [if_neg hp] at hh
      obtain ⟨⟨rec1, st1⟩, h1, h2⟩ := pyerr_bind_eq_ok hh
      simp only [Except.ok.injEq, Prod.mk.injEq] at h2
      obtain ⟨rfl, rfl⟩ := h2
      refine ⟨rfl, ?_⟩
      have hmid := etl_st (fun a b c d he => archive_st h fuel a b c d he) h1
      exact hmid.1 r st.objects.length (by omega) hins

theorem c2_identity_dedup_witness :
    archive [.intN 7] 1
        { class_cache := [], ref_cache := [(0, 1)],
          objects := [.pstr "$null", .pint 7] } 0
      = .ok (1, { class_cache := [], ref_cache := [(0, 1)],
                  objects := [.pstr "$null", .pint 7] }) ∧
    (1 = (initAState).objects.length ∧
      alistGet ({ class_cache := [], ref_cache := [(0, 1)],
                  objects := [.pstr "$null", .pint 7] } : AState).ref_cache 0
        = some 1) :=
  ⟨c2_identity_dedup.1 0 _ _ 0 (.intN 7) 1 rfl (by decide) rfl (by decide),
   c2_identity_dedup.2.1 0 [.intN 7] initAState 0 (.intN 7) 1
     { class_cache := [], ref_cache := [(0, 1)],
       objects := [.pstr "$null", .pint 7] }
     rfl (by decide) rfl (by decide) rfl⟩

theorem uid_chain_err {st : AState} {ch : List String} {e : PyErr}
    (h : uid_for_class_chain st ch = .error e) : e = .indexError := by
  cases ch with
  | nil =>
    simp only [uid_for_class_chain, Except.error.injEq] at h
    exact h.symm
  | cons c0 rest =>
    simp only [uid_for_class_chain] at h
    split at h <;> exact absurd h (by simp)

theorem arc_list_maperr {hp : List PyNode} {arc : Arc}
    (harc : ∀ st r b, arc st r = .error (.missingClassMappingE b) →
      ∃ nm, hp.get? b = some (.customN nm)) :
    ∀ {rs : List Nat} {st : AState} {b : Nat},
      arc_list arc rs st = .error (.missingClassMappingE b) →
      ∃ nm, hp.get? b = some (.customN nm) := by
  intro rs
  induction rs with
  | nil => intro st b h; exact absurd h (by simp [arc_list])
  | cons r rs ih =>
    intro st b h
    simp only [arc_list] at h
    rcases pyerr_bind_eq_error h with h1 | ⟨⟨u1, st1⟩, _, h2⟩
    · exact harc _ _ _ h1
    · rcases pyerr_bind_eq_error h2 with h3 | ⟨⟨us2, st2⟩, _, h4⟩
      · exact ih h3
      · exact absurd h4 (by simp)

theorem arc_pairs_maperr {hp : List PyNode} {arc : Arc}
    (harc : ∀ st r b, arc st r = .error (.missingClassMappingE b) →
      ∃ nm, hp.get? b = some (.customN nm)) :
    ∀ {prs : List (Nat × Nat)} {st : AState} {b : Nat},
      arc_pairs arc prs st = .error (.missingClassMappingE b) →
      ∃ nm, hp.get? b = some (.customN nm) := by
  intro prs
  induction prs with
  | nil => intro st b h; exact absurd h (by simp [arc_pairs])
  | cons p rest ih =>
    intro st b h
    obtain ⟨k, v⟩ := p
    simp only [arc_pairs] at h
    rcases pyerr_bind_eq_error h with h1 | ⟨⟨ku1, st1⟩, _, h2⟩
    · exact harc _ _ _ h1
    · rcases pyerr_bind_eq_error h2 with h3 | ⟨⟨vu1, st2⟩, _, h4⟩
      · exact harc _ _ _ h3
      · rcases pyerr_bind_eq_error h4 with h5 | ⟨⟨kus, vus, st3⟩, _, h6⟩
        · exact ih h5
        · exact absurd h6 (by simp)

theorem etl_maperr {hp : List PyNode} {arc : Arc}
    (harc : ∀ st r b, arc st r = .error (.missingClassMappingE b) →
      ∃ nm, hp.get? b = some (.customN nm)) :
    ∀ {st : AState} {r : Nat} {node : PyNode} {b : Nat},
      hp.get? r = some node → node ≠ .noneN → isPrimitiveNode node = false →
      encode_top_level arc st r node = .error (.missingClassMappingE b) →
      ∃ nm, hp.get? b = some (.customN nm) := by
  intro st r node b hn hnn hprim h
  cases node with
  | listN rs =>
    simp only [encode_top_level] at h
    rcases pyerr_bind_eq_error h with h1 | ⟨⟨c1, st1⟩, _, h2⟩
    · exact absurd (uid_chain_err h1) (by simp)
    · rcases pyerr_bind_eq_error h2 with h3 | ⟨⟨us, st2⟩, _, h4⟩
      · exact arc_list_maperr harc h3
      · exact absurd h4 (by simp)
  | setN rs =>
    simp only [encode_top_level] at h
    rcases pyerr_bind_eq_error h with h1 | ⟨⟨c1, st1⟩, _, h2⟩
    · exact absurd (uid_chain_err h1) (by simp)
    · rcases pyerr_bind_eq_error h2 with h3 | ⟨⟨us, st2⟩, _, h4⟩
      · exact arc_list_maperr harc h3
      · exact absurd h4 (by simp)
  | dictN prs =>
    simp only [encode_top_level] at h
    rcases pyerr_bind_eq_error h with h1 | ⟨⟨c1, st1⟩, _, h2⟩
    · exact absurd (uid_chain_err h1) (by simp)
    · rcases pyerr_bind_eq_error h2 with h3 | ⟨⟨kus, vus, st2⟩, _, h4⟩
      · exact arc_pairs_maperr harc h3
      · exact absurd h4 (by simp)
  | timestampN q =>
    rw [show encode_top_level arc st r (.timestampN q) =
        (do
          let (c, st) ← uid_for_class_chain st ["NSDate", "NSObject"]
          .ok ([("$class", .puid c),
                ("NS.time", .pfloat (q.sub unix2apple_epoch_delta))], st)) from rfl] at h
    rcases pyerr_bind_eq_error h with h1 | ⟨⟨c1, st1⟩, _, h2⟩
    · exact absurd (uid_chain_err h1) (by simp)
    · exact absurd h2 (by simp)
  | mutListN rs =>
    rw [show encode_top_level arc st r (.mutListN rs) =
        (do
          let _ ← uid_for_class_chain st ["NSMutableArray", "NSArray", "NSObject"]
          (.error .attributeError : Except PyErr (List (String × PValue) × AState)))
      from rfl] at h
    rcases pyerr_bind_eq_error h with h1 | ⟨_, _, h2⟩
    · exact absurd (uid_chain_err h1) (by simp)
    · exact absurd h2 (by simp)
  | mutDictN prs =>
    rw [show encode_top_level arc st r (.mutDictN prs) =
        (do
          let _ ← uid_for_class_chain st
            ["NSMutableDictionary", "NSDictionary", "NSObject"]
          (.error .attributeError : Except PyErr (List (String × PValue) × AState)))
      from rfl] at h
    rcases pyerr_bind_eq_error h with h1 | ⟨_, _, h2⟩
    · exact absurd (uid_chain_err h1) (by simp)
    · exact absurd h2 (by simp)
  | mutSetN rs =>
    rw [show encode_top_level arc st r (.mutSetN rs) =
        (do
          let _ ← uid_for_class_chain st ["NSMutableSet", "NSSet", "NSObject"]
          (.error .attributeError : Except PyErr (List (String × PValue) × AState)))
      from rfl] at h
    rcases pyerr_bind_eq_error h with h1 | ⟨_, _, h2⟩
    · exact absurd (uid_chain_err h1) (by simp)
    · exact absurd h2 (by simp)
  | mutDataN bs =>
    rw [show encode_top_level arc st r (.mutDataN bs) =
        (do
          let _ ← uid_for_class_chain st ["NSMutableData", "NSData", "NSObject"]
          (.error .attributeError : Except PyErr (List (String × PValue) × AState)))
      from rfl] at h
    rcases pyerr_bind_eq_error h with h1 | ⟨_, _, h2⟩
    · exact absurd (uid_chain_err h1) (by simp)
    · exact absurd h2 (by simp)
  | customN nm =>
    simp only [encode_top_level, get_objc_class, archive_class_map,
      Except.error.injEq, PyErr.missingClassMappingE.injEq] at h
    exact ⟨nm, h ▸ hn⟩
  | noneN => exact absurd rfl hnn
  | boolN bb => simp [isPrimitiveNode] at hprim
  | intN n => simp [isPrimitiveNode] at hprim
  | floatN q => simp [isPrimitiveNode] at hprim
  | strN s => simp [isPrimitiveNode] at hprim
  | bytesN bs => simp [isPrimitiveNode] at hprim
  | uidN n => simp [isPrimitiveNode] at hprim

theorem archive_maperr (hp : List PyNode) :
    ∀ fuel (st : AState) r b,
      archive hp fuel st r = .error (.missingClassMappingE b) →
      ∃ nm, hp.get? b = some (.customN nm) := by
  intro fuel
  induction fuel with
  | zero => intro st r b hh; exact absurd hh (by simp [archive])
  | succ fuel ih =>
    intro st r b hh
    simp only [archive] at hh
    split at hh
    · exact absurd hh (by simp)
    · rename_i node hn
      split at hh
      · exact absurd hh (by simp)
      · rename_i hnone
        split at hh
        · exact absurd hh (by simp)
        · simp only [archive_uncached] at hh
          by_cases hprim : isPrimitiveNode node = true
          · rw [if_pos hprim] at hh
            exact absurd hh (by simp)
          · rw [if_neg hprim] at hh
            rcases pyerr_bind_eq_error hh with h1 | ⟨⟨rec1, st1⟩, _, h2⟩
            · exact etl_maperr (fun a b c he => ih a b c he) hn hnone
                (by simpa using hprim) h1
            · exact absurd h2 (by simp)

/-- C9 counterexample: an int has no Class Registry entry and is none of the
three container shapes, yet encoding it succeeds (it is appended as an
inline primitive slot), contradicting the claim that encoding such a value
fails with an unmapped-type error. -/
theorem c9_counterexample :
    archive_class_map (.intN 5) = none ∧
    archive [.intN 5] 2 initAState 0
      = .ok (1, { class_cache := [], ref_cache := [(0, 1)],
                  objects := [.pstr "$null", .pint 5] }) :=
  ⟨rfl, rfl⟩

/-- C9 (amended): for every value whose runtime type is none of the three
built-in container shapes, none of the inline/primitive wire types (int,
float, bool, str, bytes, uid), not None, and has no Class Registry entry
(the `customN` objects of the model), encoding fails with the unmapped-type
error carrying that very object; conversely every unmapped-type error
produced anywhere during encoding carries an object of such an unmapped
type, so a value of container shape, primitive type, or with a registry
entry never itself triggers this error. -/
theorem c9_unmapped_type_error :
    (∀ fuel (hp : List PyNode) (st : AState) r name,
        hp.get? r = some (.customN name) → alistGet st.ref_cache r = none →
        archive hp (fuel + 1) st r = .error (.missingClassMappingE r)) ∧
    (∀ (hp : List PyNode) fuel (st : AState) r b,
        archive hp fuel st r = .error (.missingClassMappingE b) →
        ∃ nm, hp.get? b = some (.customN nm)) := by
  constructor
  · intro fuel hp st r name hn hc
    have hn' : hp[r]? = some (.customN name) := by
      rw [← List.get?_eq_getElem?]; exact hn
    have hstep : archive hp (fuel + 1) st r
        = archive_uncached (archive hp fuel) st r (.customN name) := by
      simp [archive, hn', hc]
    rw [hstep]
    simp [archive_uncached, encode_top_level, get_objc_class, archive_class_map,
      isPrimitiveNode, pyerr_bind_error]
  · intro hp fuel st r b hh
    exact archive_maperr hp fuel st r b hh

theorem c9_unmapped_type_error_witness :
    archive [.customN "Blob"] 1 initAState 0 = .error (.missingClassMappingE 0) ∧
    (∃ nm, [PyNode.customN "Blob"].get? 0 = some (.customN nm)) :=
  ⟨c9_unmapped_type_error.1 0 _ _ 0 "Blob" rfl rfl,
   c9_unmapped_type_error.2 [.customN "Blob"] 1 initAState 0 0
     (c9_unmapped_type_error.1 0 _ _ 0 "Blob" rfl rfl)⟩

theorem make_class_no_assert :
    ∀ (cs : List PValue) (cache : List (String × FabType)),
      make_class cs cache ≠ .error .assertFailed := by
  intro cs
  induction cs with
  | nil => intro cache h; exact absurd h (by simp [make_class])
  | cons c rest ih =>
    intro cache h
    cases c <;> simp only [make_class] at h <;> try exact absurd h (by simp)
    rename_i s
    cases hc : alistGet cache s with
    | some k => rw [hc] at h; exact absurd h (by simp)
    | none =>
      rw [hc] at h
      rcases pyerr_bind_eq_error h with h1 | ⟨⟨fb, c2⟩, _, h2⟩
      · exact ih cache h1
      · exact absurd h2 (by simp)

theorem get_python_class_no_assert (st : UState) (classes : List PValue) :
    get_python_class st classes ≠ .error .assertFailed := by
  intro h
  cases classes with
  | nil => exact absurd h (by simp [get_python_class])
  | cons c0 rest =>
    simp only [get_python_class] at h
    split at h
    · split at h
      · exact absurd h (by simp)
      · rcases pyerr_bind_eq_error h with h1 | ⟨⟨f1, fc1⟩, _, h2⟩
        · exact make_class_no_assert _ _ h1
        · exact absurd h2 (by simp)
    · exact absurd h (by simp)

theorem class_for_uid_no_assert (st : UState) (index : Nat) :
    class_for_uid st index ≠ .error .assertFailed := by
  intro h
  simp only [class_for_uid] at h
  repeat' split at h
  all_goals
    first
    | exact absurd h (by simp)
    | (rcases pyerr_bind_eq_error h with h1 | ⟨⟨k1, st1⟩, _, h2⟩
       · exact get_python_class_no_assert _ _ h1
       · split at h2 <;> exact absurd h2 (by simp))

theorem decode_key_no_assert {deco : Deco}
    (hdeco : ∀ st i, deco st i ≠ .error .assertFailed)
    (st : UState) (kvs : List (String × PValue)) (key : String) :
    decode_key deco st kvs key ≠ .error .assertFailed := by
  intro h
  simp only [decode_key] at h
  split at h
  · exact hdeco _ _ h
  · exact absurd h (by simp)
  · exact absurd h (by simp)

theorem decode_index_no_assert {deco : Deco}
    (hdeco : ∀ st i, deco st i ≠ .error .assertFailed)
    (st : UState) (v : PValue) :
    decode_index deco st v ≠ .error .assertFailed := by
  intro h
  cases v <;> simp only [decode_index] at h <;> try exact absurd h (by simp)
  · exact hdeco _ _ h
  · rename_i n
    split at h
    · exact absurd h (by simp)
    · exact hdeco _ _ h
  · exact hdeco _ _ h

theorem dict_loop_no_assert {deco : Deco}
    (hdeco : ∀ st i, deco st i ≠ .error .assertFailed) (m : Nat) :
    ∀ (ks : List PValue) (vv : DVal) (st : UState),
      dict_loop deco m ks vv st ≠ .error .assertFailed := by
  intro ks
  induction ks with
  | nil => intro vv st h; exact absurd h (by simp [dict_loop])
  | cons k ks ih =>
    intro vv st h
    cases vv
    case dparr xs =>
      cases xs with
      | nil => exact absurd h (by simp [dict_loop])
      | cons v vs =>
        simp only [dict_loop] at h
        rcases pyerr_bind_eq_error h with h1 | ⟨⟨kd, st1⟩, _, h2⟩
        · exact decode_index_no_assert hdeco _ _ h1
        · rcases pyerr_bind_eq_error h2 with h3 | ⟨⟨vd, st2⟩, _, h4⟩
          · exact decode_index_no_assert hdeco _ _ h3
          · split at h4
            · split at h4
              · exact ih _ _ h4
              · exact absurd h4 (by simp)
            · exact absurd h4 (by simp)
    all_goals exact absurd h (by simp [dict_loop])

theorem arr_loop_no_assert {deco : Deco}
    (hdeco : ∀ st i, deco st i ≠ .error .assertFailed) (m : Nat) :
    ∀ (vs : List PValue) (st : UState),
      arr_loop deco m vs st ≠ .error .assertFailed := by
  intro vs
  induction vs with
  | nil => intro st h; exact absurd h (by simp [arr_loop])
  | cons v vs ih =>
    intro st h
    simp only [arr_loop] at h
    rcases pyerr_bind_eq_error h with h1 | ⟨⟨vd, st1⟩, _, h2⟩
    · exact decode_index_no_assert hdeco _ _ h1
    · split at h2
      · exact ih _ h2
      · exact absurd h2 (by simp)

theorem set_loop_no_assert {deco : Deco}
    (hdeco : ∀ st i, deco st i ≠ .error .assertFailed) (m : Nat) :
    ∀ (vs : List PValue) (st : UState),
      set_loop deco m vs st ≠ .error .assertFailed := by
  intro vs
  induction vs with
  | nil => intro st h; exact absurd h (by simp [set_loop])
  | cons v vs ih =>
    intro st h
    simp only [set_loop] at h
    rcases pyerr_bind_eq_error h with h1 | ⟨⟨vd, st1⟩, _, h2⟩
    · exact decode_index_no_assert hdeco _ _ h1
    · split at h2
      · split at h2
        · exact ih _ h2
        · exact absurd h2 (by simp)
      · exact absurd h2 (by simp)

theorem opaque_loop_no_assert {deco : Deco}
    (hdeco : ∀ st i, deco st i ≠ .error .assertFailed) (m : Nat)
    (allkvs : List (String × PValue)) :
    ∀ (rest : List (String × PValue)) (st : UState),
      opaque_loop deco m allkvs rest st ≠ .error .assertFailed := by
  intro rest
  induction rest with
  | nil => intro st h; exact absurd h (by simp [opaque_loop])
  | cons p rest ih =>
    intro st h
    obtain ⟨k, v⟩ := p
    simp only [opaque_loop] at h
    split at h
    · exact ih _ h
    · rcases pyerr_bind_eq_error h with h1 | ⟨⟨dv, st1⟩, _, h2⟩
      · exact decode_key_no_assert hdeco _ _ _ h1
      · split at h2
        · exact ih _ h2
        · exact absurd h2 (by simp)

theorem dda_no_assert {deco : Deco}
    (hdeco : ∀ st i, deco st i ≠ .error .assertFailed)
    (d : Delegate) (self : DVal) (kvs : List (String × PValue)) (st : UState) :
    delegate_decode_archive deco d self kvs st ≠ .error .assertFailed := by
  intro h
  cases d with
  | dictD | mutableDictD =>
    simp only [delegate_decode_archive] at h
    rcases pyerr_bind_eq_error h with h1 | ⟨⟨kv1, st1⟩, _, h2⟩
    · exact decode_key_no_assert hdeco _ _ _ h1
    · rcases pyerr_bind_eq_error h2 with h3 | ⟨⟨vv1, st2⟩, _, h4⟩
      · exact decode_key_no_assert hdeco _ _ _ h3
      · cases self
        case dref m =>
          cases kv1
          case dparr ks =>
            dsimp only at h4
            rcases pyerr_bind_eq_error h4 with h5 | ⟨st3, _, h6⟩
            · exact dict_loop_no_assert hdeco _ _ _ _ h5
            · exact absurd h6 (by simp)
          all_goals exact absurd h4 (by simp)
        all_goals exact absurd h4 (by simp)
  | arrayD | mutableArrayD =>
    simp only [delegate_decode_archive] at h
    rcases pyerr_bind_eq_error h with h1 | ⟨⟨vv1, st1⟩, _, h2⟩
    · exact decode_key_no_assert hdeco _ _ _ h1
    · cases self
      case dref m =>
        cases vv1
        case dparr vs =>
          dsimp only at h2
          rcases pyerr_bind_eq_error h2 with h3 | ⟨st2, _, h4⟩
          · exact arr_loop_no_assert hdeco _ _ _ h3
          · exact absurd h4 (by simp)
        all_goals exact absurd h2 (by simp)
      all_goals exact absurd h2 (by simp)
  | setD | mutableSetD =>
    simp only [delegate_decode_archive] at h
    rcases pyerr_bind_eq_error h with h1 | ⟨⟨vv1, st1⟩, _, h2⟩
    · exact decode_key_no_assert hdeco _ _ _ h1
    · cases self
      case dref m =>
        cases vv1
        case dparr vs =>
          dsimp only at h2
          rcases pyerr_bind_eq_error h2 with h3 | ⟨st2, _, h4⟩
          · exact set_loop_no_assert hdeco _ _ _ h3
          · exact absurd h4 (by simp)
        all_goals exact absurd h2 (by simp)
      all_goals exact absurd h2 (by simp)
  | mutableDataD =>
    simp only [delegate_decode_archive] at h
    rcases pyerr_bind_eq_error h with h1 | ⟨⟨dv1, st1⟩, _, h2⟩
    · exact decode_key_no_assert hdeco _ _ _ h1
    · cases self
      case dref m =>
        cases dv1
        case dbytes bs =>
          dsimp only at h2
          split at h2 <;> exact absurd h2 (by simp)
        all_goals exact absurd h2 (by simp)
      all_goals exact absurd h2 (by simp)
  | timestampDecD =>
    simp only [delegate_decode_archive] at h
    rcases pyerr_bind_eq_error h with h1 | ⟨⟨tv1, st1⟩, _, h2⟩
    · exact decode_key_no_assert hdeco _ _ _ h1
    · dsimp only at h2
      split at h2 <;> exact absurd h2 (by simp)
  | opaqueD f =>
    simp only [delegate_decode_archive] at h
    cases self
    case dref m =>
      dsimp only at h
      rcases pyerr_bind_eq_error h with h1 | ⟨st1, _, h2⟩
      · exact opaque_loop_no_assert hdeco _ _ _ _ h1
      · exact absurd h2 (by simp)
    all_goals exact absurd h (by simp)

theorem dda_ok_none {deco : Deco} {d : Delegate} {self : DVal}
    {kvs : List (String × PValue)} {st : UState} {v : Option DVal} {st' : UState}
    (hd : d ≠ .timestampDecD)
    (h : delegate_decode_archive deco d self kvs st = .ok (v, st')) : v = none := by
  cases d with
  | timestampDecD => exact absurd rfl hd
  | dictD | mutableDictD =>
    simp only [delegate_decode_archive] at h
    obtain ⟨⟨kv1, st1⟩, _, h2⟩ := pyerr_bind_eq_ok h
    obtain ⟨⟨vv1, st2⟩, _, h4⟩ := pyerr_bind_eq_ok h2
    cases self
    case dref m =>
      cases kv1
      case dparr ks =>
        dsimp only at h4
        obtain ⟨st3, _, h6⟩ := pyerr_bind_eq_ok h4
        simp only [Except.ok.injEq, Prod.mk.injEq] at h6
        exact h6.1.symm
      all_goals exact absurd h4 (by simp)
    all_goals exact absurd h4 (by simp)
  | arrayD | mutableArrayD =>
    simp only [delegate_decode_archive] at h
    obtain ⟨⟨vv1, st1⟩, _, h2⟩ := pyerr_bind_eq_ok h
    cases self
    case dref m =>
      cases vv1
      case dparr vs =>
        dsimp only at h2
        obtain ⟨st2, _, h4⟩ := pyerr_bind_eq_ok h2
        simp only [Except.ok.injEq, Prod.mk.injEq] at h4
        exact h4.1.symm
      all_goals exact absurd h2 (by simp)
    all_goals exact absurd h2 (by simp)
  | setD | mutableSetD =>
    simp only [delegate_decode_archive] at h
    obtain ⟨⟨vv1, st1⟩, _, h2⟩ := pyerr_bind_eq_ok h
    cases self
    case dref m =>
      cases vv1
      case dparr vs =>
        dsimp only at h2
        obtain ⟨st2, _, h4⟩ := pyerr_bind_eq_ok h2
        simp only [Except.ok.injEq, Prod.mk.injEq] at h4
        exact h4.1.symm
      all_goals exact absurd h2 (by simp)
    all_goals exact absurd h2 (by simp)
  | mutableDataD =>
    simp only [delegate_decode_archive] at h
    obtain ⟨⟨dv1, st1⟩, _, h2⟩ := pyerr_bind_eq_ok h
    cases self
    case dref m =>
      cases dv1
      case dbytes bs =>
        dsimp only at h2
        split at h2
        · simp only [Except.ok.injEq, Prod.mk.injEq] at h2
          exact h2.1.symm
        · exact absurd h2 (by simp)
      all_goals exact absurd h2 (by simp)
    all_goals exact absurd h2 (by simp)
  | opaqueD f =>
    simp only [delegate_decode_archive] at h
    cases self
    case dref m =>
      dsimp only at h
      obtain ⟨st1, _, h2⟩ := pyerr_bind_eq_ok h
      simp only [Except.ok.injEq, Prod.mk.injEq] at h2
      exact h2.1.symm
    all_goals exact absurd h (by simp)

theorem decode_slot_no_assert {deco : Deco}
    (hdeco : ∀ st i, deco st i ≠ .error .assertFailed)
    (st : UState) (index : Nat) :
    decode_slot deco st index ≠ .error .assertFailed := by
  intro h
  simp only [decode_slot] at h
  split at h
  · exact absurd h (by simp)
  · split at h
    · split at h
      · rcases pyerr_bind_eq_error h with h1 | ⟨⟨klass, st1⟩, _, h2⟩
        · exact class_for_uid_no_assert _ _ h1
        · rcases pyerr_bind_eq_error h2 with h3 | ⟨⟨newObj, st2⟩, hok, h4⟩
          · exact dda_no_assert hdeco _ _ _ _ h3
          · cases hk : klass with
            | timestampDecD =>
              subst hk
              simp only [delegate_new] at h4
              split at h4 <;> exact absurd h4 (by simp)
            | dictD | mutableDictD | arrayD | mutableArrayD | setD
            | mutableSetD | mutableDataD =>
              subst hk
              simp only [delegate_new] at h4 hok
              have := dda_ok_none (by simp) hok
              subst this
              exact absurd h4 (by simp)
            | opaqueD f =>
              subst hk
              simp only [delegate_new] at h4 hok
              have := dda_ok_none (by simp) hok
              subst this
              exact absurd h4 (by simp)
      · exact absurd h (by simp)
    · exact absurd h (by simp)

/-- C10: every built-in delegate's populate step either returns no
replacement value (the in-place Dict/Array/Set/MutableData/OpaqueObject
delegates) or runs under the CycleToken placeholder (the replace-strategy
timestamp delegate), so the decoder's assertion that a non-sentinel
placeholder's populate step returned None can never fail: decode_object
never raises AssertionError, in any state, with any class map of this
module and any fuel. -/
theorem c10_assert_never_fails :
    ∀ fuel (st : UState) i, decode_object fuel st i ≠ .error .assertFailed := by
  intro fuel
  induction fuel with
  | zero => intro st i h; exact absurd h (by simp [decode_object])
  | succ fuel ih =>
    intro st i h
    simp only [decode_object] at h
    split at h
    · exact absurd h (by simp)
    · split at h
      · exact absurd h (by simp)
      · exact decode_slot_no_assert ih _ _ h
      · exact absurd h (by simp)
      · exact decode_slot_no_assert ih _ _ h

theorem get_some_lt {α : Type} {l : List α} {i : Nat} {x : α}
    (h : l.get? i = some x) : i < l.length := by
  obtain ⟨hlt, _⟩ := List.get?_eq_some.mp h
  exact hlt

theorem pfx_refl {α : Type} (a : List α) : ListPfx a a := ⟨[], by simp⟩

theorem pfx_trans {α : Type} {a b c : List α} (h1 : ListPfx a b) (h2 : ListPfx b c) :
    ListPfx a c := by
  obtain ⟨t1, rfl⟩ := h1
  obtain ⟨t2, rfl⟩ := h2
  exact ⟨t1 ++ t2, by simp⟩

theorem pfx_append {α : Type} (a t2 : List α) : ListPfx a (a ++ t2) := ⟨t2, rfl⟩

theorem pfx_len {α : Type} {a b : List α} (h : ListPfx a b) : a.length ≤ b.length := by
  obtain ⟨t2, rfl⟩ := h
  simp

theorem pfx_get {α : Type} {a b : List α} (h : ListPfx a b) {i : Nat}
    (hi : i < a.length) : b.get? i = a.get? i := by
  obtain ⟨t2, rfl⟩ := h
  exact List.get?_append hi

theorem slots_refl (a : List PValue) : SlotsPres a a := ⟨le_refl _, fun _ _ => rfl⟩

theorem slots_trans {a b c : List PValue} (h1 : SlotsPres a b) (h2 : SlotsPres b c) :
    SlotsPres a c :=
  ⟨le_trans h1.1 h2.1, fun i hi => by rw [h2.2 i (lt_of_lt_of_le hi h1.1), h1.2 i hi]⟩

theorem slots_of_append (a : List PValue) (t2 : List PValue) : SlotsPres a (a ++ t2) :=
  ⟨by simp, fun i hi => List.get?_append hi⟩

theorem slots_of_set {a : List PValue} {u : Nat} (x : PValue) (hu : a.length ≤ u) :
    SlotsPres a (a.set u x) :=
  ⟨by simp, fun i hi => List.get?_set_ne _ _ (by omega)⟩

theorem decone_mono {objs objs' : List PValue} {u : Nat} {t : PyTree} {lo hi : Nat}
    (h : DecOne objs u t lo hi)
    (hwin : ∀ i, lo ≤ i → i < hi → objs'.get? i = objs.get? i)
    (hmeta : ∀ c nm, objs.get? c = some (metaFor nm) → objs'.get? c = some (metaFor nm)) :
    DecOne objs' u t lo hi := by
  intro dfuel sd hd htab hfresh
  refine h dfuel sd hd ⟨?_, ?_⟩ hfresh
  · intro i h1 h2
    rw [htab.1 i h1 h2, hwin i h1 h2]
  · intro c nm hc
    exact htab.2 c nm (hmeta c nm hc)

theorem decforest_mono {objs objs' : List PValue} :
    ∀ {us : List Nat} {ts : PyForest} {lo hi : Nat},
    DecForest objs us ts lo hi →
    (∀ i, lo ≤ i → i < hi → objs'.get? i = objs.get? i) →
    (∀ c nm, objs.get? c = some (metaFor nm) → objs'.get? c = some (metaFor nm)) →
    DecForest objs' us ts lo hi := by
  intro us
  induction us with
  | nil =>
    intro ts lo hi h hwin hmeta
    cases ts with
    | nil => exact h
    | cons t ts => exact absurd h (by simp [DecForest])
  | cons u us ih =>
    intro ts lo hi h hwin hmeta
    cases ts with
    | nil => exact absurd h (by simp [DecForest])
    | cons t ts =>
      obtain ⟨mid, h1, h2, h3, h4⟩ := h
      exact ⟨mid, h1, h2,
        decone_mono h3 (fun i hi1 hi2 => hwin i hi1 (by omega)) hmeta,
        ih h4 (fun i hi1 hi2 => hwin i (by omega) hi2) hmeta⟩

theorem decpairs_mono {objs objs' : List PValue} :
    ∀ {kus vus : List Nat} {ps : PyPairs} {lo hi : Nat},
    DecPairs objs kus vus ps lo hi →
    (∀ i, lo ≤ i → i < hi → objs'.get? i = objs.get? i) →
    (∀ c nm, objs.get? c = some (metaFor nm) → objs'.get? c = some (metaFor nm)) →
    DecPairs objs' kus vus ps lo hi := by
  intro kus
  induction kus with
  | nil =>
    intro vus ps lo hi h hwin hmeta
    cases vus with
    | nil =>
      cases ps with
      | nil => exact h
      | cons k v rest => exact absurd h (by simp [DecPairs])
    | cons vu vus => exact absurd h (by simp [DecPairs])
  | cons ku kus ih =>
    intro vus ps lo hi h hwin hmeta
    cases vus with
    | nil => exact absurd h (by simp [DecPairs])
    | cons vu vus =>
      cases ps with
      | nil => exact absurd h (by simp [DecPairs])
      | cons k v rest =>
        obtain ⟨m1, m2, h1, h2, h3, h4, h5, h6⟩ := h
        exact ⟨m1, m2, h1, h2, h3,
          decone_mono h4 (fun i hi1 hi2 => hwin i hi1 (by omega)) hmeta,
          decone_mono h5 (fun i hi1 hi2 => hwin i (by omega) (by omega)) hmeta,
          ih h6 (fun i hi1 hi2 => hwin i (by omega) hi2) hmeta⟩

theorem get_python_class_base (st : UState) {s : String} (rest : List PValue)
    {k : Delegate} (hk : unarchive_class_map s = some k) :
    get_python_class st (.pstr s :: rest) = .ok (some k, st) := by
  cases huo : st.useOpaque <;> simp [get_python_class, hk, huo]

theorem refadds_refl (st : AState) (lo hi : Nat) : RefAddsA st st lo hi :=
  fun _ => Or.inr rfl

theorem refadds_trans {a b c : AState} {lo hi : Nat}
    (h1 : RefAddsA a b lo hi) (h2 : RefAddsA b c lo hi) : RefAddsA a c lo hi := by
  intro i
  rcases h2 i with h | h
  · exact Or.inl h
  · rcases h1 i with h' | h'
    · exact Or.inl h'
    · exact Or.inr (by rw [h, h'])

theorem refadds_widen {a b : AState} {lo hi lo' hi' : Nat}
    (h : RefAddsA a b lo hi) (h1 : lo' ≤ lo) (h2 : hi ≤ hi') : RefAddsA a b lo' hi' := by
  intro i
  rcases h i with h' | h'
  · exact Or.inl ⟨by omega, by omega⟩
  · exact Or.inr h'

theorem reffresh_shrink {st : AState} {lo hi lo' hi' : Nat}
    (h : RefFreshA st lo hi) (h1 : lo ≤ lo') (h2 : hi' ≤ hi) : RefFreshA st lo' hi' :=
  fun i hi1 hi2 => h i (by omega) (by omega)

theorem reffresh_after {st st' : AState} {lo hi lo1 hi1 lo' : Nat}
    (h : RefFreshA st lo hi) (hadd : RefAddsA st st' lo1 hi1)
    (hsep : hi1 ≤ lo') (hlo : lo ≤ lo') : RefFreshA st' lo' hi := by
  intro i hi1' hi2'
  rcases hadd i with hw | hw
  · omega
  · rw [hw]
    exact h i (by omega) hi2'

theorem cacheadds_refl (sd : UState) (lo hi : Nat) : CacheAdds sd sd lo hi :=
  fun _ => Or.inr rfl

theorem cacheadds_trans {a b c : UState} {lo hi : Nat}
    (h1 : CacheAdds a b lo hi) (h2 : CacheAdds b c lo hi) : CacheAdds a c lo hi := by
  intro i
  rcases h2 i with h | h
  · exact Or.inl h
  · rcases h1 i with h' | h'
    · exact Or.inl h'
    · exact Or.inr (by rw [h, h'])

theorem cacheadds_widen {a b : UState} {lo hi lo' hi' : Nat}
    (h : CacheAdds a b lo hi) (h1 : lo' ≤ lo) (h2 : hi ≤ hi') : CacheAdds a b lo' hi' := by
  intro i
  rcases h i with h' | h'
  · exact Or.inl ⟨by omega, by omega⟩
  · exact Or.inr h'

theorem cachefresh_shrink {sd : UState} {lo hi lo' hi' : Nat}
    (h : CacheFreshI sd lo hi) (h1 : lo ≤ lo') (h2 : hi' ≤ hi) : CacheFreshI sd lo' hi' :=
  fun i hi1 hi2 => h i (by omega) (by omega)

theorem cachefresh_after {sd sd' : UState} {lo hi lo1 hi1 lo' : Nat}
    (h : CacheFreshI sd lo hi) (hadd : CacheAdds sd sd' lo1 hi1)
    (hsep : hi1 ≤ lo') (hlo : lo ≤ lo') : CacheFreshI sd' lo' hi := by
  intro i hi1' hi2'
  rcases hadd i with hw | hw
  · omega
  · rw [hw]
    exact h i (by omega) hi2'

theorem isHashableD_scalar {t : PyTree} (ht : isHashableT t = true) :
    isHashableD (scalarDVal t) = true := by
  cases t <;> simp [isHashableT] at ht ⊢ <;> rfl

theorem pyEqD_scalar {a b : PyTree} (ha : isHashableT a = true)
    (hb : isHashableT b = true) :
    pyEqD (scalarDVal a) (scalarDVal b) = pyEqT a b := by
  cases a <;> cases b <;> first
    | rfl
    | simp [isHashableT] at ha hb

theorem agrees_scalar {dh : List DNode} {v : DVal} {t : PyTree}
    (ht : isHashableT t = true) (h : agreesB dh v t = true) : v = scalarDVal t := by
  cases t <;> cases v <;>
    simp_all [agreesB, scalarDVal, isHashableT]

theorem pyInsertD_append :
    ∀ (prs : List (DVal × DVal)) (kd vd : DVal),
      (∀ p ∈ prs, pyEqD p.1 kd = false) →
      pyInsertD prs kd vd = prs ++ [(kd, vd)] := by
  intro prs
  induction prs with
  | nil => intro kd vd _; rfl
  | cons p rest ih =>
    intro kd vd h
    obtain ⟨k0, v0⟩ := p
    have h0 : pyEqD k0 kd = false := h (k0, v0) (by simp)
    simp [pyInsertD, h0, ih kd vd (fun p hp => h p (by simp [hp]))]

theorem pySetAddD_append (xs : List DVal) (v : DVal)
    (h : ∀ x ∈ xs, pyEqD x v = false) : pySetAddD xs v = xs ++ [v] := by
  have : xs.any (fun x => pyEqD x v) = false := by
    rw [List.any_eq_false]
    intro x hx
    simp [h x hx]
  simp [pySetAddD, this]

theorem uid_chain_nsclass {st : AState} (nm : String) (hinv : ClassInvA st)
    (hlen : 1 ≤ st.objects.length) :
    ∃ c st2, uid_for_class_chain st [nm, "NSObject"] = .ok (c, st2) ∧
      st2.ref_cache = st.ref_cache ∧
      SlotsPres st.objects st2.objects ∧
      ClassInvA st2 ∧
      st2.objects.get? c = some (metaFor nm) ∧
      c ≠ 0 ∧
      st2.objects.length ≤ st.objects.length + 1 := by
  cases hc : alistGet st.class_cache nm with
  | some v =>
    obtain ⟨hv0, hvm⟩ := hinv nm v hc
    refine ⟨v, st, ?_, rfl, slots_refl _, hinv, hvm, hv0, by omega⟩
    simp [uid_for_class_chain, hc, hv0]
  | none =>
    refine ⟨st.objects.length,
      { st with class_cache := (nm, st.objects.length) :: st.class_cache,
                objects := st.objects ++ [metaFor nm] }, ?_, rfl, ?_, ?_, ?_, ?_, ?_⟩
    · simp [uid_for_class_chain, hc, metaFor]
    · exact slots_of_append _ _
    · intro nm' c' hc'
      simp only [alistGet] at hc'
      by_cases he : nm = nm'
      · subst he
        rw [if_pos rfl] at hc'
        obtain rfl : st.objects.length = c' := by
          simpa using hc'
        constructor
        · omega
        · exact List.get?_concat_length _ _
      · rw [if_neg he] at hc'
        obtain ⟨h0, hm⟩ := hinv nm' c' hc'
        exact ⟨h0, by rw [List.get?_append (get_some_lt hm)]; exact hm⟩
    · exact List.get?_concat_length _ _
    · omega
    · simp

theorem tableok_shrink {objs : List PValue} {sd : UState} {lo hi lo' hi' : Nat}
    (h : TableOK objs sd lo hi) (h1 : lo ≤ lo') (h2 : hi' ≤ hi) :
    TableOK objs sd lo' hi' :=
  ⟨fun i a b => h.1 i (by omega) (by omega), h.2⟩

theorem tableok_objeq {objs : List PValue} {sd sd' : UState} {lo hi : Nat}
    (h : TableOK objs sd lo hi) (he : sd'.objects = sd.objects) :
    TableOK objs sd' lo hi :=
  ⟨fun i a b => by rw [he]; exact h.1 i a b,
   fun c nm hc => by rw [he]; exact h.2 c nm hc⟩

theorem cachefresh_eq {sd sd' : UState} {lo hi : Nat}
    (h : CacheFreshI sd lo hi) (he : sd'.cache = sd.cache) : CacheFreshI sd' lo hi :=
  fun i a b => by rw [he]; exact h i a b

theorem arr_loop_dec {objs : List PValue} :
    ∀ (ts : PyForest) (us : List Nat) (lo hi dfuel : Nat) (sd : UState)
      (m : Nat) (mu : Bool) (acc : List DVal),
      DecForest objs us ts lo hi →
      depthF ts < dfuel →
      TableOK objs sd lo hi →
      CacheFreshI sd lo hi →
      sd.dheap.get? m = some (.dlist mu acc) →
      ∃ vs sd',
        arr_loop (decode_object dfuel) m (us.map .puid) sd = .ok sd' ∧
        sd'.objects = sd.objects ∧
        sd.dheap.length ≤ sd'.dheap.length ∧
        (∀ j, j < sd.dheap.length → j ≠ m → sd'.dheap.get? j = sd.dheap.get? j) ∧
        sd'.dheap.get? m = some (.dlist mu (acc ++ vs)) ∧
        CacheAdds sd sd' lo hi ∧
        (∀ dh2, AgreeOn sd.dheap.length sd'.dheap.length sd'.dheap dh2 →
          agreesF dh2 vs ts = true)
  | .nil => by
    intro us lo hi dfuel sd m mu acc hdf _ _ _ hnode
    cases us with
    | nil =>
      refine ⟨[], sd, rfl, rfl, le_refl _, fun j _ _ => rfl, by simpa using hnode,
        cacheadds_refl _ _ _, fun dh2 _ => rfl⟩
    | cons u us => exact absurd hdf (by simp [DecForest])
  | .cons t ts => by
    intro us lo hi dfuel sd m mu acc hdf hdep htab hfresh hnode
    cases us with
    | nil => exact absurd hdf (by simp [DecForest])
    | cons u us =>
      obtain ⟨mid, hlomid, hmidhi, hone, hrest⟩ := hdf
      simp only [depthF] at hdep
      rw [Nat.max_lt] at hdep
      have hm : m < sd.dheap.length := get_some_lt hnode
      obtain ⟨v, sd1, hdec, hobj1, hlen1, hpres1, hcadds1, hagree1⟩ :=
        hone dfuel sd hdep.1 (tableok_shrink htab (le_refl _) hmidhi)
          (cachefresh_shrink hfresh (le_refl _) hmidhi)
      have hnode1 : sd1.dheap.get? m = some (.dlist mu acc) := by
        rw [hpres1 m hm]; exact hnode
      have hm1 : m < sd1.dheap.length := get_some_lt hnode1
      set sd2 : UState := { sd1 with
        dheap := sd1.dheap.set m (.dlist mu (acc ++ [v])) } with hsd2
      have hfresh2 : CacheFreshI sd2 mid hi :=
        cachefresh_eq (cachefresh_after hfresh hcadds1 (le_refl _) hlomid) rfl
      have hnode2 : sd2.dheap.get? m = some (.dlist mu (acc ++ [v])) := by
        simp only [hsd2]
        exact List.get?_set_eq_of_lt _ hm1
      obtain ⟨vs, sd3, hloop, hobj3, hlen3, hpres3, hnode3, hcadds3, hagree3⟩ :=
        arr_loop_dec ts us mid hi dfuel sd2 m mu (acc ++ [v]) hrest hdep.2
          (tableok_objeq (tableok_shrink htab hlomid (le_refl _)) (by simp [hsd2, hobj1]))
          hfresh2 hnode2
      refine ⟨v :: vs, sd3, ?_, ?_, ?_, ?_, ?_, ?_, ?_⟩
      · simp only [List.map_cons, arr_loop, decode_index, hdec, pyerr_bind_ok]
        rw [hnode1]
        exact hloop
      · rw [hobj3]; simp [hsd2, hobj1]
      · have : sd2.dheap.length = sd1.dheap.length := by simp [hsd2]
        omega
      · intro j hj hjm
        rw [hpres3 j (by simp [hsd2]; omega) hjm]
        simp only [hsd2]
        rw [List.get?_set_ne _ _ (by omega)]
        exact hpres1 j hj
      · rw [hnode3]
        simp
      · exact cacheadds_trans (cacheadds_widen hcadds1 (le_refl _) hmidhi)
          (cacheadds_widen hcadds3 hlomid (le_refl _))
      · intro dh2 hag
        have hlen2 : sd2.dheap.length = sd1.dheap.length := by simp [hsd2]
        simp only [agreesF]
        have hrest' : agreesF dh2 vs ts = true := by
          apply hagree3
          intro j hj1 hj2
          exact hag j (by omega) hj2
        have hone' : agreesB dh2 v t = true := by
          apply hagree1
          intro j hj1 hj2
          have hjm : j ≠ m := by omega
          rw [hag j hj1 (by omega), hpres3 j (by omega) hjm]
          simp only [hsd2]
          exact List.get?_set_ne _ _ (by omega)
        rw [hone', hrest']
        rfl

theorem set_loop_dec {objs : List PValue} :
    ∀ (ts : PyForest) (us : List Nat) (lo hi dfuel : Nat) (sd : UState)
      (m : Nat) (mu : Bool) (acc : List DVal),
      DecForest objs us ts lo hi →
      depthF ts < dfuel →
      (forestList ts).all isHashableT = true →
      distinctT (forestList ts) = true →
      (∀ x ∈ acc, ∀ t' ∈ forestList ts, pyEqD x (scalarDVal t') = false) →
      TableOK objs sd lo hi →
      CacheFreshI sd lo hi →
      sd.dheap.get? m = some (.dset mu acc) →
      ∃ vs sd',
        set_loop (decode_object dfuel) m (us.map .puid) sd = .ok sd' ∧
        sd'.objects = sd.objects ∧
        sd.dheap.length ≤ sd'.dheap.length ∧
        (∀ j, j < sd.dheap.length → j ≠ m → sd'.dheap.get? j = sd.dheap.get? j) ∧
        sd'.dheap.get? m = some (.dset mu (acc ++ vs)) ∧
        CacheAdds sd sd' lo hi ∧
        (∀ dh2, AgreeOn sd.dheap.length sd'.dheap.length sd'.dheap dh2 →
          agreesF dh2 vs ts = true)
  | .nil => by
    intro us lo hi dfuel sd m mu acc hdf _ _ _ _ _ _ hnode
    cases us with
    | nil =>
      refine ⟨[], sd, rfl, rfl, le_refl _, fun j _ _ => rfl, by simpa using hnode,
        cacheadds_refl _ _ _, fun dh2 _ => rfl⟩
    | cons u us => exact absurd hdf (by simp [DecForest])
  | .cons t ts => by
    intro us lo hi dfuel sd m mu acc hdf hdep hhash hdist hacc htab hfresh hnode
    cases us with
    | nil => exact absurd hdf (by simp [DecForest])
    | cons u us =>
      obtain ⟨mid, hlomid, hmidhi, hone, hrest⟩ := hdf
      simp only [depthF] at hdep
      rw [Nat.max_lt] at hdep
      simp only [forestList, List.all_cons, Bool.and_eq_true] at hhash
      simp only [forestList, distinctT, Bool.and_eq_true] at hdist
      have hm : m < sd.dheap.length := get_some_lt hnode
      obtain ⟨v, sd1, hdec, hobj1, hlen1, hpres1, hcadds1, hagree1⟩ :=
        hone dfuel sd hdep.1 (tableok_shrink htab (le_refl _) hmidhi)
          (cachefresh_shrink hfresh (le_refl _) hmidhi)
      have hv : v = scalarDVal t := by
        refine agrees_scalar hhash.1 (hagree1 sd1.dheap ?_)
        intro j _ _
        rfl
      have hnode1 : sd1.dheap.get? m = some (.dset mu acc) := by
        rw [hpres1 m hm]; exact hnode
      have hm1 : m < sd1.dheap.length := get_some_lt hnode1
      have hD : isHashableD v = true := by rw [hv]; exact isHashableD_scalar hhash.1
      have hadd : pySetAddD acc v = acc ++ [v] := by
        refine pySetAddD_append acc v ?_
        intro x hx
        rw [hv]
        exact hacc x hx t (by simp [forestList])
      set sd2 : UState := { sd1 with
        dheap := sd1.dheap.set m (.dset mu (acc ++ [v])) } with hsd2
      have hfresh2 : CacheFreshI sd2 mid hi :=
        cachefresh_eq (cachefresh_after hfresh hcadds1 (le_refl _) hlomid) rfl
      have hnode2 : sd2.dheap.get? m = some (.dset mu (acc ++ [v])) := by
        simp only [hsd2]
        exact List.get?_set_eq_of_lt _ hm1
      have hacc2 : ∀ x ∈ acc ++ [v], ∀ t' ∈ forestList ts,
          pyEqD x (scalarDVal t') = false := by
        intro x hx t' ht'
        rcases List.mem_append.mp hx with hx | hx
        · exact hacc x hx t' (by simp [forestList, ht'])
        · have hxv : x = v := by simpa using hx
          subst hxv
          rw [hv]
          have hht' : isHashableT t' = true := by
            have := List.all_eq_true.mp hhash.2 t' ht'
            simpa using this
          rw [pyEqD_scalar hhash.1 hht']
          have := List.all_eq_true.mp hdist.1 t' ht'
          simpa using this
      obtain ⟨vs, sd3, hloop, hobj3, hlen3, hpres3, hnode3, hcadds3, hagree3⟩ :=
        set_loop_dec ts us mid hi dfuel sd2 m mu (acc ++ [v]) hrest hdep.2
          hhash.2 hdist.2 hacc2
          (tableok_objeq (tableok_shrink htab hlomid (le_refl _)) (by simp [hsd2, hobj1]))
          hfresh2 hnode2
      refine ⟨v :: vs, sd3, ?_, ?_, ?_, ?_, ?_, ?_, ?_⟩
      · simp only [List.map_cons, set_loop, decode_index, hdec, pyerr_bind_ok]
        rw [hD]
        simp only [if_true]
        rw [hnode1]
        dsimp only
        rw [hadd]
        exact hloop
      · rw [hobj3]; simp [hsd2, hobj1]
      · have : sd2.dheap.length = sd1.dheap.length := by simp [hsd2]
        omega
      · intro j hj hjm
        rw [hpres3 j (by simp [hsd2]; omega) hjm]
        simp only [hsd2]
        rw [List.get?_set_ne _ _ (by omega)]
        exact hpres1 j hj
      · rw [hnode3]
        simp
      · exact cacheadds_trans (cacheadds_widen hcadds1 (le_refl _) hmidhi)
          (cacheadds_widen hcadds3 hlomid (le_refl _))
      · intro dh2 hag
        have hlen2 : sd2.dheap.length = sd1.dheap.length := by simp [hsd2]
        simp only [agreesF]
        have hrest' : agreesF dh2 vs ts = true := by
          apply hagree3
          intro j hj1 hj2
          exact hag j (by omega) hj2
        have hone' : agreesB dh2 v t = true := by
          apply hagree1
          intro j hj1 hj2
          have hjm : j ≠ m := by omega
          rw [hag j hj1 (by omega), hpres3 j (by omega) hjm]
          simp only [hsd2]
          exact List.get?_set_ne _ _ (by omega)
        rw [hone', hrest']
        rfl

theorem agrees_scalar_self {dh : List DNode} {t : PyTree}
    (ht : isHashableT t = true) : agreesB dh (scalarDVal t) t = true := by
  cases t <;> simp_all [agreesB, scalarDVal, isHashableT]

theorem dict_loop_dec {objs : List PValue} :
    ∀ (ps : PyPairs) (kus vus : List Nat) (lo hi dfuel : Nat) (sd : UState)
      (m : Nat) (mu : Bool) (acc : List (DVal × DVal)),
      DecPairs objs kus vus ps lo hi →
      depthP ps < dfuel →
      (pairKeys ps).all isHashableT = true →
      distinctT (pairKeys ps) = true →
      (∀ p ∈ acc, ∀ k' ∈ pairKeys ps, pyEqD p.1 (scalarDVal k') = false) →
      TableOK objs sd lo hi →
      CacheFreshI sd lo hi →
      sd.dheap.get? m = some (.ddict mu acc) →
      ∃ prs sd',
        dict_loop (decode_object dfuel) m (kus.map .puid) (.dparr (vus.map .puid)) sd
          = .ok sd' ∧
        sd'.objects = sd.objects ∧
        sd.dheap.length ≤ sd'.dheap.length ∧
        (∀ j, j < sd.dheap.length → j ≠ m → sd'.dheap.get? j = sd.dheap.get? j) ∧
        sd'.dheap.get? m = some (.ddict mu (acc ++ prs)) ∧
        CacheAdds sd sd' lo hi ∧
        (∀ dh2, AgreeOn sd.dheap.length sd'.dheap.length sd'.dheap dh2 →
          agreesP dh2 prs ps = true)
  | .nil => by
    intro kus vus lo hi dfuel sd m mu acc hdp _ _ _ _ _ _ hnode
    cases kus with
    | nil =>
      cases vus with
      | nil =>
        refine ⟨[], sd, rfl, rfl, le_refl _, fun j _ _ => rfl, by simpa using hnode,
          cacheadds_refl _ _ _, fun dh2 _ => rfl⟩
      | cons vu vus => exact absurd hdp (by simp [DecPairs])
    | cons ku kus => exact absurd hdp (by simp [DecPairs])
  | .cons k v rest => by
    intro kus vus lo hi dfuel sd m mu acc hdp hdep hhash hdist hacc htab hfresh hnode
    cases kus with
    | nil => exact absurd hdp (by simp [DecPairs])
    | cons ku kus =>
      cases vus with
      | nil => exact absurd hdp (by simp [DecPairs])
      | cons vu vus =>
        obtain ⟨m1, m2, hlom1, hm1m2, hm2hi, honeK, honeV, hrest⟩ := hdp
        simp only [depthP] at hdep
        rw [Nat.max_lt] at hdep
        obtain ⟨hdepK, hdep'⟩ := hdep
        rw [Nat.max_lt] at hdep'
        obtain ⟨hdepV, hdepR⟩ := hdep'
        simp only [pairKeys, List.all_cons, Bool.and_eq_true] at hhash
        simp only [pairKeys, distinctT, Bool.and_eq_true] at hdist
        have hm : m < sd.dheap.length := get_some_lt hnode
        obtain ⟨kd, sd1, hdecK, hobj1, hlen1, hpres1, hcadds1, hagree1⟩ :=
          honeK dfuel sd hdepK (tableok_shrink htab (le_refl _) (by omega))
            (cachefresh_shrink hfresh (le_refl _) (by omega))
        have hkd : kd = scalarDVal k := by
          refine agrees_scalar hhash.1 (hagree1 sd1.dheap ?_)
          intro j _ _
          rfl
        obtain ⟨vd, sd2, hdecV, hobj2, hlen2, hpres2, hcadds2, hagree2⟩ :=
          honeV dfuel sd1
            hdepV
            (tableok_objeq (tableok_shrink htab (by omega) (by omega)) hobj1)
            (cachefresh_eq (cachefresh_shrink
              (cachefresh_after hfresh hcadds1 (le_refl _) (by omega))
              (le_refl _) (by omega)) rfl)
        have hnode2 : sd2.dheap.get? m = some (.ddict mu acc) := by
          rw [hpres2 m (by omega), hpres1 m hm]
          exact hnode
        have hm2n : m < sd2.dheap.length := get_some_lt hnode2
        have hD : isHashableD kd = true := by
          rw [hkd]; exact isHashableD_scalar hhash.1
        have hins : pyInsertD acc kd vd = acc ++ [(kd, vd)] := by
          refine pyInsertD_append acc kd vd ?_
          intro p hp
          rw [hkd]
          exact hacc p hp k (by simp [pairKeys])
        set sd3 : UState := { sd2 with
          dheap := sd2.dheap.set m (.ddict mu (acc ++ [(kd, vd)])) } with hsd3
        have hnode3 : sd3.dheap.get? m = some (.ddict mu (acc ++ [(kd, vd)])) := by
          simp only [hsd3]
          exact List.get?_set_eq_of_lt _ hm2n
        have hacc3 : ∀ p ∈ acc ++ [(kd, vd)], ∀ k' ∈ pairKeys rest,
            pyEqD p.1 (scalarDVal k') = false := by
          intro p hp k' hk'
          rcases List.mem_append.mp hp with hp | hp
          · exact hacc p hp k' (by simp [pairKeys, hk'])
          · have hpv : p = (kd, vd) := by simpa using hp
            subst hpv
            simp only
            rw [hkd]
            have hhk' : isHashableT k' = true := by
              have := List.all_eq_true.mp hhash.2 k' hk'
              simpa using this
            rw [pyEqD_scalar hhash.1 hhk']
            have := List.all_eq_true.mp hdist.1 k' hk'
            simpa using this
        obtain ⟨prs, sd4, hloop, hobj4, hlen4, hpres4, hnode4, hcadds4, hagree4⟩ :=
          dict_loop_dec rest kus vus m2 hi dfuel sd3 m mu (acc ++ [(kd, vd)])
            hrest hdepR hhash.2 hdist.2 hacc3
            (tableok_objeq (tableok_shrink htab (by omega) (le_refl _))
              (by simp [hsd3, hobj2, hobj1]))
            (cachefresh_eq (cachefresh_after
              (cachefresh_after hfresh hcadds1 (le_refl m1) (by omega))
              hcadds2 (le_refl m2) (by omega)) rfl)
            hnode3
        refine ⟨(kd, vd) :: prs, sd4, ?_, ?_, ?_, ?_, ?_, ?_, ?_⟩
        · simp only [List.map_cons, dict_loop, decode_index, hdecK, pyerr_bind_ok]
          rw [hdecV]
          simp only [pyerr_bind_ok]
          rw [hD]
          simp only [if_true]
          rw [hnode2]
          dsimp only
          rw [hins]
          exact hloop
        · rw [hobj4]; simp [hsd3, hobj2, hobj1]
        · have : sd3.dheap.length = sd2.dheap.length := by simp [hsd3]
          omega
        · intro j hj hjm
          rw [hpres4 j (by simp [hsd3]; omega) hjm]
          simp only [hsd3]
          rw [List.get?_set_ne _ _ (by omega)]
          rw [hpres2 j (by omega)]
          exact hpres1 j hj
        · rw [hnode4]
          simp
        · refine cacheadds_trans (cacheadds_widen hcadds1 (le_refl _) (by omega))
            (cacheadds_trans (cacheadds_widen hcadds2 (by omega) (by omega)) ?_)
          exact cacheadds_widen hcadds4 (by omega) (le_refl _)
        · intro dh2 hag
          have hlen3 : sd3.dheap.length = sd2.dheap.length := by simp [hsd3]
          simp only [agreesP]
          have hrest' : agreesP dh2 prs rest = true := by
            apply hagree4
            intro j hj1 hj2
            exact hag j (by omega) hj2
          have hkd' : agreesB dh2 kd k = true := by
            rw [hkd]
            exact agrees_scalar_self hhash.1
          have hvd' : agreesB dh2 vd v = true := by
            apply hagree2
            intro j hj1 hj2
            have hjm : j ≠ m := by omega
            rw [hag j (by omega) (by omega), hpres4 j (by omega) hjm]
            simp only [hsd3]
            exact List.get?_set_ne _ _ (by omega)
          rw [hkd', hvd', hrest']
          rfl

/-- Layout equation for `pushTree` on a list tree. -/
theorem pushTree_vlist (xs : PyForest) (h : List PyNode) :
    pushTree (.vlist xs) h =
      ((pushForest xs h).1 ++ [.listN (pushForest xs h).2],
       (pushForest xs h).1.length) := rfl

/-- Layout equation for `pushTree` on a set tree. -/
theorem pushTree_vset (xs : PyForest) (h : List PyNode) :
    pushTree (.vset xs) h =
      ((pushForest xs h).1 ++ [.setN (pushForest xs h).2],
       (pushForest xs h).1.length) := rfl

/-- Layout equation for `pushTree` on a dict tree. -/
theorem pushTree_vdict (kvs : PyPairs) (h : List PyNode) :
    pushTree (.vdict kvs) h =
      ((pushPairs kvs h).1 ++ [.dictN (pushPairs kvs h).2],
       (pushPairs kvs h).1.length) := rfl

/-- Layout equation for `pushForest` on a cons. -/
theorem pushForest_cons_eq (t : PyTree) (ts : PyForest) (h : List PyNode) :
    pushForest (.cons t ts) h =
      ((pushForest ts (pushTree t h).1).1,
       (pushTree t h).2 :: (pushForest ts (pushTree t h).1).2) := rfl

/-- Layout equation for `pushPairs` on a cons. -/
theorem pushPairs_cons_eq (k v : PyTree) (rest : PyPairs) (h : List PyNode) :
    pushPairs (.cons k v rest) h =
      ((pushPairs rest (pushTree v (pushTree k h).1).1).1,
       ((pushTree k h).2, (pushTree v (pushTree k h).1).2)
         :: (pushPairs rest (pushTree v (pushTree k h).1).1).2) := rfl

mutual
/-- Laying out a tree only appends to the heap. -/
theorem pushTree_pfx : ∀ (t : PyTree) (h : List PyNode), ListPfx h (pushTree t h).1
  | .vnone, h => pfx_append h _
  | .vbool _, h => pfx_append h _
  | .vint _, h => pfx_append h _
  | .vfloat _, h => pfx_append h _
  | .vstr _, h => pfx_append h _
  | .vbytes _, h => pfx_append h _
  | .vuid _, h => pfx_append h _
  | .vtimestamp _, h => pfx_append h _
  | .vlist xs, h => pfx_trans (pushForest_pfx xs h) (pfx_append _ _)
  | .vdict kvs, h => pfx_trans (pushPairs_pfx kvs h) (pfx_append _ _)
  | .vset xs, h => pfx_trans (pushForest_pfx xs h) (pfx_append _ _)
/-- Laying out a forest only appends to the heap. -/
theorem pushForest_pfx : ∀ (ts : PyForest) (h : List PyNode), ListPfx h (pushForest ts h).1
  | .nil, h => pfx_refl h
  | .cons t ts, h => pfx_trans (pushTree_pfx t h) (pushForest_pfx ts (pushTree t h).1)
/-- Laying out dict pairs only appends to the heap. -/
theorem pushPairs_pfx : ∀ (ps : PyPairs) (h : List PyNode), ListPfx h (pushPairs ps h).1
  | .nil, h => pfx_refl h
  | .cons k v rest, h =>
    pfx_trans (pushTree_pfx k h)
      (pfx_trans (pushTree_pfx v (pushTree k h).1)
        (pushPairs_pfx rest (pushTree v (pushTree k h).1).1))
end

/-- Consing one identity inside the window is a legal ref-cache evolution. -/
theorem refadds_cons {st st' : AState} {lo hi r u : Nat}
    (h : st'.ref_cache = (r, u) :: st.ref_cache) (h1 : lo ≤ r) (h2 : r < hi) :
    RefAddsA st st' lo hi := by
  intro i
  by_cases he : r = i
  · exact Or.inl ⟨by omega, by omega⟩
  · refine Or.inr ?_
    rw [h]
    simp only [alistGet]
    rw [if_neg he]

/-- An unchanged ref cache is a legal evolution for any window. -/
theorem refadds_of_eq {st st' : AState} (h : st'.ref_cache = st.ref_cache)
    (lo hi : Nat) : RefAddsA st st' lo hi :=
  fun _ => Or.inr (by rw [h])

/-- Consing one UID inside the window is a legal decode-cache evolution. -/
theorem cacheadds_cons {sd sd' : UState} {lo hi r : Nat} {x : DVal}
    (h : sd'.cache = (r, x) :: sd.cache) (h1 : lo ≤ r) (h2 : r < hi) :
    CacheAdds sd sd' lo hi := by
  intro i
  by_cases he : r = i
  · exact Or.inl ⟨by omega, by omega⟩
  · refine Or.inr ?_
    rw [h]
    simp only [alistGet]
    rw [if_neg he]

/-- The class invariant survives any evolution that keeps the class cache
and preserves written slots. -/
theorem classinv_slots {st st' : AState} (h : ClassInvA st)
    (hc : st'.class_cache = st.class_cache) (hs : SlotsPres st.objects st'.objects) :
    ClassInvA st' := by
  intro nm c hcc
  rw [hc] at hcc
  obtain ⟨h0, hm⟩ := h nm c hcc
  exact ⟨h0, by rw [hs.2 c (get_some_lt hm)]; exact hm⟩

/-- An empty record is never a class-metadata record. -/
theorem pdict_nil_ne_meta (nm : String) : (PValue.pdict [] : PValue) ≠ metaFor nm := by
  intro h
  simp [metaFor] at h

/-- The class invariant survives overwriting a placeholder slot. -/
theorem classinv_set_placeholder {st : AState} {u : Nat} (x : PValue)
    (h : ClassInvA st) (hp : st.objects.get? u = some (.pdict [])) :
    ClassInvA { st with objects := st.objects.set u x } := by
  intro nm c hc
  obtain ⟨h0, hm⟩ := h nm c hc
  have hne : u ≠ c := by
    intro he
    subst he
    rw [hm] at hp
    exact absurd (Option.some.inj hp) (pdict_nil_ne_meta nm).symm
  exact ⟨h0, by
    show (st.objects.set u x).get? c = _
    rw [List.get?_set_ne _ _ hne]
    exact hm⟩

/-- Overwriting a slot above the original table preserves its slots. -/
theorem slots_set_above {a b : List PValue} (h : SlotsPres a b) {u : Nat}
    (hu : a.length ≤ u) (x : PValue) : SlotsPres a (b.set u x) := by
  refine ⟨by simpa using h.1, fun i hi => ?_⟩
  rw [List.get?_set_ne _ _ (by omega), h.2 i hi]

/-- Decoding a non-record slot returns it verbatim with the state unchanged. -/
theorem decode_slot_nonrecord {deco : Deco} {sd : UState} {index : Nat} {pv : PValue}
    (hget : sd.objects.get? index = some pv) (hraw : ∀ kvs, pv ≠ .pdict kvs) :
    decode_slot deco sd index = .ok (pvalToDVal pv, sd) := by
  have hget2 : sd.objects[index]? = some pv := by
    rw [← List.get?_eq_getElem?]; exact hget
  cases pv
  case pdict kvs => exact absurd rfl (hraw kvs)
  all_goals simp [decode_slot, hget2, pvalToDVal]

/-- `archive` on a live, uncached, non-None object takes the uncached path. -/
theorem archive_step {hfull : List PyNode} {f : Nat} {st : AState} {r : Nat}
    {node : PyNode} (hget : hfull.get? r = some node) (hnn : node ≠ .noneN)
    (hmiss : alistGet st.ref_cache r = none) :
    archive hfull (f + 1) st r = archive_uncached (archive hfull f) st r node := by
  have hget2 : hfull[r]? = some node := by rw [← List.get?_eq_getElem?]; exact hget
  simp [archive, hget2, hnn, hmiss]

/-- Resolving a class UID whose slot holds the tree encoder's metadata
record yields the registered delegate without touching the state. -/
theorem class_for_uid_meta {sd : UState} {c : Nat} {nm : String} {k : Delegate}
    (hgetc : sd.objects.get? c = some (metaFor nm))
    (hk : unarchive_class_map nm = some k) :
    class_for_uid sd c = .ok (k, sd) := by
  simp +decide only [class_for_uid, hgetc, metaFor, recordGet, alistGet,
    if_true, if_false, eq_self_iff_true]
  rw [get_python_class_base sd _ hk, pyerr_bind_ok]

/-- Decode-correctness of a list slot as the tree encoder writes it: a
`$class` UID resolving to NSArray metadata plus an `NS.objects` UID array
whose entries decode to the elements. -/
theorem decone_list {objs : List PValue} {u c : Nat} {us : List Nat} {xs : PyForest}
    {lo hi m1 : Nat}
    (hu0 : u ≠ 0) (hlo : lo ≤ u) (hum : u < m1) (hm1 : m1 ≤ hi)
    (hslot : objs.get? u = some (.pdict
      [("$class", .puid c), ("NS.objects", .parray (us.map .puid))]))
    (hmeta : objs.get? c = some (metaFor "NSArray"))
    (hdf : DecForest objs us xs m1 hi) :
    DecOne objs u (.vlist xs) lo hi := by
  intro dfuel sd hd htab hfresh
  obtain ⟨d, rfl⟩ : ∃ d, dfuel = d + 1 := ⟨dfuel - 1, by omega⟩
  simp only [depthT] at hd
  have hdf' : depthF xs < d := by omega
  have hu : u < hi := by omega
  have hcache : alistGet sd.cache u = none := hfresh u hlo hu
  have hget : sd.objects.get? u = some (.pdict
      [("$class", .puid c), ("NS.objects", .parray (us.map .puid))]) := by
    rw [htab.1 u hlo hu]; exact hslot
  have hgetc : sd.objects.get? c = some (metaFor "NSArray") := htab.2 c _ hmeta
  have hcfu : class_for_uid sd c = .ok (.arrayD, sd) := class_for_uid_meta hgetc rfl
  have hsd1 : ∃ sd1 : UState, sd1 =
      { sd with
          dheap := sd.dheap ++ [.dlist false []],
          cache := (u, .dref sd.dheap.length) :: sd.cache } := ⟨_, rfl⟩
  obtain ⟨sd1, hsd1⟩ := hsd1
  have htab1 : TableOK objs sd1 m1 hi :=
    tableok_objeq (tableok_shrink htab (by omega) (le_refl _)) (by rw [hsd1])
  have hfresh1 : CacheFreshI sd1 m1 hi := by
    intro i h1 h2
    rw [hsd1]
    show alistGet ((u, DVal.dref sd.dheap.length) :: sd.cache) i = none
    simp only [alistGet]
    rw [if_neg (by omega)]
    exact hfresh i (by omega) h2
  have hnode1 : sd1.dheap.get? sd.dheap.length = some (.dlist false []) := by
    rw [hsd1]
    exact List.get?_concat_length _ _
  obtain ⟨vs, sd2, hloop, hobj2, hlen2, hpres2, hnode2, hcadds2, hagree2⟩ :=
    arr_loop_dec xs us m1 hi d sd1 sd.dheap.length false [] hdf hdf' htab1 hfresh1 hnode1
  have hsd1len : sd1.dheap.length = sd.dheap.length + 1 := by rw [hsd1]; simp
  have hsd1obj : sd1.objects = sd.objects := by rw [hsd1]
  refine ⟨.dref sd.dheap.length, sd2, ?_, ?_, ?_, ?_, ?_, ?_⟩
  · simp only [decode_object, if_neg hu0, hcache]
    simp only [decode_slot, hget]
    rw [show recordGet [("$class", PValue.puid c),
        ("NS.objects", PValue.parray (us.map PValue.puid))] "$class"
      = some (PValue.puid c) from rfl]
    dsimp only
    rw [hcfu, pyerr_bind_ok]
    simp only [delegate_new, delegate_decode_archive, decode_key]
    rw [show recordGet [("$class", PValue.puid c),
        ("NS.objects", PValue.parray (us.map PValue.puid))] "NS.objects"
      = some (PValue.parray (us.map PValue.puid)) from rfl]
    simp only [pvalToDVal, pyerr_bind_ok]
    rw [← hsd1, hloop, pyerr_bind_ok]
    rfl
  · rw [hobj2, hsd1obj]
  · omega
  · intro j hj
    rw [hpres2 j (by omega) (by omega), hsd1]
    exact List.get?_append hj
  · refine cacheadds_trans (cacheadds_cons (by rw [hsd1]) hlo hu)
      (cacheadds_widen hcadds2 (by omega) (le_refl _))
  · intro dh2 hag
    have hmlt : sd.dheap.length < sd2.dheap.length := by omega
    have hgetm : dh2.get? sd.dheap.length = some (.dlist false vs) := by
      rw [hag sd.dheap.length (le_refl _) hmlt, hnode2]
      simp
    simp only [agreesB, hgetm]
    have : agreesF dh2 vs xs = true := by
      apply hagree2
      intro j hj1 hj2
      exact hag j (by omega) hj2
    rw [this]
    rfl

/-- Decode-correctness of a set slot as the tree encoder writes it. -/
theorem decone_set {objs : List PValue} {u c : Nat} {us : List Nat} {xs : PyForest}
    {lo hi m1 : Nat}
    (hu0 : u ≠ 0) (hlo : lo ≤ u) (hum : u < m1) (hm1 : m1 ≤ hi)
    (hhash : (forestList xs).all isHashableT = true)
    (hdist : distinctT (forestList xs) = true)
    (hslot : objs.get? u = some (.pdict
      [("$class", .puid c), ("NS.objects", .parray (us.map .puid))]))
    (hmeta : objs.get? c = some (metaFor "NSSet"))
    (hdf : DecForest objs us xs m1 hi) :
    DecOne objs u (.vset xs) lo hi := by
  intro dfuel sd hd htab hfresh
  obtain ⟨d, rfl⟩ : ∃ d, dfuel = d + 1 := ⟨dfuel - 1, by omega⟩
  simp only [depthT] at hd
  have hdf' : depthF xs < d := by omega
  have hu : u < hi := by omega
  have hcache : alistGet sd.cache u = none := hfresh u hlo hu
  have hget : sd.objects.get? u = some (.pdict
      [("$class", .puid c), ("NS.objects", .parray (us.map .puid))]) := by
    rw [htab.1 u hlo hu]; exact hslot
  have hgetc : sd.objects.get? c = some (metaFor "NSSet") := htab.2 c _ hmeta
  have hcfu : class_for_uid sd c = .ok (.setD, sd) := class_for_uid_meta hgetc rfl
  have hsd1 : ∃ sd1 : UState, sd1 =
      { sd with
          dheap := sd.dheap ++ [.dset false []],
          cache := (u, .dref sd.dheap.length) :: sd.cache } := ⟨_, rfl⟩
  obtain ⟨sd1, hsd1⟩ := hsd1
  have htab1 : TableOK objs sd1 m1 hi :=
    tableok_objeq (tableok_shrink htab (by omega) (le_refl _)) (by rw [hsd1])
  have hfresh1 : CacheFreshI sd1 m1 hi := by
    intro i h1 h2
    rw [hsd1]
    show alistGet ((u, DVal.dref sd.dheap.length) :: sd.cache) i = none
    simp only [alistGet]
    rw [if_neg (by omega)]
    exact hfresh i (by omega) h2
  have hnode1 : sd1.dheap.get? sd.dheap.length = some (.dset false []) := by
    rw [hsd1]
    exact List.get?_concat_length _ _
  obtain ⟨vs, sd2, hloop, hobj2, hlen2, hpres2, hnode2, hcadds2, hagree2⟩ :=
    set_loop_dec xs us m1 hi d sd1 sd.dheap.length false [] hdf hdf' hhash hdist
      (fun x hx => absurd hx (List.not_mem_nil x)) htab1 hfresh1 hnode1
  have hsd1len : sd1.dheap.length = sd.dheap.length + 1 := by rw [hsd1]; simp
  have hsd1obj : sd1.objects = sd.objects := by rw [hsd1]
  refine ⟨.dref sd.dheap.length, sd2, ?_, ?_, ?_, ?_, ?_, ?_⟩
  · simp only [decode_object, if_neg hu0, hcache]
    simp only [decode_slot, hget]
    rw [show recordGet [("$class", PValue.puid c),
        ("NS.objects", PValue.parray (us.map PValue.puid))] "$class"
      = some (PValue.puid c) from rfl]
    dsimp only
    rw [hcfu, pyerr_bind_ok]
    simp only [delegate_new, delegate_decode_archive, decode_key]
    rw [show recordGet [("$class", PValue.puid c),
        ("NS.objects", PValue.parray (us.map PValue.puid))] "NS.objects"
      = some (PValue.parray (us.map PValue.puid)) from rfl]
    simp only [pvalToDVal, pyerr_bind_ok]
    rw [← hsd1, hloop, pyerr_bind_ok]
    rfl
  · rw [hobj2, hsd1obj]
  · omega
  · intro j hj
    rw [hpres2 j (by omega) (by omega), hsd1]
    exact List.get?_append hj
  · refine cacheadds_trans (cacheadds_cons (by rw [hsd1]) hlo hu)
      (cacheadds_widen hcadds2 (by omega) (le_refl _))
  · intro dh2 hag
    have hmlt : sd.dheap.length < sd2.dheap.length := by omega
    have hgetm : dh2.get? sd.dheap.length = some (.dset false vs) := by
      rw [hag sd.dheap.length (le_refl _) hmlt, hnode2]
      simp
    simp only [agreesB, hgetm]
    have : agreesF dh2 vs xs = true := by
      apply hagree2
      intro j hj1 hj2
      exact hag j (by omega) hj2
    rw [this]
    rfl

/-- Decode-correctness of a dict slot as the tree encoder writes it. -/
theorem decone_dict {objs : List PValue} {u c : Nat} {kus vus : List Nat}
    {ps : PyPairs} {lo hi m1 : Nat}
    (hu0 : u ≠ 0) (hlo : lo ≤ u) (hum : u < m1) (hm1 : m1 ≤ hi)
    (hhash : (pairKeys ps).all isHashableT = true)
    (hdist : distinctT (pairKeys ps) = true)
    (hslot : objs.get? u = some (.pdict
      [("$class", .puid c), ("NS.keys", .parray (kus.map .puid)),
       ("NS.objects", .parray (vus.map .puid))]))
    (hmeta : objs.get? c = some (metaFor "NSDictionary"))
    (hdp : DecPairs objs kus vus ps m1 hi) :
    DecOne objs u (.vdict ps) lo hi := by
  intro dfuel sd hd htab hfresh
  obtain ⟨d, rfl⟩ : ∃ d, dfuel = d + 1 := ⟨dfuel - 1, by omega⟩
  simp only [depthT] at hd
  have hdp' : depthP ps < d := by omega
  have hu : u < hi := by omega
  have hcache : alistGet sd.cache u = none := hfresh u hlo hu
  have hget : sd.objects.get? u = some (.pdict
      [("$class", .puid c), ("NS.keys", .parray (kus.map .puid)),
       ("NS.objects", .parray (vus.map .puid))]) := by
    rw [htab.1 u hlo hu]; exact hslot
  have hgetc : sd.objects.get? c = some (metaFor "NSDictionary") := htab.2 c _ hmeta
  have hcfu : class_for_uid sd c = .ok (.dictD, sd) := class_for_uid_meta hgetc rfl
  have hsd1 : ∃ sd1 : UState, sd1 =
      { sd with
          dheap := sd.dheap ++ [.ddict false []],
          cache := (u, .dref sd.dheap.length) :: sd.cache } := ⟨_, rfl⟩
  obtain ⟨sd1, hsd1⟩ := hsd1
  have htab1 : TableOK objs sd1 m1 hi :=
    tableok_objeq (tableok_shrink htab (by omega) (le_refl _)) (by rw [hsd1])
  have hfresh1 : CacheFreshI sd1 m1 hi := by
    intro i h1 h2
    rw [hsd1]
    show alistGet ((u, DVal.dref sd.dheap.length) :: sd.cache) i = none
    simp only [alistGet]
    rw [if_neg (by omega)]
    exact hfresh i (by omega) h2
  have hnode1 : sd1.dheap.get? sd.dheap.length = some (.ddict false []) := by
    rw [hsd1]
    exact List.get?_concat_length _ _
  obtain ⟨prs, sd2, hloop, hobj2, hlen2, hpres2, hnode2, hcadds2, hagree2⟩ :=
    dict_loop_dec ps kus vus m1 hi d sd1 sd.dheap.length false [] hdp hdp' hhash hdist
      (fun x hx => absurd hx (List.not_mem_nil x)) htab1 hfresh1 hnode1
  have hsd1len : sd1.dheap.length = sd.dheap.length + 1 := by rw [hsd1]; simp
  have hsd1obj : sd1.objects = sd.objects := by rw [hsd1]
  refine ⟨.dref sd.dheap.length, sd2, ?_, ?_, ?_, ?_, ?_, ?_⟩
  · simp only [decode_object, if_neg hu0, hcache]
    simp only [decode_slot, hget]
    rw [show recordGet [("$class", PValue.puid c),
        ("NS.keys", PValue.parray (kus.map PValue.puid)),
        ("NS.objects", PValue.parray (vus.map PValue.puid))] "$class"
      = some (PValue.puid c) from rfl]
    dsimp only
    rw [hcfu, pyerr_bind_ok]
    simp only [delegate_new, delegate_decode_archive, decode_key]
    rw [show recordGet [("$class", PValue.puid c),
        ("NS.keys", PValue.parray (kus.map PValue.puid)),
        ("NS.objects", PValue.parray (vus.map PValue.puid))] "NS.keys"
      = some (PValue.parray (kus.map PValue.puid)) from rfl]
    rw [show recordGet [("$class", PValue.puid c),
        ("NS.keys", PValue.parray (kus.map PValue.puid)),
        ("NS.objects", PValue.parray (vus.map PValue.puid))] "NS.objects"
      = some (PValue.parray (vus.map PValue.puid)) from rfl]
    simp only [pvalToDVal, pyerr_bind_ok]
    rw [← hsd1, hloop, pyerr_bind_ok]
    rfl
  · rw [hobj2, hsd1obj]
  · omega
  · intro j hj
    rw [hpres2 j (by omega) (by omega), hsd1]
    exact List.get?_append hj
  · refine cacheadds_trans (cacheadds_cons (by rw [hsd1]) hlo hu)
      (cacheadds_widen hcadds2 (by omega) (le_refl _))
  · intro dh2 hag
    have hmlt : sd.dheap.length < sd2.dheap.length := by omega
    have hgetm : dh2.get? sd.dheap.length = some (.ddict false prs) := by
      rw [hag sd.dheap.length (le_refl _) hmlt, hnode2]
      simp
    simp only [agreesB, hgetm]
    have : agreesP dh2 prs ps = true := by
      apply hagree2
      intro j hj1 hj2
      exact hag j (by omega) hj2
    rw [this]
    rfl

/-- The epoch offset round-trips exactly on the fraction model. -/
theorem delta_add_sub (q : PyFloat) :
    unix2apple_epoch_delta.add (q.sub unix2apple_epoch_delta) = q := by
  obtain ⟨n, d⟩ := q
  simp only [unix2apple_epoch_delta, PyFloat.add, PyFloat.sub, PyFloat.mk.injEq]
  constructor <;> ring

/-- Decode-correctness of an NSDate slot as the tree encoder writes it. -/
theorem decone_ts {objs : List PValue} {u c : Nat} {q : PyFloat} {lo hi : Nat}
    (hu0 : u ≠ 0) (hlo : lo ≤ u) (hu : u < hi)
    (hslot : objs.get? u = some (.pdict
      [("$class", .puid c), ("NS.time", .pfloat (q.sub unix2apple_epoch_delta))]))
    (hmeta : objs.get? c = some (metaFor "NSDate")) :
    DecOne objs u (.vtimestamp q) lo hi := by
  intro dfuel sd hd htab hfresh
  obtain ⟨d, rfl⟩ : ∃ d, dfuel = d + 1 := ⟨dfuel - 1, by omega⟩
  have hcache : alistGet sd.cache u = none := hfresh u hlo hu
  have hget : sd.objects.get? u = some (.pdict
      [("$class", .puid c), ("NS.time", .pfloat (q.sub unix2apple_epoch_delta))]) := by
    rw [htab.1 u hlo hu]; exact hslot
  have hgetc : sd.objects.get? c = some (metaFor "NSDate") := htab.2 c _ hmeta
  have hcfu : class_for_uid sd c = .ok (.timestampDecD, sd) := class_for_uid_meta hgetc rfl
  have hsd' : ∃ sd' : UState, sd' =
      { sd with
          cache := (u, DVal.dtimestamp (unix2apple_epoch_delta.add
            (q.sub unix2apple_epoch_delta))) :: (u, DVal.dcycleToken) :: sd.cache } :=
    ⟨_, rfl⟩
  obtain ⟨sd', hsd'⟩ := hsd'
  refine ⟨.dtimestamp (unix2apple_epoch_delta.add (q.sub unix2apple_epoch_delta)),
    sd', ?_, ?_, ?_, ?_, ?_, ?_⟩
  · simp only [decode_object, if_neg hu0, hcache]
    simp only [decode_slot, hget]
    rw [show recordGet [("$class", PValue.puid c),
        ("NS.time", PValue.pfloat (q.sub unix2apple_epoch_delta))] "$class"
      = some (PValue.puid c) from rfl]
    dsimp only
    rw [hcfu, pyerr_bind_ok]
    simp only [delegate_new, delegate_decode_archive, decode_key]
    rw [show recordGet [("$class", PValue.puid c),
        ("NS.time", PValue.pfloat (q.sub unix2apple_epoch_delta))] "NS.time"
      = some (PValue.pfloat (q.sub unix2apple_epoch_delta)) from rfl]
    simp only [pvalToDVal, pyerr_bind_ok, numValD]
    rw [hsd']
  · rw [hsd']
  · rw [hsd']
  · intro j hj
    rw [hsd']
  · have hmid : ∃ sdm : UState, sdm =
        { sd with cache := (u, DVal.dcycleToken) :: sd.cache } := ⟨_, rfl⟩
    obtain ⟨sdm, hmid⟩ := hmid
    have h1 : sdm.cache = (u, DVal.dcycleToken) :: sd.cache := by rw [hmid]
    have h2 : sd'.cache = (u, DVal.dtimestamp (unix2apple_epoch_delta.add
        (q.sub unix2apple_epoch_delta))) :: sdm.cache := by rw [hsd', hmid]
    exact cacheadds_trans (cacheadds_cons h1 hlo hu) (cacheadds_cons h2 hlo hu)
  · intro dh2 hag
    rw [delta_add_sub q]
    simp [agreesB]

/-- Running the uncached path of `archive` on a non-primitive object:
reserve the UID, append the placeholder, run encode_top_level, write the
finished record back into the reserved slot. -/
theorem archive_uncached_run {arcf : Arc} {st st2 : AState} {r : Nat} {node : PyNode}
    {rec2 : List (String × PValue)}
    (hnp : isPrimitiveNode node = false)
    (hrec : encode_top_level arcf
      { st with
          ref_cache := (r, st.objects.length) :: st.ref_cache,
          objects := st.objects ++ [.pdict []] } r node = .ok (rec2, st2)) :
    archive_uncached arcf st r node =
      .ok (st.objects.length,
        { st2 with objects := st2.objects.set st.objects.length (.pdict rec2) }) := by
  simp only [archive_uncached, hnp, Bool.false_eq_true, if_false]
  rw [hrec, pyerr_bind_ok]

/-- Running encode_top_level for a list object. -/
theorem etl_list_run {arc : Arc} {st st2 st3 : AState} {r c : Nat} {rs us : List Nat}
    (hc : uid_for_class_chain st ["NSArray", "NSObject"] = .ok (c, st2))
    (hl : arc_list arc rs st2 = .ok (us, st3)) :
    encode_top_level arc st r (.listN rs) =
      .ok ([("$class", .puid c), ("NS.objects", .parray (us.map .puid))], st3) := by
  simp only [encode_top_level]
  rw [hc, pyerr_bind_ok, hl, pyerr_bind_ok]

/-- Running encode_top_level for a set object. -/
theorem etl_set_run {arc : Arc} {st st2 st3 : AState} {r c : Nat} {rs us : List Nat}
    (hc : uid_for_class_chain st ["NSSet", "NSObject"] = .ok (c, st2))
    (hl : arc_list arc rs st2 = .ok (us, st3)) :
    encode_top_level arc st r (.setN rs) =
      .ok ([("$class", .puid c), ("NS.objects", .parray (us.map .puid))], st3) := by
  simp only [encode_top_level]
  rw [hc, pyerr_bind_ok, hl, pyerr_bind_ok]

/-- Running encode_top_level for a dict object. -/
theorem etl_dict_run {arc : Arc} {st st2 st3 : AState} {r c : Nat}
    {prs : List (Nat × Nat)} {kus vus : List Nat}
    (hc : uid_for_class_chain st ["NSDictionary", "NSObject"] = .ok (c, st2))
    (hl : arc_pairs arc prs st2 = .ok (kus, vus, st3)) :
    encode_top_level arc st r (.dictN prs) =
      .ok ([("$class", .puid c), ("NS.keys", .parray (kus.map .puid)),
            ("NS.objects", .parray (vus.map .puid))], st3) := by
  simp only [encode_top_level]
  rw [hc, pyerr_bind_ok, hl, pyerr_bind_ok]

/-- Running encode_top_level for a timestamp object. -/
theorem etl_ts_run {arc : Arc} {st st2 : AState} {r c : Nat} {q : PyFloat}
    (hc : uid_for_class_chain st ["NSDate", "NSObject"] = .ok (c, st2)) :
    encode_top_level arc st r (.timestampN q) =
      .ok ([("$class", .puid c), ("NS.time", .pfloat (q.sub unix2apple_epoch_delta))],
           st2) := by
  simp only [encode_top_level]
  rw [show get_objc_class (.timestampN q) = some ["NSDate", "NSObject"] from rfl]
  dsimp only
  rw [hc, pyerr_bind_ok]

/-- The simulation statement for every scalar tree whose object is in the
encoder's primitive set: the slot is written inline and decodes verbatim. -/
theorem encT_scalar {t : PyTree} {node : PyNode} {pv : PValue}
    (hpush : ∀ h : List PyNode, pushTree t h = (h ++ [node], h.length))
    (hnn : node ≠ .noneN)
    (hprim : isPrimitiveNode node = true)
    (hpv : primPValue node = pv)
    (hraw : ∀ kvs, pv ≠ .pdict kvs)
    (hagr : ∀ dh2, agreesB dh2 (pvalToDVal pv) t = true) :
    EncT t := by
  intro h0 hfull st fuel hwf hpfx hfresh hlen hinv hdep
  rw [hpush h0] at hpfx hfresh ⊢
  obtain ⟨f, rfl⟩ : ∃ f, fuel = f + 1 := ⟨fuel - 1, by omega⟩
  have hget : hfull.get? h0.length = some node := by
    rw [pfx_get hpfx (by simp)]
    exact List.get?_concat_length _ _
  have hmiss : alistGet st.ref_cache h0.length = none :=
    hfresh h0.length (le_refl _) (by simp)
  have hst2 : ∃ st2 : AState, st2 =
      { st with
          ref_cache := (h0.length, st.objects.length) :: st.ref_cache,
          objects := st.objects ++ [primPValue node] } := ⟨_, rfl⟩
  obtain ⟨st2, hst2⟩ := hst2
  have harc : archive hfull (f + 1) st h0.length = .ok (st.objects.length, st2) := by
    rw [archive_step hget hnn hmiss]
    simp only [archive_uncached, hprim, if_true]
    rw [hst2]
  refine ⟨st.objects.length, st2, harc, ?_, ?_, ?_, Or.inr rfl, ?_⟩
  · rw [hst2]
    exact slots_of_append _ _
  · exact refadds_cons (by rw [hst2]) (le_refl _) (by simp)
  · exact classinv_slots hinv (by rw [hst2]) (by rw [hst2]; exact slots_of_append _ _)
  · intro dfuel sd hd htab hfreshI
    obtain ⟨d, rfl⟩ : ∃ d, dfuel = d + 1 := ⟨dfuel - 1, by omega⟩
    have hu0 : st.objects.length ≠ 0 := by omega
    have hlt : st.objects.length < st2.objects.length := by rw [hst2]; simp
    have hcache : alistGet sd.cache st.objects.length = none :=
      hfreshI st.objects.length (le_refl _) hlt
    have hgetT : sd.objects.get? st.objects.length = some pv := by
      rw [htab.1 st.objects.length (le_refl _) hlt, hst2, ← hpv]
      exact List.get?_concat_length _ _
    refine ⟨pvalToDVal pv, sd, ?_, rfl, le_refl _, fun j _ => rfl,
      cacheadds_refl _ _ _, fun dh2 _ => hagr dh2⟩
    simp only [decode_object, if_neg hu0, hcache]
    exact decode_slot_nonrecord hgetT hraw

mutual
/-- The tree encoder simulation: archiving any well-formed tree laid out on
the live heap succeeds and the written slots decode back structurally equal
(proved mutually with the forest and pair versions). -/
theorem encT : ∀ (t : PyTree), EncT t
  | .vnone => by
    intro h0 hfull st fuel hwf hpfx hfresh hlen hinv hdep
    rw [show pushTree PyTree.vnone h0 = (h0 ++ [PyNode.noneN], h0.length) from rfl]
      at hpfx hfresh ⊢
    obtain ⟨f, rfl⟩ : ∃ f, fuel = f + 1 := ⟨fuel - 1, by omega⟩
    have hget : hfull.get? h0.length = some PyNode.noneN := by
      rw [pfx_get hpfx (by simp)]
      exact List.get?_concat_length _ _
    have hget2 : hfull[h0.length]? = some PyNode.noneN := by
      rw [← List.get?_eq_getElem?]; exact hget
    have harc : archive hfull (f + 1) st h0.length = .ok (0, st) := by
      simp [archive, hget2]
    refine ⟨0, st, harc, slots_refl _, refadds_refl _ _ _, hinv,
      Or.inl ⟨rfl, rfl, rfl⟩, ?_⟩
    intro dfuel sd hd htab hfreshI
    obtain ⟨d, rfl⟩ : ∃ d, dfuel = d + 1 := ⟨dfuel - 1, by omega⟩
    refine ⟨.dnone, sd, ?_, rfl, le_refl _, fun j _ => rfl, cacheadds_refl _ _ _,
      fun dh2 _ => rfl⟩
    simp [decode_object]
  | .vbool b => @encT_scalar (.vbool b) (.boolN b) (.pbool b)
      (fun _ => rfl) (by simp) rfl rfl (fun kvs => by simp)
      (fun dh2 => by simp [pvalToDVal, agreesB])
  | .vint n => @encT_scalar (.vint n) (.intN n) (.pint n)
      (fun _ => rfl) (by simp) rfl rfl (fun kvs => by simp)
      (fun dh2 => by simp [pvalToDVal, agreesB])
  | .vfloat q => @encT_scalar (.vfloat q) (.floatN q) (.pfloat q)
      (fun _ => rfl) (by simp) rfl rfl (fun kvs => by simp)
      (fun dh2 => by simp [pvalToDVal, agreesB])
  | .vstr s => @encT_scalar (.vstr s) (.strN s) (.pstr s)
      (fun _ => rfl) (by simp) rfl rfl (fun kvs => by simp)
      (fun dh2 => by simp [pvalToDVal, agreesB])
  | .vbytes bs => @encT_scalar (.vbytes bs) (.bytesN bs) (.pbytes bs)
      (fun _ => rfl) (by simp) rfl rfl (fun kvs => by simp)
      (fun dh2 => by simp [pvalToDVal, agreesB])
  | .vuid n => @encT_scalar (.vuid n) (.uidN n) (.puid n)
      (fun _ => rfl) (by simp) rfl rfl (fun kvs => by simp)
      (fun dh2 => by simp [pvalToDVal, agreesB])
  | .vtimestamp q => by
    intro h0 hfull st fuel hwf hpfx hfresh hlen hinv hdep
    rw [show pushTree (PyTree.vtimestamp q) h0
        = (h0 ++ [PyNode.timestampN q], h0.length) from rfl] at hpfx hfresh ⊢
    obtain ⟨f, rfl⟩ : ∃ f, fuel = f + 1 := ⟨fuel - 1, by omega⟩
    have hget : hfull.get? h0.length = some (PyNode.timestampN q) := by
      rw [pfx_get hpfx (by simp)]
      exact List.get?_concat_length _ _
    have hmiss : alistGet st.ref_cache h0.length = none :=
      hfresh h0.length (le_refl _) (by simp)
    have hst1 : ∃ st1 : AState, st1 =
        { st with
            ref_cache := (h0.length, st.objects.length) :: st.ref_cache,
            objects := st.objects ++ [.pdict []] } := ⟨_, rfl⟩
    obtain ⟨st1, hst1⟩ := hst1
    have he1 : st1.ref_cache
        = (h0.length, st.objects.length) :: st.ref_cache := by rw [hst1]
    have ho1 : st1.objects = st.objects ++ [.pdict []] := by rw [hst1]
    have hslots1 : SlotsPres st.objects st1.objects := by
      rw [ho1]; exact slots_of_append _ _
    have hlen1e : st1.objects.length = st.objects.length + 1 := by rw [ho1]; simp
    have hinv1 : ClassInvA st1 := classinv_slots hinv (by rw [hst1]) hslots1
    have hlen1 : 1 ≤ st1.objects.length := by omega
    obtain ⟨c, st2, hc, hrc2, hslots2, hinv2, hmetac, hc0, hlenb⟩ :=
      uid_chain_nsclass "NSDate" hinv1 hlen1
    have hetl := @etl_ts_run (archive hfull f) st1 st2 h0.length c q hc
    have hst4 : ∃ st4 : AState, st4 =
        { st2 with objects := st2.objects.set st.objects.length (.pdict
            [("$class", .puid c),
             ("NS.time", .pfloat (q.sub unix2apple_epoch_delta))]) } :=
      ⟨_, rfl⟩
    obtain ⟨st4, hst4⟩ := hst4
    have hau : archive_uncached (archive hfull f) st h0.length (.timestampN q)
        = .ok (st.objects.length, st4) := by
      rw [hst4]
      refine archive_uncached_run rfl ?_
      rw [← hst1]
      exact hetl
    have harc : archive hfull (f + 1) st h0.length = .ok (st.objects.length, st4) := by
      rw [archive_step hget (by simp) hmiss, hau]
    have hlt1 : st.objects.length < st1.objects.length := by omega
    have hlt2 : st.objects.length < st2.objects.length :=
      lt_of_lt_of_le hlt1 hslots2.1
    have hidx1 : st1.objects.get? st.objects.length = some (.pdict []) := by
      rw [ho1]; exact List.get?_concat_length _ _
    have hidx2 : st2.objects.get? st.objects.length = some (.pdict []) := by
      rw [hslots2.2 _ hlt1]; exact hidx1
    have hcne : c ≠ st.objects.length := by
      intro he
      rw [he, hidx2] at hmetac
      exact absurd (Option.some.inj hmetac) (pdict_nil_ne_meta _)
    have hlen4 : st4.objects.length = st2.objects.length := by rw [hst4]; simp
    have hmeta4 : st4.objects.get? c = some (metaFor "NSDate") := by
      rw [hst4]
      show (st2.objects.set _ _).get? c = _
      rw [List.get?_set_ne _ _ (Ne.symm hcne)]
      exact hmetac
    have hslot4 : st4.objects.get? st.objects.length
        = some (.pdict [("$class", .puid c),
            ("NS.time", .pfloat (q.sub unix2apple_epoch_delta))]) := by
      rw [hst4]
      exact List.get?_set_eq_of_lt _ hlt2
    refine ⟨st.objects.length, st4, harc, ?_, ?_, ?_, Or.inr rfl, ?_⟩
    · rw [hst4]
      exact slots_set_above (slots_trans hslots1 hslots2) (le_refl _) _
    · have e2 : st2.ref_cache = st1.ref_cache := hrc2
      have e4 : st4.ref_cache = st2.ref_cache := by rw [hst4]
      exact refadds_trans (refadds_cons he1 (le_refl _) (by simp))
        (refadds_trans (refadds_of_eq e2 _ _) (refadds_of_eq e4 _ _))
    · rw [hst4]
      exact classinv_set_placeholder _ hinv2 hidx2
    · exact decone_ts (by omega) (le_refl _) (by omega) hslot4 hmeta4
  | .vlist xs => by
    intro h0 hfull st fuel hwf hpfx hfresh hlen hinv hdep
    rw [pushTree_vlist] at hpfx hfresh ⊢
    obtain ⟨f, rfl⟩ : ∃ f, fuel = f + 1 := ⟨fuel - 1, by omega⟩
    have hdepf : depthF xs < f := by simp only [depthT] at hdep; omega
    have hwff : wfF xs = true := by simpa [wfT] using hwf
    have hpfxF : ListPfx (pushForest xs h0).1 hfull := pfx_trans (pfx_append _ _) hpfx
    have hh0 : h0.length ≤ (pushForest xs h0).1.length := pfx_len (pushForest_pfx xs h0)
    have hget : hfull.get? (pushForest xs h0).1.length
        = some (.listN (pushForest xs h0).2) := by
      rw [pfx_get hpfx (by simp)]
      exact List.get?_concat_length _ _
    have hmiss : alistGet st.ref_cache (pushForest xs h0).1.length = none :=
      hfresh _ hh0 (by simp)
    have hst1 : ∃ st1 : AState, st1 =
        { st with
            ref_cache := ((pushForest xs h0).1.length, st.objects.length)
              :: st.ref_cache,
            objects := st.objects ++ [.pdict []] } := ⟨_, rfl⟩
    obtain ⟨st1, hst1⟩ := hst1
    have he1 : st1.ref_cache = ((pushForest xs h0).1.length, st.objects.length)
        :: st.ref_cache := by rw [hst1]
    have ho1 : st1.objects = st.objects ++ [.pdict []] := by rw [hst1]
    have hslots1 : SlotsPres st.objects st1.objects := by
      rw [ho1]; exact slots_of_append _ _
    have hlen1e : st1.objects.length = st.objects.length + 1 := by rw [ho1]; simp
    have hinv1 : ClassInvA st1 := classinv_slots hinv (by rw [hst1]) hslots1
    have hlen1 : 1 ≤ st1.objects.length := by omega
    obtain ⟨c, st2, hc, hrc2, hslots2, hinv2, hmetac, hc0, hlenb⟩ :=
      uid_chain_nsclass "NSArray" hinv1 hlen1
    have hfresh2 : RefFreshA st2 h0.length (pushForest xs h0).1.length := by
      intro i h1 h2
      rw [hrc2, he1]
      simp only [alistGet]
      rw [if_neg (by omega)]
      exact hfresh i h1 (by simp; omega)
    obtain ⟨us, st3, hl, hslots3, hradds3, hinv3, hdecf⟩ :=
      encF xs h0 hfull st2 f hwff hpfxF hfresh2 (le_trans hlen1 hslots2.1) hinv2 hdepf
    have hetl := @etl_list_run (archive hfull f) st1 st2 st3
      (pushForest xs h0).1.length c (pushForest xs h0).2 us hc hl
    have hst4 : ∃ st4 : AState, st4 =
        { st3 with objects := st3.objects.set st.objects.length (.pdict
            [("$class", .puid c),
             ("NS.objects", .parray (us.map .puid))]) } := ⟨_, rfl⟩
    obtain ⟨st4, hst4⟩ := hst4
    have hau : archive_uncached (archive hfull f) st (pushForest xs h0).1.length
        (.listN (pushForest xs h0).2) = .ok (st.objects.length, st4) := by
      rw [hst4]
      refine archive_uncached_run rfl ?_
      rw [← hst1]
      exact hetl
    have harc : archive hfull (f + 1) st (pushForest xs h0).1.length
        = .ok (st.objects.length, st4) := by
      rw [archive_step hget (by simp) hmiss, hau]
    have hlt1 : st.objects.length < st1.objects.length := by omega
    have hlt2 : st.objects.length < st2.objects.length :=
      lt_of_lt_of_le hlt1 hslots2.1
    have hlt3 : st2.objects.length ≤ st3.objects.length := hslots3.1
    have hidx1 : st1.objects.get? st.objects.length = some (.pdict []) := by
      rw [ho1]; exact List.get?_concat_length _ _
    have hidx2 : st2.objects.get? st.objects.length = some (.pdict []) := by
      rw [hslots2.2 _ hlt1]; exact hidx1
    have hidx3 : st3.objects.get? st.objects.length = some (.pdict []) := by
      rw [hslots3.2 _ hlt2]; exact hidx2
    have hlen4 : st4.objects.length = st3.objects.length := by rw [hst4]; simp
    have hne_idx : ∀ c2 nm, st3.objects.get? c2 = some (metaFor nm)
        → c2 ≠ st.objects.length := by
      intro c2 nm hm he
      rw [he, hidx3] at hm
      exact absurd (Option.some.inj hm) (pdict_nil_ne_meta nm)
    have hmeta3 : st3.objects.get? c = some (metaFor "NSArray") := by
      rw [hslots3.2 _ (get_some_lt hmetac)]; exact hmetac
    have hmeta4 : st4.objects.get? c = some (metaFor "NSArray") := by
      rw [hst4]
      show (st3.objects.set _ _).get? c = _
      rw [List.get?_set_ne _ _ (Ne.symm (hne_idx c _ hmeta3))]
      exact hmeta3
    have hslot4 : st4.objects.get? st.objects.length
        = some (.pdict [("$class", .puid c),
            ("NS.objects", .parray (us.map .puid))]) := by
      rw [hst4]
      exact List.get?_set_eq_of_lt _ (lt_of_lt_of_le hlt2 hlt3)
    have hdecf4 : DecForest st4.objects us xs st2.objects.length st3.objects.length := by
      refine decforest_mono hdecf ?_ ?_
      · intro i h1 h2
        rw [hst4]
        show (st3.objects.set _ _).get? i = _
        rw [List.get?_set_ne _ _ (by omega)]
      · intro c2 nm hm
        rw [hst4]
        show (st3.objects.set _ _).get? c2 = _
        rw [List.get?_set_ne _ _ (Ne.symm (hne_idx c2 nm hm))]
        exact hm
    rw [← hlen4] at hdecf4
    refine ⟨st.objects.length, st4, harc, ?_, ?_, ?_, Or.inr rfl, ?_⟩
    · rw [hst4]
      exact slots_set_above (slots_trans hslots1 (slots_trans hslots2 hslots3))
        (le_refl _) _
    · have e2 : st2.ref_cache = st1.ref_cache := hrc2
      have e4 : st4.ref_cache = st3.ref_cache := by rw [hst4]
      exact refadds_trans (refadds_cons he1 hh0 (by simp))
        (refadds_trans (refadds_of_eq e2 _ _)
          (refadds_trans (refadds_widen hradds3 (le_refl _) (by simp))
            (refadds_of_eq e4 _ _)))
    · rw [hst4]
      exact classinv_set_placeholder _ hinv3 hidx3
    · exact decone_list (by omega) (le_refl _) (by omega) (by omega) hslot4 hmeta4 hdecf4
  | .vset xs => by
    intro h0 hfull st fuel hwf hpfx hfresh hlen hinv hdep
    rw [pushTree_vset] at hpfx hfresh ⊢
    obtain ⟨f, rfl⟩ : ∃ f, fuel = f + 1 := ⟨fuel - 1, by omega⟩
    have hdepf : depthF xs < f := by simp only [depthT] at hdep; omega
    have hparts : wfF xs = true ∧ distinctT (forestList xs) = true
        ∧ (forestList xs).all isHashableT = true := by
      have h3 := hwf
      simp only [wfT, Bool.and_eq_true] at h3
      exact ⟨h3.1.1, h3.1.2, h3.2⟩
    have hpfxF : ListPfx (pushForest xs h0).1 hfull := pfx_trans (pfx_append _ _) hpfx
    have hh0 : h0.length ≤ (pushForest xs h0).1.length := pfx_len (pushForest_pfx xs h0)
    have hget : hfull.get? (pushForest xs h0).1.length
        = some (.setN (pushForest xs h0).2) := by
      rw [pfx_get hpfx (by simp)]
      exact List.get?_concat_length _ _
    have hmiss : alistGet st.ref_cache (pushForest xs h0).1.length = none :=
      hfresh _ hh0 (by simp)
    have hst1 : ∃ st1 : AState, st1 =
        { st with
            ref_cache := ((pushForest xs h0).1.length, st.objects.length)
              :: st.ref_cache,
            objects := st.objects ++ [.pdict []] } := ⟨_, rfl⟩
    obtain ⟨st1, hst1⟩ := hst1
    have he1 : st1.ref_cache = ((pushForest xs h0).1.length, st.objects.length)
        :: st.ref_cache := by rw [hst1]
    have ho1 : st1.objects = st.objects ++ [.pdict []] := by rw [hst1]
    have hslots1 : SlotsPres st.objects st1.objects := by
      rw [ho1]; exact slots_of_append _ _
    have hlen1e : st1.objects.length = st.objects.length + 1 := by rw [ho1]; simp
    have hinv1 : ClassInvA st1 := classinv_slots hinv (by rw [hst1]) hslots1
    have hlen1 : 1 ≤ st1.objects.length := by omega
    obtain ⟨c, st2, hc, hrc2, hslots2, hinv2, hmetac, hc0, hlenb⟩ :=
      uid_chain_nsclass "NSSet" hinv1 hlen1
    have hfresh2 : RefFreshA st2 h0.length (pushForest xs h0).1.length := by
      intro i h1 h2
      rw [hrc2, he1]
      simp only [alistGet]
      rw [if_neg (by omega)]
      exact hfresh i h1 (by simp; omega)
    obtain ⟨us, st3, hl, hslots3, hradds3, hinv3, hdecf⟩ :=
      encF xs h0 hfull st2 f hparts.1 hpfxF hfresh2 (le_trans hlen1 hslots2.1)
        hinv2 hdepf
    have hetl := @etl_set_run (archive hfull f) st1 st2 st3
      (pushForest xs h0).1.length c (pushForest xs h0).2 us hc hl
    have hst4 : ∃ st4 : AState, st4 =
        { st3 with objects := st3.objects.set st.objects.length (.pdict
            [("$class", .puid c),
             ("NS.objects", .parray (us.map .puid))]) } := ⟨_, rfl⟩
    obtain ⟨st4, hst4⟩ := hst4
    have hau : archive_uncached (archive hfull f) st (pushForest xs h0).1.length
        (.setN (pushForest xs h0).2) = .ok (st.objects.length, st4) := by
      rw [hst4]
      refine archive_uncached_run rfl ?_
      rw [← hst1]
      exact hetl
    have harc : archive hfull (f + 1) st (pushForest xs h0).1.length
        = .ok (st.objects.length, st4) := by
      rw [archive_step hget (by simp) hmiss, hau]
    have hlt1 : st.objects.length < st1.objects.length := by omega
    have hlt2 : st.objects.length < st2.objects.length :=
      lt_of_lt_of_le hlt1 hslots2.1
    have hlt3 : st2.objects.length ≤ st3.objects.length := hslots3.1
    have hidx1 : st1.objects.get? st.objects.length = some (.pdict []) := by
      rw [ho1]; exact List.get?_concat_length _ _
    have hidx2 : st2.objects.get? st.objects.length = some (.pdict []) := by
      rw [hslots2.2 _ hlt1]; exact hidx1
    have hidx3 : st3.objects.get? st.objects.length = some (.pdict []) := by
      rw [hslots3.2 _ hlt2]; exact hidx2
    have hlen4 : st4.objects.length = st3.objects.length := by rw [hst4]; simp
    have hne_idx : ∀ c2 nm, st3.objects.get? c2 = some (metaFor nm)
        → c2 ≠ st.objects.length := by
      intro c2 nm hm he
      rw [he, hidx3] at hm
      exact absurd (Option.some.inj hm) (pdict_nil_ne_meta nm)
    have hmeta3 : st3.objects.get? c = some (metaFor "NSSet") := by
      rw [hslots3.2 _ (get_some_lt hmetac)]; exact hmetac
    have hmeta4 : st4.objects.get? c = some (metaFor "NSSet") := by
      rw [hst4]
      show (st3.objects.set _ _).get? c = _
      rw [List.get?_set_ne _ _ (Ne.symm (hne_idx c _ hmeta3))]
      exact hmeta3
    have hslot4 : st4.objects.get? st.objects.length
        = some (.pdict [("$class", .puid c),
            ("NS.objects", .parray (us.map .puid))]) := by
      rw [hst4]
      exact List.get?_set_eq_of_lt _ (lt_of_lt_of_le hlt2 hlt3)
    have hdecf4 : DecForest st4.objects us xs st2.objects.length st3.objects.length := by
      refine decforest_mono hdecf ?_ ?_
      · intro i h1 h2
        rw [hst4]
        show (st3.objects.set _ _).get? i = _
        rw [List.get?_set_ne _ _ (by omega)]
      · intro c2 nm hm
        rw [hst4]
        show (st3.objects.set _ _).get? c2 = _
        rw [List.get?_set_ne _ _ (Ne.symm (hne_idx c2 nm hm))]
        exact hm
    rw [← hlen4] at hdecf4
    refine ⟨st.objects.length, st4, harc, ?_, ?_, ?_, Or.inr rfl, ?_⟩
    · rw [hst4]
      exact slots_set_above (slots_trans hslots1 (slots_trans hslots2 hslots3))
        (le_refl _) _
    · have e2 : st2.ref_cache = st1.ref_cache := hrc2
      have e4 : st4.ref_cache = st3.ref_cache := by rw [hst4]
      exact refadds_trans (refadds_cons he1 hh0 (by simp))
        (refadds_trans (refadds_of_eq e2 _ _)
          (refadds_trans (refadds_widen hradds3 (le_refl _) (by simp))
            (refadds_of_eq e4 _ _)))
    · rw [hst4]
      exact classinv_set_placeholder _ hinv3 hidx3
    · exact decone_set (by omega) (le_refl _) (by omega) (by omega)
        hparts.2.2 hparts.2.1 hslot4 hmeta4 hdecf4
  | .vdict kvs => by
    intro h0 hfull st fuel hwf hpfx hfresh hlen hinv hdep
    rw [pushTree_vdict] at hpfx hfresh ⊢
    obtain ⟨f, rfl⟩ : ∃ f, fuel = f + 1 := ⟨fuel - 1, by omega⟩
    have hdepf : depthP kvs < f := by simp only [depthT] at hdep; omega
    have hparts : wfP kvs = true ∧ distinctT (pairKeys kvs) = true
        ∧ (pairKeys kvs).all isHashableT = true := by
      have h3 := hwf
      simp only [wfT, Bool.and_eq_true] at h3
      exact ⟨h3.1.1, h3.1.2, h3.2⟩
    have hpfxF : ListPfx (pushPairs kvs h0).1 hfull := pfx_trans (pfx_append _ _) hpfx
    have hh0 : h0.length ≤ (pushPairs kvs h0).1.length := pfx_len (pushPairs_pfx kvs h0)
    have hget : hfull.get? (pushPairs kvs h0).1.length
        = some (.dictN (pushPairs kvs h0).2) := by
      rw [pfx_get hpfx (by simp)]
      exact List.get?_concat_length _ _
    have hmiss : alistGet st.ref_cache (pushPairs kvs h0).1.length = none :=
      hfresh _ hh0 (by simp)
    have hst1 : ∃ st1 : AState, st1 =
        { st with
            ref_cache := ((pushPairs kvs h0).1.length, st.objects.length)
              :: st.ref_cache,
            objects := st.objects ++ [.pdict []] } := ⟨_, rfl⟩
    obtain ⟨st1, hst1⟩ := hst1
    have he1 : st1.ref_cache = ((pushPairs kvs h0).1.length, st.objects.length)
        :: st.ref_cache := by rw [hst1]
    have ho1 : st1.objects = st.objects ++ [.pdict []] := by rw [hst1]
    have hslots1 : SlotsPres st.objects st1.objects := by
      rw [ho1]; exact slots_of_append _ _
    have hlen1e : st1.objects.length = st.objects.length + 1 := by rw [ho1]; simp
    have hinv1 : ClassInvA st1 := classinv_slots hinv (by rw [hst1]) hslots1
    have hlen1 : 1 ≤ st1.objects.length := by omega
    obtain ⟨c, st2, hc, hrc2, hslots2, hinv2, hmetac, hc0, hlenb⟩ :=
      uid_chain_nsclass "NSDictionary" hinv1 hlen1
    have hfresh2 : RefFreshA st2 h0.length (pushPairs kvs h0).1.length := by
      intro i h1 h2
      rw [hrc2, he1]
      simp only [alistGet]
      rw [if_neg (by omega)]
      exact hfresh i h1 (by simp; omega)
    obtain ⟨kus, vus, st3, hl, hslots3, hradds3, hinv3, hdecp⟩ :=
      encP kvs h0 hfull st2 f hparts.1 hpfxF hfresh2 (le_trans hlen1 hslots2.1)
        hinv2 hdepf
    have hetl := @etl_dict_run (archive hfull f) st1 st2 st3
      (pushPairs kvs h0).1.length c (pushPairs kvs h0).2 kus vus hc hl
    have hst4 : ∃ st4 : AState, st4 =
        { st3 with objects := st3.objects.set st.objects.length (.pdict
            [("$class", .puid c),
             ("NS.keys", .parray (kus.map .puid)),
             ("NS.objects", .parray (vus.map .puid))]) } := ⟨_, rfl⟩
    obtain ⟨st4, hst4⟩ := hst4
    have hau : archive_uncached (archive hfull f) st (pushPairs kvs h0).1.length
        (.dictN (pushPairs kvs h0).2) = .ok (st.objects.length, st4) := by
      rw [hst4]
      refine archive_uncached_run rfl ?_
      rw [← hst1]
      exact hetl
    have harc : archive hfull (f + 1) st (pushPairs kvs h0).1.length
        = .ok (st.objects.length, st4) := by
      rw [archive_step hget (by simp) hmiss, hau]
    have hlt1 : st.objects.length < st1.objects.length := by omega
    have hlt2 : st.objects.length < st2.objects.length :=
      lt_of_lt_of_le hlt1 hslots2.1
    have hlt3 : st2.objects.length ≤ st3.objects.length := hslots3.1
    have hidx1 : st1.objects.get? st.objects.length = some (.pdict []) := by
      rw [ho1]; exact List.get?_concat_length _ _
    have hidx2 : st2.objects.get? st.objects.length = some (.pdict []) := by
      rw [hslots2.2 _ hlt1]; exact hidx1
    have hidx3 : st3.objects.get? st.objects.length = some (.pdict []) := by
      rw [hslots3.2 _ hlt2]; exact hidx2
    have hlen4 : st4.objects.length = st3.objects.length := by rw [hst4]; simp
    have hne_idx : ∀ c2 nm, st3.objects.get? c2 = some (metaFor nm)
        → c2 ≠ st.objects.length := by
      intro c2 nm hm he
      rw [he, hidx3] at hm
      exact absurd (Option.some.inj hm) (pdict_nil_ne_meta nm)
    have hmeta3 : st3.objects.get? c = some (metaFor "NSDictionary") := by
      rw [hslots3.2 _ (get_some_lt hmetac)]; exact hmetac
    have hmeta4 : st4.objects.get? c = some (metaFor "NSDictionary") := by
      rw [hst4]
      show (st3.objects.set _ _).get? c = _
      rw [List.get?_set_ne _ _ (Ne.symm (hne_idx c _ hmeta3))]
      exact hmeta3
    have hslot4 : st4.objects.get? st.objects.length
        = some (.pdict [("$class", .puid c),
            ("NS.keys", .parray (kus.map .puid)),
            ("NS.objects", .parray (vus.map .puid))]) := by
      rw [hst4]
      exact List.get?_set_eq_of_lt _ (lt_of_lt_of_le hlt2 hlt3)
    have hdecp4 : DecPairs st4.objects kus vus kvs st2.objects.length
        st3.objects.length := by
      refine decpairs_mono hdecp ?_ ?_
      · intro i h1 h2
        rw [hst4]
        show (st3.objects.set _ _).get? i = _
        rw [List.get?_set_ne _ _ (by omega)]
      · intro c2 nm hm
        rw [hst4]
        show (st3.objects.set _ _).get? c2 = _
        rw [List.get?_set_ne _ _ (Ne.symm (hne_idx c2 nm hm))]
        exact hm
    rw [← hlen4] at hdecp4
    refine ⟨st.objects.length, st4, harc, ?_, ?_, ?_, Or.inr rfl, ?_⟩
    · rw [hst4]
      exact slots_set_above (slots_trans hslots1 (slots_trans hslots2 hslots3))
        (le_refl _) _
    · have e2 : st2.ref_cache = st1.ref_cache := hrc2
      have e4 : st4.ref_cache = st3.ref_cache := by rw [hst4]
      exact refadds_trans (refadds_cons he1 hh0 (by simp))
        (refadds_trans (refadds_of_eq e2 _ _)
          (refadds_trans (refadds_widen hradds3 (le_refl _) (by simp))
            (refadds_of_eq e4 _ _)))
    · rw [hst4]
      exact classinv_set_placeholder _ hinv3 hidx3
    · exact decone_dict (by omega) (le_refl _) (by omega) (by omega)
        hparts.2.2 hparts.2.1 hslot4 hmeta4 hdecp4
/-- Forest version of the tree encoder simulation (the element loop of
encode_list / encode_set). -/
theorem encF : ∀ (ts : PyForest), EncF ts
  | .nil => by
    intro h0 hfull st fuel hwf hpfx hfresh hlen hinv hdep
    exact ⟨[], st, rfl, slots_refl _, refadds_refl _ _ _, hinv, le_refl _⟩
  | .cons t ts => by
    intro h0 hfull st fuel hwf hpfx hfresh hlen hinv hdep
    rw [pushForest_cons_eq] at hpfx hfresh ⊢
    have hwf2 : wfT t = true ∧ wfF ts = true := by
      have h2 := hwf
      simp only [wfF, Bool.and_eq_true] at h2
      exact h2
    have hdep2 : depthT t < fuel ∧ depthF ts < fuel := by
      simp only [depthF, Nat.max_lt] at hdep
      exact hdep
    have hpfx1 : ListPfx (pushTree t h0).1 hfull :=
      pfx_trans (pushForest_pfx ts (pushTree t h0).1) hpfx
    have hl01 : h0.length ≤ (pushTree t h0).1.length := pfx_len (pushTree_pfx t h0)
    have hl12 : (pushTree t h0).1.length
        ≤ (pushForest ts (pushTree t h0).1).1.length :=
      pfx_len (pushForest_pfx ts (pushTree t h0).1)
    have hfresh1 : RefFreshA st h0.length (pushTree t h0).1.length :=
      reffresh_shrink hfresh (le_refl _) hl12
    obtain ⟨u, st1, harc, hslots1, hradds1, hinv1, hu, hdec1⟩ :=
      encT t h0 hfull st fuel hwf2.1 hpfx1 hfresh1 hlen hinv hdep2.1
    have hfresh2 : RefFreshA st1 (pushTree t h0).1.length
        (pushForest ts (pushTree t h0).1).1.length :=
      reffresh_after hfresh hradds1 (le_refl _) hl01
    obtain ⟨us, st2, hl, hslots2, hradds2, hinv2, hdecf⟩ :=
      encF ts (pushTree t h0).1 hfull st1 fuel hwf2.2 hpfx hfresh2
        (le_trans hlen hslots1.1) hinv1 hdep2.2
    refine ⟨u :: us, st2, ?_, slots_trans hslots1 hslots2,
      refadds_trans (refadds_widen hradds1 (le_refl _) hl12)
        (refadds_widen hradds2 hl01 (le_refl _)), hinv2, ?_⟩
    · simp only [arc_list]
      rw [harc, pyerr_bind_ok, hl, pyerr_bind_ok]
    · refine ⟨st1.objects.length, hslots1.1, hslots2.1,
        decone_mono hdec1 (fun i h1 h2 => hslots2.2 i h2) ?_, hdecf⟩
      intro c2 nm hm
      rw [hslots2.2 c2 (get_some_lt hm)]
      exact hm
/-- Pair version of the tree encoder simulation (the key/value loop of
encode_dict). -/
theorem encP : ∀ (ps : PyPairs), EncP ps
  | .nil => by
    intro h0 hfull st fuel hwf hpfx hfresh hlen hinv hdep
    exact ⟨[], [], st, rfl, slots_refl _, refadds_refl _ _ _, hinv, le_refl _⟩
  | .cons k v rest => by
    intro h0 hfull st fuel hwf hpfx hfresh hlen hinv hdep
    rw [pushPairs_cons_eq] at hpfx hfresh ⊢
    have hwf3 : wfT k = true ∧ wfT v = true ∧ wfP rest = true := by
      have h3 := hwf
      simp only [wfP, Bool.and_eq_true] at h3
      exact ⟨h3.1.1, h3.1.2, h3.2⟩
    have hdep3 : depthT k < fuel ∧ depthT v < fuel ∧ depthP rest < fuel := by
      simp only [depthP, Nat.max_lt] at hdep
      exact ⟨hdep.1, hdep.2.1, hdep.2.2⟩
    have hpfx2 : ListPfx (pushTree v (pushTree k h0).1).1 hfull :=
      pfx_trans (pushPairs_pfx rest (pushTree v (pushTree k h0).1).1) hpfx
    have hpfx1 : ListPfx (pushTree k h0).1 hfull :=
      pfx_trans (pushTree_pfx v (pushTree k h0).1) hpfx2
    have hl01 : h0.length ≤ (pushTree k h0).1.length := pfx_len (pushTree_pfx k h0)
    have hl12 : (pushTree k h0).1.length
        ≤ (pushTree v (pushTree k h0).1).1.length :=
      pfx_len (pushTree_pfx v (pushTree k h0).1)
    have hl23 : (pushTree v (pushTree k h0).1).1.length
        ≤ (pushPairs rest (pushTree v (pushTree k h0).1).1).1.length :=
      pfx_len (pushPairs_pfx rest _)
    have hfreshk : RefFreshA st h0.length (pushTree k h0).1.length :=
      reffresh_shrink hfresh (le_refl _) (le_trans hl12 hl23)
    obtain ⟨ku, st1, harck, hslots1, hradds1, hinv1, hku, hdeck⟩ :=
      encT k h0 hfull st fuel hwf3.1 hpfx1 hfreshk hlen hinv hdep3.1
    have hfreshv : RefFreshA st1 (pushTree k h0).1.length
        (pushTree v (pushTree k h0).1).1.length := by
      have ha := reffresh_after hfresh hradds1 (le_refl _) hl01
      exact reffresh_shrink ha (le_refl _) hl23
    obtain ⟨vu, st2, harcv, hslots2, hradds2, hinv2, hvu, hdecv⟩ :=
      encT v (pushTree k h0).1 hfull st1 fuel hwf3.2.1 hpfx2 hfreshv
        (le_trans hlen hslots1.1) hinv1 hdep3.2.1
    have hfreshr : RefFreshA st2 (pushTree v (pushTree k h0).1).1.length
        (pushPairs rest (pushTree v (pushTree k h0).1).1).1.length := by
      have ha := reffresh_after hfresh hradds1 (le_refl _) hl01
      exact reffresh_after ha hradds2 (le_refl _) hl12
    obtain ⟨kus, vus, st3, hlr, hslots3, hradds3, hinv3, hdecp⟩ :=
      encP rest (pushTree v (pushTree k h0).1).1 hfull st2 fuel hwf3.2.2 hpfx
        hfreshr (le_trans (le_trans hlen hslots1.1) hslots2.1) hinv2 hdep3.2.2
    refine ⟨ku :: kus, vu :: vus, st3, ?_,
      slots_trans hslots1 (slots_trans hslots2 hslots3), ?_, hinv3, ?_⟩
    · simp only [arc_pairs]
      rw [harck, pyerr_bind_ok, harcv, pyerr_bind_ok, hlr, pyerr_bind_ok]
    · exact refadds_trans (refadds_widen hradds1 (le_refl _) (le_trans hl12 hl23))
        (refadds_trans (refadds_widen hradds2 hl01 hl23)
          (refadds_widen hradds3 (le_trans hl01 hl12) (le_refl _)))
    · refine ⟨st1.objects.length, st2.objects.length, hslots1.1, hslots2.1,
        hslots3.1, decone_mono hdeck ?_ ?_, decone_mono hdecv ?_ ?_, hdecp⟩
      · intro i h1 h2
        rw [hslots3.2 i (lt_of_lt_of_le h2 hslots2.1), hslots2.2 i h2]
      · intro c2 nm hm
        have h2m : st2.objects.get? c2 = some (metaFor nm) := by
          rw [hslots2.2 c2 (get_some_lt hm)]
          exact hm
        rw [hslots3.2 c2 (get_some_lt h2m)]
        exact h2m
      · intro i h1 h2
        exact hslots3.2 i h2
      · intro c2 nm hm
        rw [hslots3.2 c2 (get_some_lt hm)]
        exact hm
end

mutual
/-- A live object (heap address `r`) of supported type whose reachable
subgraph is acyclic, together with its contents-wise unfolding: sharing is
allowed (two fields may hold the same address), cycles are not (the
derivation is well-founded). -/
inductive NodeT (h : List PyNode) : Nat → PyTree → Prop where
  | nnone (r : Nat) : h.get? r = some .noneN → NodeT h r .vnone
  | nbool (r : Nat) (b : Bool) : h.get? r = some (.boolN b) → NodeT h r (.vbool b)
  | nint (r : Nat) (n : Int) : h.get? r = some (.intN n) → NodeT h r (.vint n)
  | nfloat (r : Nat) (q : PyFloat) : h.get? r = some (.floatN q) → NodeT h r (.vfloat q)
  | nstr (r : Nat) (s : String) : h.get? r = some (.strN s) → NodeT h r (.vstr s)
  | nbytes (r : Nat) (bs : List Nat) :
      h.get? r = some (.bytesN bs) → NodeT h r (.vbytes bs)
  | nuid (r : Nat) (n : Nat) : h.get? r = some (.uidN n) → NodeT h r (.vuid n)
  | nts (r : Nat) (q : PyFloat) :
      h.get? r = some (.timestampN q) → NodeT h r (.vtimestamp q)
  | nlist (r : Nat) (rs : List Nat) (xs : PyForest) :
      h.get? r = some (.listN rs) → NodeF h rs xs → NodeT h r (.vlist xs)
  | nset (r : Nat) (rs : List Nat) (xs : PyForest) :
      h.get? r = some (.setN rs) → NodeF h rs xs → NodeT h r (.vset xs)
  | ndict (r : Nat) (prs : List (Nat × Nat)) (kvs : PyPairs) :
      h.get? r = some (.dictN prs) → NodeP h prs kvs → NodeT h r (.vdict kvs)
/-- Unfolding of a list of sibling addresses. -/
inductive NodeF (h : List PyNode) : List Nat → PyForest → Prop where
  | fnil : NodeF h [] .nil
  | fcons (r : Nat) (rs : List Nat) (t : PyTree) (ts : PyForest) :
      NodeT h r t → NodeF h rs ts → NodeF h (r :: rs) (.cons t ts)
/-- Unfolding of dict entries (address pairs in iteration order). -/
inductive NodeP (h : List PyNode) : List (Nat × Nat) → PyPairs → Prop where
  | pnil : NodeP h [] .nil
  | pcons (rk rv : Nat) (prs : List (Nat × Nat)) (k v : PyTree) (rest : PyPairs) :
      NodeT h rk k → NodeT h rv v → NodeP h prs rest →
      NodeP h ((rk, rv) :: prs) (.cons k v rest)
end

mutual
/-- Slot `u` of the encoded object table holds (contents-wise) the tree `t`,
in exactly the shapes the archiver writes: uid(0) is None, primitives are
inline, and records carry the `$class` metadata UID; the derivation being
well-founded captures that the slot reference graph is acyclic. -/
inductive SlotT (objs : List PValue) : Nat → PyTree → Prop where
  | snone : SlotT objs 0 .vnone
  | sbool (u : Nat) (b : Bool) :
      u ≠ 0 → objs.get? u = some (.pbool b) → SlotT objs u (.vbool b)
  | sint (u : Nat) (n : Int) :
      u ≠ 0 → objs.get? u = some (.pint n) → SlotT objs u (.vint n)
  | sfloat (u : Nat) (q : PyFloat) :
      u ≠ 0 → objs.get? u = some (.pfloat q) → SlotT objs u (.vfloat q)
  | sstr (u : Nat) (s : String) :
      u ≠ 0 → objs.get? u = some (.pstr s) → SlotT objs u (.vstr s)
  | sbytes (u : Nat) (bs : List Nat) :
      u ≠ 0 → objs.get? u = some (.pbytes bs) → SlotT objs u (.vbytes bs)
  | suid (u : Nat) (n : Nat) :
      u ≠ 0 → objs.get? u = some (.puid n) → SlotT objs u (.vuid n)
  | sts (u c : Nat) (q : PyFloat) :
      u ≠ 0 →
      objs.get? u = some (.pdict [("$class", .puid c),
        ("NS.time", .pfloat (q.sub unix2apple_epoch_delta))]) →
      objs.get? c = some (metaFor "NSDate") →
      SlotT objs u (.vtimestamp q)
  | slist (u c : Nat) (us : List Nat) (xs : PyForest) :
      u ≠ 0 →
      objs.get? u = some (.pdict [("$class", .puid c),
        ("NS.objects", .parray (us.map .puid))]) →
      objs.get? c = some (metaFor "NSArray") →
      SlotF objs us xs → SlotT objs u (.vlist xs)
  | sset (u c : Nat) (us : List Nat) (xs : PyForest) :
      u ≠ 0 →
      objs.get? u = some (.pdict [("$class", .puid c),
        ("NS.objects", .parray (us.map .puid))]) →
      objs.get? c = some (metaFor "NSSet") →
      SlotF objs us xs → SlotT objs u (.vset xs)
  | sdict (u c : Nat) (kus vus : List Nat) (kvs : PyPairs) :
      u ≠ 0 →
      objs.get? u = some (.pdict [("$class", .puid c),
        ("NS.keys", .parray (kus.map .puid)),
        ("NS.objects", .parray (vus.map .puid))]) →
      objs.get? c = some (metaFor "NSDictionary") →
      SlotP objs kus vus kvs → SlotT objs u (.vdict kvs)
/-- Slots of a sibling UID list. -/
inductive SlotF (objs : List PValue) : List Nat → PyForest → Prop where
  | fnil : SlotF objs [] .nil
  | fcons (u : Nat) (us : List Nat) (t : PyTree) (ts : PyForest) :
      SlotT objs u t → SlotF objs us ts → SlotF objs (u :: us) (.cons t ts)
/-- Slots of paired key/value UID lists. -/
inductive SlotP (objs : List PValue) : List Nat → List Nat → PyPairs → Prop where
  | pnil : SlotP objs [] [] .nil
  | pcons (ku vu : Nat) (kus vus : List Nat) (k v : PyTree) (rest : PyPairs) :
      SlotT objs ku k → SlotT objs vu v → SlotP objs kus vus rest →
      SlotP objs (ku :: kus) (vu :: vus) (.cons k v rest)
end

/-- Mapping `.puid` over UID lists is injective. -/
theorem puid_map_inj : ∀ {us vs : List Nat},
    us.map PValue.puid = vs.map PValue.puid → us = vs := by
  intro us
  induction us with
  | nil => intro vs h; cases vs <;> simp_all
  | cons u us ih =>
    intro vs h
    cases vs with
    | nil => simp_all
    | cons v vs =>
      simp only [List.map_cons, List.cons.injEq, PValue.puid.injEq] at h
      rw [h.1, ih h.2]

/-- Subtracting the epoch offset is injective on the fraction model. -/
theorem sub_delta_inj {a b : PyFloat}
    (h : a.sub unix2apple_epoch_delta = b.sub unix2apple_epoch_delta) : a = b := by
  obtain ⟨an, ad⟩ := a
  obtain ⟨bn, bd⟩ := b
  simp only [PyFloat.sub, unix2apple_epoch_delta, PyFloat.mk.injEq] at h ⊢
  obtain ⟨h1, h2⟩ := h
  constructor <;> omega

mutual
/-- A live node's unfolding is unique. -/
theorem nodeT_unique : ∀ (t : PyTree) (h : List PyNode) (r : Nat) (t2 : PyTree),
    NodeT h r t → NodeT h r t2 → t = t2
  | .vnone, h, r, t2, h1, h2 => by
    cases h1
    cases h2 <;> simp_all
  | .vbool b, h, r, t2, h1, h2 => by
    cases h1
    cases h2 <;> simp_all
  | .vint n, h, r, t2, h1, h2 => by
    cases h1
    cases h2 <;> simp_all
  | .vfloat q, h, r, t2, h1, h2 => by
    cases h1
    cases h2 <;> simp_all
  | .vstr s, h, r, t2, h1, h2 => by
    cases h1
    cases h2 <;> simp_all
  | .vbytes bs, h, r, t2, h1, h2 => by
    cases h1
    cases h2 <;> simp_all
  | .vuid n, h, r, t2, h1, h2 => by
    cases h1
    cases h2 <;> simp_all
  | .vtimestamp q, h, r, t2, h1, h2 => by
    cases h1
    cases h2 <;> simp_all
  | .vlist xs, h, r, t2, h1, h2 => by
    cases h1 with
    | nlist _ rs _ hg1 hf1 =>
      cases h2
      case nlist rs2 xs2 hg2 hf2 =>
        rw [hg1] at hf2
        simp only [Option.some.injEq, PyNode.listN.injEq] at hf2
        subst hf2
        rw [nodeF_unique xs h rs xs2 hf1 hg2]
      all_goals simp_all
  | .vset xs, h, r, t2, h1, h2 => by
    cases h1 with
    | nset _ rs _ hg1 hf1 =>
      cases h2
      case nset rs2 xs2 hg2 hf2 =>
        rw [hg1] at hf2
        simp only [Option.some.injEq, PyNode.setN.injEq] at hf2
        subst hf2
        rw [nodeF_unique xs h rs xs2 hf1 hg2]
      all_goals simp_all
  | .vdict kvs, h, r, t2, h1, h2 => by
    cases h1 with
    | ndict _ prs _ hg1 hp1 =>
      cases h2
      case ndict prs2 kvs2 hg2 hp2 =>
        rw [hg1] at hp2
        simp only [Option.some.injEq, PyNode.dictN.injEq] at hp2
        subst hp2
        rw [nodeP_unique kvs h prs kvs2 hp1 hg2]
      all_goals simp_all
/-- Unfolding of a sibling list is unique. -/
theorem nodeF_unique : ∀ (xs : PyForest) (h : List PyNode) (rs : List Nat)
    (xs2 : PyForest), NodeF h rs xs → NodeF h rs xs2 → xs = xs2
  | .nil, h, rs, xs2, h1, h2 => by
    cases h1
    cases h2
    rfl
  | .cons t ts, h, rs, xs2, h1, h2 => by
    cases h1 with
    | fcons r rs' _ _ ht1 hf1 =>
      cases h2 with
      | fcons _ _ t2 ts2 ht2 hf2 =>
        rw [nodeT_unique t h r t2 ht1 ht2, nodeF_unique ts h rs' ts2 hf1 hf2]
/-- Unfolding of dict entries is unique. -/
theorem nodeP_unique : ∀ (kvs : PyPairs) (h : List PyNode)
    (prs : List (Nat × Nat)) (kvs2 : PyPairs),
    NodeP h prs kvs → NodeP h prs kvs2 → kvs = kvs2
  | .nil, h, prs, kvs2, h1, h2 => by
    cases h1
    cases h2
    rfl
  | .cons k v rest, h, prs, kvs2, h1, h2 => by
    cases h1 with
    | pcons rk rv prs' _ _ _ hk1 hv1 hp1 =>
      cases h2 with
      | pcons _ _ _ k2 v2 rest2 hk2 hv2 hp2 =>
        rw [nodeT_unique k h rk k2 hk1 hk2, nodeT_unique v h rv v2 hv1 hv2,
          nodeP_unique rest h prs' rest2 hp1 hp2]
end

/-- Injectivity of the UID-array encoding, as a rewrite rule. -/
theorem puid_map_inj_iff {us vs : List Nat} :
    us.map PValue.puid = vs.map PValue.puid ↔ us = vs :=
  ⟨puid_map_inj, fun h => by rw [h]⟩

mutual
/-- A slot's contents-wise reading is unique. -/
theorem slotT_unique : ∀ (t : PyTree) (objs : List PValue) (u : Nat) (t2 : PyTree),
    SlotT objs u t → SlotT objs u t2 → t = t2
  | .vnone, objs, u, t2, h1, h2 => by
    cases h1
    cases h2 <;> simp_all
  | .vbool b, objs, u, t2, h1, h2 => by
    cases h1
    cases h2 <;> simp_all [metaFor]
  | .vint n, objs, u, t2, h1, h2 => by
    cases h1
    cases h2 <;> simp_all [metaFor]
  | .vfloat q, objs, u, t2, h1, h2 => by
    cases h1
    cases h2 <;> simp_all [metaFor]
  | .vstr s, objs, u, t2, h1, h2 => by
    cases h1
    cases h2 <;> simp_all [metaFor]
  | .vbytes bs, objs, u, t2, h1, h2 => by
    cases h1
    cases h2 <;> simp_all [metaFor]
  | .vuid n, objs, u, t2, h1, h2 => by
    cases h1
    cases h2 <;> simp_all [metaFor]
  | .vtimestamp q, objs, u, t2, h1, h2 => by
    cases h1 with
    | sts _ c _ hne1 hg1 hm1 =>
      cases h2 <;> simp_all [metaFor]
      rename_i hcc
      obtain ⟨rfl, hq⟩ := hcc
      rw [sub_delta_inj hq]
  | .vlist xs, objs, u, t2, h1, h2 => by
    cases h1 with
    | slist _ c us _ hne1 hg1 hm1 hf1 =>
      cases h2 <;> simp_all [metaFor, puid_map_inj_iff]
      rename_i hcc
      obtain ⟨rfl, rfl⟩ := hcc
      exact slotF_unique xs objs us _ hf1 (by assumption)
  | .vset xs, objs, u, t2, h1, h2 => by
    cases h1 with
    | sset _ c us _ hne1 hg1 hm1 hf1 =>
      cases h2 <;> simp_all [metaFor, puid_map_inj_iff]
      rename_i hcc
      obtain ⟨rfl, rfl⟩ := hcc
      exact slotF_unique xs objs us _ hf1 (by assumption)
  | .vdict kvs, objs, u, t2, h1, h2 => by
    cases h1 with
    | sdict _ c kus vus _ hne1 hg1 hm1 hp1 =>
      cases h2 <;> simp_all [metaFor, puid_map_inj_iff]
      rename_i hcc
      obtain ⟨rfl, rfl, rfl⟩ := hcc
      exact slotP_unique kvs objs kus vus _ hp1 (by assumption)
/-- A sibling UID list's reading is unique. -/
theorem slotF_unique : ∀ (xs : PyForest) (objs : List PValue) (us : List Nat)
    (xs2 : PyForest), SlotF objs us xs → SlotF objs us xs2 → xs = xs2
  | .nil, objs, us, xs2, h1, h2 => by
    cases h1
    cases h2
    rfl
  | .cons t ts, objs, us, xs2, h1, h2 => by
    cases h1 with
    | fcons u us' _ _ ht1 hf1 =>
      cases h2 with
      | fcons _ _ t2 ts2 ht2 hf2 =>
        rw [slotT_unique t objs u t2 ht1 ht2, slotF_unique ts objs us' ts2 hf1 hf2]
/-- Paired key/value UID lists' reading is unique. -/
theorem slotP_unique : ∀ (kvs : PyPairs) (objs : List PValue) (kus vus : List Nat)
    (kvs2 : PyPairs), SlotP objs kus vus kvs → SlotP objs kus vus kvs2 → kvs = kvs2
  | .nil, objs, kus, vus, kvs2, h1, h2 => by
    cases h1
    cases h2
    rfl
  | .cons k v rest, objs, kus, vus, kvs2, h1, h2 => by
    cases h1 with
    | pcons ku vu kus' vus' _ _ _ hk1 hv1 hp1 =>
      cases h2 with
      | pcons _ _ _ _ k2 v2 rest2 hk2 hv2 hp2 =>
        rw [slotT_unique k objs ku k2 hk1 hk2, slotT_unique v objs vu v2 hv1 hv2,
          slotP_unique rest objs kus' vus' rest2 hp1 hp2]
end

mutual
/-- Slot readings survive any slot-preserving table extension. -/
theorem slotT_mono : ∀ (t : PyTree) {objs objs2 : List PValue} {u : Nat},
    SlotT objs u t → SlotsPres objs objs2 → SlotT objs2 u t
  | .vnone, objs, objs2, u, h1, hs => by
    cases h1
    exact .snone
  | .vbool b, objs, objs2, u, h1, hs => by
    cases h1 with
    | sbool _ _ hne hg => exact .sbool u b hne (by rw [hs.2 u (get_some_lt hg)]; exact hg)
  | .vint n, objs, objs2, u, h1, hs => by
    cases h1 with
    | sint _ _ hne hg => exact .sint u n hne (by rw [hs.2 u (get_some_lt hg)]; exact hg)
  | .vfloat q, objs, objs2, u, h1, hs => by
    cases h1 with
    | sfloat _ _ hne hg =>
      exact .sfloat u q hne (by rw [hs.2 u (get_some_lt hg)]; exact hg)
  | .vstr st, objs, objs2, u, h1, hs => by
    cases h1 with
    | sstr _ _ hne hg => exact .sstr u st hne (by rw [hs.2 u (get_some_lt hg)]; exact hg)
  | .vbytes bs, objs, objs2, u, h1, hs => by
    cases h1 with
    | sbytes _ _ hne hg =>
      exact .sbytes u bs hne (by rw [hs.2 u (get_some_lt hg)]; exact hg)
  | .vuid n, objs, objs2, u, h1, hs => by
    cases h1 with
    | suid _ _ hne hg => exact .suid u n hne (by rw [hs.2 u (get_some_lt hg)]; exact hg)
  | .vtimestamp q, objs, objs2, u, h1, hs => by
    cases h1 with
    | sts _ c _ hne hg hm =>
      exact .sts u c q hne (by rw [hs.2 u (get_some_lt hg)]; exact hg)
        (by rw [hs.2 c (get_some_lt hm)]; exact hm)
  | .vlist xs, objs, objs2, u, h1, hs => by
    cases h1 with
    | slist _ c us _ hne hg hm hf =>
      exact .slist u c us xs hne (by rw [hs.2 u (get_some_lt hg)]; exact hg)
        (by rw [hs.2 c (get_some_lt hm)]; exact hm) (slotF_mono xs hf hs)
  | .vset xs, objs, objs2, u, h1, hs => by
    cases h1 with
    | sset _ c us _ hne hg hm hf =>
      exact .sset u c us xs hne (by rw [hs.2 u (get_some_lt hg)]; exact hg)
        (by rw [hs.2 c (get_some_lt hm)]; exact hm) (slotF_mono xs hf hs)
  | .vdict kvs, objs, objs2, u, h1, hs => by
    cases h1 with
    | sdict _ c kus vus _ hne hg hm hp =>
      exact .sdict u c kus vus kvs hne (by rw [hs.2 u (get_some_lt hg)]; exact hg)
        (by rw [hs.2 c (get_some_lt hm)]; exact hm) (slotP_mono kvs hp hs)
/-- Forest version of slotT_mono. -/
theorem slotF_mono : ∀ (xs : PyForest) {objs objs2 : List PValue} {us : List Nat},
    SlotF objs us xs → SlotsPres objs objs2 → SlotF objs2 us xs
  | .nil, objs, objs2, us, h1, hs => by
    cases h1
    exact .fnil
  | .cons t ts, objs, objs2, us, h1, hs => by
    cases h1 with
    | fcons u us' _ _ ht hf =>
      exact .fcons u us' t ts (slotT_mono t ht hs) (slotF_mono ts hf hs)
/-- Pairs version of slotT_mono. -/
theorem slotP_mono : ∀ (kvs : PyPairs) {objs objs2 : List PValue} {kus vus : List Nat},
    SlotP objs kus vus kvs → SlotsPres objs objs2 → SlotP objs2 kus vus kvs
  | .nil, objs, objs2, kus, vus, h1, hs => by
    cases h1
    exact .pnil
  | .cons k v rest, objs, objs2, kus, vus, h1, hs => by
    cases h1 with
    | pcons ku vu kus' vus' _ _ _ hk hv hp =>
      exact .pcons ku vu kus' vus' k v rest (slotT_mono k hk hs) (slotT_mono v hv hs)
        (slotP_mono rest hp hs)
end

mutual
/-- Slot readings survive overwriting a placeholder slot (the empty record
matches no reading, so no derivation passes through it). -/
theorem slotT_setp : ∀ (t : PyTree) {objs : List PValue} {u i : Nat} {x : PValue},
    SlotT objs u t → objs.get? i = some (.pdict []) → SlotT (objs.set i x) u t
  | .vnone, objs, u, i, x, h1, hp => by
    cases h1
    exact .snone
  | .vbool b, objs, u, i, x, h1, hp => by
    cases h1 with
    | sbool _ _ hne hg =>
      refine .sbool u b hne ?_
      rw [List.get?_set_ne _ _ (fun he => by rw [he, hg] at hp; simp at hp)]
      exact hg
  | .vint n, objs, u, i, x, h1, hp => by
    cases h1 with
    | sint _ _ hne hg =>
      refine .sint u n hne ?_
      rw [List.get?_set_ne _ _ (fun he => by rw [he, hg] at hp; simp at hp)]
      exact hg
  | .vfloat q, objs, u, i, x, h1, hp => by
    cases h1 with
    | sfloat _ _ hne hg =>
      refine .sfloat u q hne ?_
      rw [List.get?_set_ne _ _ (fun he => by rw [he, hg] at hp; simp at hp)]
      exact hg
  | .vstr st, objs, u, i, x, h1, hp => by
    cases h1 with
    | sstr _ _ hne hg =>
      refine .sstr u st hne ?_
      rw [List.get?_set_ne _ _ (fun he => by rw [he, hg] at hp; simp at hp)]
      exact hg
  | .vbytes bs, objs, u, i, x, h1, hp => by
    cases h1 with
    | sbytes _ _ hne hg =>
      refine .sbytes u bs hne ?_
      rw [List.get?_set_ne _ _ (fun he => by rw [he, hg] at hp; simp at hp)]
      exact hg
  | .vuid n, objs, u, i, x, h1, hp => by
    cases h1 with
    | suid _ _ hne hg =>
      refine .suid u n hne ?_
      rw [List.get?_set_ne _ _ (fun he => by rw [he, hg] at hp; simp at hp)]
      exact hg
  | .vtimestamp q, objs, u, i, x, h1, hp => by
    cases h1 with
    | sts _ c _ hne hg hm =>
      refine .sts u c q hne ?_ ?_
      · rw [List.get?_set_ne _ _ (fun he => by rw [he, hg] at hp; simp at hp)]
        exact hg
      · rw [List.get?_set_ne _ _ (fun he => by rw [he, hm] at hp; simp [metaFor] at hp)]
        exact hm
  | .vlist xs, objs, u, i, x, h1, hp => by
    cases h1 with
    | slist _ c us _ hne hg hm hf =>
      refine .slist u c us xs hne ?_ ?_ (slotF_setp xs hf hp)
      · rw [List.get?_set_ne _ _ (fun he => by rw [he, hg] at hp; simp at hp)]
        exact hg
      · rw [List.get?_set_ne _ _ (fun he => by rw [he, hm] at hp; simp [metaFor] at hp)]
        exact hm
  | .vset xs, objs, u, i, x, h1, hp => by
    cases h1 with
    | sset _ c us _ hne hg hm hf =>
      refine .sset u c us xs hne ?_ ?_ (slotF_setp xs hf hp)
      · rw [List.get?_set_ne _ _ (fun he => by rw [he, hg] at hp; simp at hp)]
        exact hg
      · rw [List.get?_set_ne _ _ (fun he => by rw [he, hm] at hp; simp [metaFor] at hp)]
        exact hm
  | .vdict kvs, objs, u, i, x, h1, hp => by
    cases h1 with
    | sdict _ c kus vus _ hne hg hm hpp =>
      refine .sdict u c kus vus kvs hne ?_ ?_ (slotP_setp kvs hpp hp)
      · rw [List.get?_set_ne _ _ (fun he => by rw [he, hg] at hp; simp at hp)]
        exact hg
      · rw [List.get?_set_ne _ _ (fun he => by rw [he, hm] at hp; simp [metaFor] at hp)]
        exact hm
/-- Forest version of slotT_setp. -/
theorem slotF_setp : ∀ (xs : PyForest) {objs : List PValue} {us : List Nat}
    {i : Nat} {x : PValue},
    SlotF objs us xs → objs.get? i = some (.pdict []) → SlotF (objs.set i x) us xs
  | .nil, objs, us, i, x, h1, hp => by
    cases h1
    exact .fnil
  | .cons t ts, objs, us, i, x, h1, hp => by
    cases h1 with
    | fcons u us' _ _ ht hf =>
      exact .fcons u us' t ts (slotT_setp t ht hp) (slotF_setp ts hf hp)
/-- Pairs version of slotT_setp. -/
theorem slotP_setp : ∀ (kvs : PyPairs) {objs : List PValue} {kus vus : List Nat}
    {i : Nat} {x : PValue},
    SlotP objs kus vus kvs → objs.get? i = some (.pdict []) →
    SlotP (objs.set i x) kus vus kvs
  | .nil, objs, kus, vus, i, x, h1, hp => by
    cases h1
    exact .pnil
  | .cons k v rest, objs, kus, vus, i, x, h1, hp => by
    cases h1 with
    | pcons ku vu kus' vus' _ _ _ hk hv hpr =>
      exact .pcons ku vu kus' vus' k v rest (slotT_setp k hk hp) (slotT_setp v hv hp)
        (slotP_setp rest hpr hp)
end

/-- Agreement of a decoded value with a tree, robust under any change of the
heap beyond its current length and at the in-progress addresses `M`
(decoded values never reference nodes still under construction). -/
def StableAgreeM (M : List Nat) (dh : List DNode) (v : DVal) (t : PyTree) : Prop :=
  ∀ dh2 : List DNode,
    (∀ j, j < dh.length → j ∉ M → dh2.get? j = dh.get? j) →
    agreesB dh2 v t = true

/-- Forest version of StableAgreeM. -/
def StableAgreeMF (M : List Nat) (dh : List DNode) (vs : List DVal)
    (xs : PyForest) : Prop :=
  ∀ dh2 : List DNode,
    (∀ j, j < dh.length → j ∉ M → dh2.get? j = dh.get? j) →
    agreesF dh2 vs xs = true

/-- Pairs version of StableAgreeM. -/
def StableAgreeMP (M : List Nat) (dh : List DNode) (prs : List (DVal × DVal))
    (kvs : PyPairs) : Prop :=
  ∀ dh2 : List DNode,
    (∀ j, j < dh.length → j ∉ M → dh2.get? j = dh.get? j) →
    agreesP dh2 prs kvs = true

/-- Stability survives heap evolution that preserves the old prefix outside
the in-progress set. -/
theorem stableM_mono {M : List Nat} {dh dh2 : List DNode} {v : DVal} {t : PyTree}
    (h : StableAgreeM M dh v t) (hlen : dh.length ≤ dh2.length)
    (hpres : ∀ j, j < dh.length → j ∉ M → dh2.get? j = dh.get? j) :
    StableAgreeM M dh2 v t := by
  intro dh3 hp
  refine h dh3 ?_
  intro j hj hm
  rw [hp j (by omega) hm, hpres j hj hm]

/-- Forest version of stableM_mono. -/
theorem stableMF_mono {M : List Nat} {dh dh2 : List DNode} {vs : List DVal}
    {xs : PyForest} (h : StableAgreeMF M dh vs xs) (hlen : dh.length ≤ dh2.length)
    (hpres : ∀ j, j < dh.length → j ∉ M → dh2.get? j = dh.get? j) :
    StableAgreeMF M dh2 vs xs := by
  intro dh3 hp
  refine h dh3 ?_
  intro j hj hm
  rw [hp j (by omega) hm, hpres j hj hm]

/-- Pairs version of stableM_mono. -/
theorem stableMP_mono {M : List Nat} {dh dh2 : List DNode} {prs : List (DVal × DVal)}
    {kvs : PyPairs} (h : StableAgreeMP M dh prs kvs) (hlen : dh.length ≤ dh2.length)
    (hpres : ∀ j, j < dh.length → j ∉ M → dh2.get? j = dh.get? j) :
    StableAgreeMP M dh2 prs kvs := by
  intro dh3 hp
  refine h dh3 ?_
  intro j hj hm
  rw [hp j (by omega) hm, hpres j hj hm]

/-- A fresh in-progress address beyond the current heap can be added to the
exclusion set for free. -/
theorem stableM_widen {M : List Nat} {m : Nat} {dh : List DNode} {v : DVal}
    {t : PyTree} (hm : dh.length ≤ m) (h : StableAgreeM M dh v t) :
    StableAgreeM (m :: M) dh v t := by
  intro dh2 hp
  refine h dh2 ?_
  intro j hj hjm
  refine hp j hj ?_
  intro hc
  rcases List.mem_cons.mp hc with rfl | hmem
  · omega
  · exact hjm hmem

/-- Stability for a larger exclusion set implies it for a smaller one. -/
theorem stableM_of_subset {M M2 : List Nat} {dh : List DNode} {v : DVal}
    {t : PyTree} (hsub : ∀ a ∈ M, a ∈ M2) (h : StableAgreeM M2 dh v t) :
    StableAgreeM M dh v t := by
  intro dh2 hp
  refine h dh2 ?_
  intro j hj hjm
  exact hp j hj (fun hc => hjm (hsub j hc))

/-- The decode cache is sound outside the in-progress UIDs `XP.map fst`:
every cached value is a finished object (no sentinel, no placeholder-None)
agreeing with whatever its slot reads as, robustly away from the
in-progress heap addresses `XP.map snd`. -/
def GoodCacheXP (objs : List PValue) (sd : UState) (XP : List (Nat × Nat)) : Prop :=
  ∀ i v, alistGet sd.cache i = some v → i ∈ XP.map Prod.fst ∨
    (v ≠ .dnone ∧ v ≠ .dcycleToken ∧
      ∀ t, SlotT objs i t → StableAgreeM (XP.map Prod.snd) sd.dheap v t)

/-- Existing cache bindings survive (decoding pushes bindings only for
previously uncached UIDs). -/
def CachePresG (sd sd2 : UState) : Prop :=
  ∀ i v, alistGet sd.cache i = some v → alistGet sd2.cache i = some v

/-- Every in-progress UID reads as a strictly deeper tree than `d` (the
acyclicity bound: a node under construction cannot occur below itself). -/
def DeeperX (objs : List PValue) (X : List Nat) (d : Nat) : Prop :=
  ∀ x ∈ X, ∀ t2, SlotT objs x t2 → d < depthT t2

/-- A smaller depth bound is easier. -/
theorem deeperx_mono {objs : List PValue} {X : List Nat} {d d2 : Nat}
    (h : DeeperX objs X d) (hle : d2 ≤ d) : DeeperX objs X d2 :=
  fun x hx t2 ht => lt_of_le_of_lt hle (h x hx t2 ht)

/-- Decode-correctness of one slot in the sharing-aware sense: decoding the
UID from any consistent state (arbitrary cache contents allowed) succeeds,
preserves the old heap prefix and all cache bindings, keeps the cache sound,
and produces a value stably agreeing with the tree. -/
def DecOneG (objs : List PValue) (u : Nat) (t : PyTree) : Prop :=
  ∀ (dfuel : Nat) (sd : UState) (XP : List (Nat × Nat)),
    depthT t < dfuel → sd.objects = objs →
    GoodCacheXP objs sd XP → DeeperX objs (XP.map Prod.fst) (depthT t) →
    (∀ p ∈ XP, p.2 < sd.dheap.length) →
    ∃ v sd2, decode_object dfuel sd u = .ok (v, sd2) ∧
      sd2.objects = sd.objects ∧
      sd.dheap.length ≤ sd2.dheap.length ∧
      (∀ j, j < sd.dheap.length → sd2.dheap.get? j = sd.dheap.get? j) ∧
      CachePresG sd sd2 ∧
      GoodCacheXP objs sd2 XP ∧
      StableAgreeM (XP.map Prod.snd) sd2.dheap v t

/-- Per-element decode-correctness of a sibling UID list. -/
def DecForestG (objs : List PValue) : List Nat → PyForest → Prop
  | [], .nil => True
  | u :: us, .cons t ts => DecOneG objs u t ∧ DecForestG objs us ts
  | _, _ => False

/-- Per-element decode-correctness of paired key/value UID lists. -/
def DecPairsG (objs : List PValue) : List Nat → List Nat → PyPairs → Prop
  | [], [], .nil => True
  | ku :: kus, vu :: vus, .cons k v rest =>
    DecOneG objs ku k ∧ DecOneG objs vu v ∧ DecPairsG objs kus vus rest
  | _, _, _ => False

/-- A cached finished value is returned as-is. -/
theorem decode_hit {sd : UState} {u : Nat} {v : DVal} (hu : u ≠ 0)
    (hc : alistGet sd.cache u = some v) (h1 : v ≠ .dnone) (h2 : v ≠ .dcycleToken)
    (d : Nat) : decode_object (d + 1) sd u = .ok (v, sd) := by
  cases v
  case dnone => exact absurd rfl h1
  case dcycleToken => exact absurd rfl h2
  all_goals simp [decode_object, hu, hc]

/-- Reduce DecOneG to the uncached case: a cache hit is resolved by the
cache-soundness invariant. -/
theorem decOneG_of_fresh {objs : List PValue} {u : Nat} {t : PyTree}
    (hs : SlotT objs u t) (hu : u ≠ 0)
    (hfresh : ∀ (d : Nat) (sd : UState) (XP : List (Nat × Nat)),
      depthT t < d + 1 → sd.objects = objs →
      GoodCacheXP objs sd XP → DeeperX objs (XP.map Prod.fst) (depthT t) →
      (∀ p ∈ XP, p.2 < sd.dheap.length) →
      alistGet sd.cache u = none →
      ∃ v sd2, decode_object (d + 1) sd u = .ok (v, sd2) ∧
        sd2.objects = sd.objects ∧
        sd.dheap.length ≤ sd2.dheap.length ∧
        (∀ j, j < sd.dheap.length → sd2.dheap.get? j = sd.dheap.get? j) ∧
        CachePresG sd sd2 ∧
        GoodCacheXP objs sd2 XP ∧
        StableAgreeM (XP.map Prod.snd) sd2.dheap v t) :
    DecOneG objs u t := by
  intro dfuel sd XP hd hobj hgood hdeep hbound
  obtain ⟨d, rfl⟩ : ∃ d, dfuel = d + 1 := ⟨dfuel - 1, by omega⟩
  cases hc : alistGet sd.cache u with
  | some v =>
    have hnx : u ∉ XP.map Prod.fst := fun hmem =>
      absurd (hdeep u hmem t hs) (lt_irrefl _)
    rcases hgood u v hc with hx | ⟨h1, h2, hag⟩
    · exact absurd hx hnx
    · exact ⟨v, sd, decode_hit hu hc h1 h2 d, rfl, le_refl _, fun j _ => rfl,
        fun i v0 h => h, hgood, hag t hs⟩
  | none => exact hfresh d sd XP hd hobj hgood hdeep hbound hc

/-- DecOneG for a scalar slot: the value is re-read verbatim (no caching),
so the state is untouched. -/
theorem decG_scalar {objs : List PValue} {u : Nat} {t : PyTree} {pv : PValue}
    (hs : SlotT objs u t) (hu : u ≠ 0)
    (hget : objs.get? u = some pv)
    (hraw : ∀ kvs, pv ≠ .pdict kvs)
    (hagr : ∀ dh2, agreesB dh2 (pvalToDVal pv) t = true) :
    DecOneG objs u t := by
  refine decOneG_of_fresh hs hu ?_
  intro d sd XP hd hobj hgood hdeep hbound hc
  have hgetS : sd.objects.get? u = some pv := by rw [hobj]; exact hget
  refine ⟨pvalToDVal pv, sd, ?_, rfl, le_refl _, fun j _ => rfl,
    fun i v0 h => h, hgood, fun dh2 _ => hagr dh2⟩
  simp only [decode_object, if_neg hu, hc]
  exact decode_slot_nonrecord hgetS hraw

/-- Cache soundness survives heap evolution preserving the prefix outside
the in-progress addresses, with the cache untouched. -/
theorem goodXP_evol {objs : List PValue} {sd sd2 : UState} {XP : List (Nat × Nat)}
    (h : GoodCacheXP objs sd XP) (hc : sd2.cache = sd.cache)
    (hlen : sd.dheap.length ≤ sd2.dheap.length)
    (hpres : ∀ j, j < sd.dheap.length → j ∉ XP.map Prod.snd →
      sd2.dheap.get? j = sd.dheap.get? j) :
    GoodCacheXP objs sd2 XP := by
  intro i v hiv
  rw [hc] at hiv
  rcases h i v hiv with hx | ⟨h1, h2, hag⟩
  · exact Or.inl hx
  · exact Or.inr ⟨h1, h2, fun t ht => stableM_mono (hag t ht) hlen hpres⟩

/-- Installing a fresh container placeholder: the new binding joins the
in-progress set, everything else stays sound. -/
theorem goodXP_push {objs : List PValue} {sd sd1 : UState} {XP : List (Nat × Nat)}
    {u : Nat} {nd : DNode}
    (h : GoodCacheXP objs sd XP)
    (hc : sd1.cache = (u, .dref sd.dheap.length) :: sd.cache)
    (hh : sd1.dheap = sd.dheap ++ [nd]) :
    GoodCacheXP objs sd1 ((u, sd.dheap.length) :: XP) := by
  intro i v hiv
  rw [hc] at hiv
  by_cases he : u = i
  · subst he
    exact Or.inl (by simp)
  · have hiv2 : alistGet sd.cache i = some v := by
      simp only [alistGet] at hiv
      rw [if_neg he] at hiv
      exact hiv
    rcases h i v hiv2 with hx | ⟨h1, h2, hag⟩
    · exact Or.inl (by simp only [List.map_cons, List.mem_cons]; exact Or.inr hx)
    · refine Or.inr ⟨h1, h2, fun t ht => ?_⟩
      have hw := stableM_widen (le_refl sd.dheap.length) (hag t ht)
      refine stableM_mono hw (by rw [hh]; simp) ?_
      intro j hj hjm
      rw [hh]
      exact List.get?_append hj

/-- Retiring a finished UID from the in-progress set, given its binding now
satisfies the soundness clause. -/
theorem goodXP_pop {objs : List PValue} {sd2 : UState} {XP : List (Nat × Nat)}
    {u m : Nat}
    (h : GoodCacheXP objs sd2 ((u, m) :: XP))
    (hval : ∀ v, alistGet sd2.cache u = some v →
      v ≠ .dnone ∧ v ≠ .dcycleToken ∧
      ∀ t, SlotT objs u t → StableAgreeM (XP.map Prod.snd) sd2.dheap v t) :
    GoodCacheXP objs sd2 XP := by
  intro i v hiv
  by_cases he : i = u
  · subst he
    exact Or.inr (hval v hiv)
  · rcases h i v hiv with hx | ⟨h1, h2, hag⟩
    · simp only [List.map_cons, List.mem_cons] at hx
      rcases hx with h3 | h3
      · exact absurd h3 he
      · exact Or.inl h3
    · refine Or.inr ⟨h1, h2, fun t ht => ?_⟩
      refine stableM_of_subset ?_ (hag t ht)
      intro a ha
      simp only [List.map_cons, List.mem_cons]
      exact Or.inr ha

/-- Sharing-aware correctness of the NSArray populate loop. -/
theorem arr_loopG {objs : List PValue} :
    ∀ (ts : PyForest) (us : List Nat) (dfuel : Nat) (sd : UState)
      (XP : List (Nat × Nat)) (m : Nat) (mu : Bool) (acc : List DVal),
      DecForestG objs us ts →
      depthF ts < dfuel →
      sd.objects = objs →
      GoodCacheXP objs sd XP →
      DeeperX objs (XP.map Prod.fst) (depthF ts) →
      (∀ p ∈ XP, p.2 < sd.dheap.length) →
      m ∈ XP.map Prod.snd →
      sd.dheap.get? m = some (.dlist mu acc) →
      ∃ vs sd2,
        arr_loop (decode_object dfuel) m (us.map .puid) sd = .ok sd2 ∧
        sd2.objects = sd.objects ∧
        sd.dheap.length ≤ sd2.dheap.length ∧
        (∀ j, j < sd.dheap.length → j ≠ m → sd2.dheap.get? j = sd.dheap.get? j) ∧
        sd2.dheap.get? m = some (.dlist mu (acc ++ vs)) ∧
        CachePresG sd sd2 ∧
        GoodCacheXP objs sd2 XP ∧
        StableAgreeMF (XP.map Prod.snd) sd2.dheap vs ts
  | .nil => by
    intro us dfuel sd XP m mu acc hdf _ _ hgood _ _ _ hnode
    cases us with
    | nil =>
      exact ⟨[], sd, rfl, rfl, le_refl _, fun j _ _ => rfl, by simpa using hnode,
        fun i v h => h, hgood, fun dh2 _ => rfl⟩
    | cons u us => exact absurd hdf (by simp [DecForestG])
  | .cons t ts => by
    intro us dfuel sd XP m mu acc hdf hdep hobj hgood hdeep hbound hm hnode
    cases us with
    | nil => exact absurd hdf (by simp [DecForestG])
    | cons u us =>
      obtain ⟨hone, hrest⟩ := hdf
      simp only [depthF] at hdep
      rw [Nat.max_lt] at hdep
      have hmlt : m < sd.dheap.length := get_some_lt hnode
      obtain ⟨v, sd1, hdec, hobj1, hlen1, hpres1, hcp1, hgood1, hag1⟩ :=
        hone dfuel sd XP hdep.1 hobj hgood
          (deeperx_mono hdeep (Nat.le_max_left _ _)) hbound
      have hnode1 : sd1.dheap.get? m = some (.dlist mu acc) := by
        rw [hpres1 m hmlt]; exact hnode
      have hm1 : m < sd1.dheap.length := get_some_lt hnode1
      set sdm : UState := { sd1 with dheap := sd1.dheap.set m (.dlist mu (acc ++ [v])) }
        with hsd2
      have hgood2 : GoodCacheXP objs sdm XP := by
        refine goodXP_evol hgood1 rfl (by simp [hsd2]) ?_
        intro j hj hjm
        show (sd1.dheap.set m _).get? j = _
        rw [List.get?_set_ne _ _ (fun he => hjm (by rw [← he]; exact hm))]
      have hnode2 : sdm.dheap.get? m = some (.dlist mu (acc ++ [v])) := by
        show (sd1.dheap.set m _).get? m = _
        exact List.get?_set_eq_of_lt _ hm1
      have hobj2 : sdm.objects = objs := by
        show sd1.objects = objs
        rw [hobj1, hobj]
      obtain ⟨vs, sd3, hloop, hobj3, hlen3, hpres3, hnode3, hcp3, hgood3, hagf3⟩ :=
        arr_loopG ts us dfuel sdm XP m mu (acc ++ [v]) hrest hdep.2 hobj2 hgood2
          (deeperx_mono hdeep (Nat.le_max_right _ _))
          (fun p hp => by
            have h1 := hbound p hp
            have h2 : sdm.dheap.length = sd1.dheap.length := by simp [hsd2]
            omega)
          hm hnode2
      have hlen2e : sdm.dheap.length = sd1.dheap.length := by simp [hsd2]
      have hpres13 : ∀ j, j < sd1.dheap.length → j ∉ XP.map Prod.snd →
          sd3.dheap.get? j = sd1.dheap.get? j := by
        intro j hj hjm
        have hjne : j ≠ m := fun he => hjm (by rw [he]; exact hm)
        rw [hpres3 j (by omega) hjne]
        show (sd1.dheap.set m _).get? j = _
        rw [List.get?_set_ne _ _ (Ne.symm hjne)]
      refine ⟨v :: vs, sd3, ?_, ?_, ?_, ?_, ?_, ?_, hgood3, ?_⟩
      · simp only [List.map_cons, arr_loop, decode_index, hdec, pyerr_bind_ok]
        rw [hnode1]
        exact hloop
      · rw [hobj3]
        show sd1.objects = sd.objects
        exact hobj1
      · omega
      · intro j hj hjm
        rw [hpres3 j (by omega) hjm]
        show (sd1.dheap.set m _).get? j = _
        rw [List.get?_set_ne _ _ (Ne.symm hjm)]
        exact hpres1 j hj
      · rw [hnode3]
        simp
      · intro i v0 h0
        refine hcp3 i v0 ?_
        show alistGet sd1.cache i = some v0
        exact hcp1 i v0 h0
      · intro dh2 hp
        simp only [agreesF]
        have hr : agreesF dh2 vs ts = true := hagf3 dh2 hp
        have hv : agreesB dh2 v t = true :=
          stableM_mono hag1 (by omega) hpres13 dh2 hp
        rw [hv, hr]
        rfl

/-- Sharing-aware correctness of the NSSet populate loop. -/
theorem set_loopG {objs : List PValue} :
    ∀ (ts : PyForest) (us : List Nat) (dfuel : Nat) (sd : UState)
      (XP : List (Nat × Nat)) (m : Nat) (mu : Bool) (acc : List DVal),
      DecForestG objs us ts →
      depthF ts < dfuel →
      (forestList ts).all isHashableT = true →
      distinctT (forestList ts) = true →
      (∀ x ∈ acc, ∀ t2 ∈ forestList ts, pyEqD x (scalarDVal t2) = false) →
      sd.objects = objs →
      GoodCacheXP objs sd XP →
      DeeperX objs (XP.map Prod.fst) (depthF ts) →
      (∀ p ∈ XP, p.2 < sd.dheap.length) →
      m ∈ XP.map Prod.snd →
      sd.dheap.get? m = some (.dset mu acc) →
      ∃ vs sd2,
        set_loop (decode_object dfuel) m (us.map .puid) sd = .ok sd2 ∧
        sd2.objects = sd.objects ∧
        sd.dheap.length ≤ sd2.dheap.length ∧
        (∀ j, j < sd.dheap.length → j ≠ m → sd2.dheap.get? j = sd.dheap.get? j) ∧
        sd2.dheap.get? m = some (.dset mu (acc ++ vs)) ∧
        CachePresG sd sd2 ∧
        GoodCacheXP objs sd2 XP ∧
        StableAgreeMF (XP.map Prod.snd) sd2.dheap vs ts
  | .nil => by
    intro us dfuel sd XP m mu acc hdf _ _ _ _ _ hgood _ _ _ hnode
    cases us with
    | nil =>
      exact ⟨[], sd, rfl, rfl, le_refl _, fun j _ _ => rfl, by simpa using hnode,
        fun i v h => h, hgood, fun dh2 _ => rfl⟩
    | cons u us => exact absurd hdf (by simp [DecForestG])
  | .cons t ts => by
    intro us dfuel sd XP m mu acc hdf hdep hhash hdist hacc hobj hgood hdeep hbound hm hnode
    cases us with
    | nil => exact absurd hdf (by simp [DecForestG])
    | cons u us =>
      obtain ⟨hone, hrest⟩ := hdf
      simp only [depthF] at hdep
      rw [Nat.max_lt] at hdep
      simp only [forestList, List.all_cons, Bool.and_eq_true] at hhash
      simp only [forestList, distinctT, Bool.and_eq_true] at hdist
      have hmlt : m < sd.dheap.length := get_some_lt hnode
      obtain ⟨v, sd1, hdec, hobj1, hlen1, hpres1, hcp1, hgood1, hag1⟩ :=
        hone dfuel sd XP hdep.1 hobj hgood
          (deeperx_mono hdeep (Nat.le_max_left _ _)) hbound
      have hv : v = scalarDVal t := by
        refine agrees_scalar hhash.1 (hag1 sd1.dheap ?_)
        intro j _ _
        rfl
      have hnode1 : sd1.dheap.get? m = some (.dset mu acc) := by
        rw [hpres1 m hmlt]; exact hnode
      have hm1 : m < sd1.dheap.length := get_some_lt hnode1
      have hD : isHashableD v = true := by rw [hv]; exact isHashableD_scalar hhash.1
      have hadd : pySetAddD acc v = acc ++ [v] := by
        refine pySetAddD_append acc v ?_
        intro x hx
        rw [hv]
        exact hacc x hx t (by simp [forestList])
      set sdm : UState := { sd1 with dheap := sd1.dheap.set m (.dset mu (acc ++ [v])) }
        with hsd2
      have hgood2 : GoodCacheXP objs sdm XP := by
        refine goodXP_evol hgood1 rfl (by simp [hsd2]) ?_
        intro j hj hjm
        show (sd1.dheap.set m _).get? j = _
        rw [List.get?_set_ne _ _ (fun he => hjm (by rw [← he]; exact hm))]
      have hnode2 : sdm.dheap.get? m = some (.dset mu (acc ++ [v])) := by
        show (sd1.dheap.set m _).get? m = _
        exact List.get?_set_eq_of_lt _ hm1
      have hobj2 : sdm.objects = objs := by
        show sd1.objects = objs
        rw [hobj1, hobj]
      have hacc2 : ∀ x ∈ acc ++ [v], ∀ t2 ∈ forestList ts,
          pyEqD x (scalarDVal t2) = false := by
        intro x hx t2 ht2
        rcases List.mem_append.mp hx with hx | hx
        · exact hacc x hx t2 (by simp [forestList, ht2])
        · have hxv : x = v := by simpa using hx
          subst hxv
          rw [hv]
          have hht2 : isHashableT t2 = true := by
            have := List.all_eq_true.mp hhash.2 t2 ht2
            simpa using this
          rw [pyEqD_scalar hhash.1 hht2]
          have := List.all_eq_true.mp hdist.1 t2 ht2
          simpa using this
      obtain ⟨vs, sd3, hloop, hobj3, hlen3, hpres3, hnode3, hcp3, hgood3, hagf3⟩ :=
        set_loopG ts us dfuel sdm XP m mu (acc ++ [v]) hrest hdep.2
          hhash.2 hdist.2 hacc2 hobj2 hgood2
          (deeperx_mono hdeep (Nat.le_max_right _ _))
          (fun p hp => by
            have h1 := hbound p hp
            have h2 : sdm.dheap.length = sd1.dheap.length := by simp [hsd2]
            omega)
          hm hnode2
      have hlen2e : sdm.dheap.length = sd1.dheap.length := by simp [hsd2]
      have hpres13 : ∀ j, j < sd1.dheap.length → j ∉ XP.map Prod.snd →
          sd3.dheap.get? j = sd1.dheap.get? j := by
        intro j hj hjm
        have hjne : j ≠ m := fun he => hjm (by rw [he]; exact hm)
        rw [hpres3 j (by omega) hjne]
        show (sd1.dheap.set m _).get? j = _
        rw [List.get?_set_ne _ _ (Ne.symm hjne)]
      refine ⟨v :: vs, sd3, ?_, ?_, ?_, ?_, ?_, ?_, hgood3, ?_⟩
      · simp only [List.map_cons, set_loop, decode_index, hdec, pyerr_bind_ok]
        rw [hD]
        simp only [if_true]
        rw [hnode1]
        dsimp only
        rw [hadd]
        exact hloop
      · rw [hobj3]
        show sd1.objects = sd.objects
        exact hobj1
      · omega
      · intro j hj hjm
        rw [hpres3 j (by omega) hjm]
        show (sd1.dheap.set m _).get? j = _
        rw [List.get?_set_ne _ _ (Ne.symm hjm)]
        exact hpres1 j hj
      · rw [hnode3]
        simp
      · intro i v0 h0
        refine hcp3 i v0 ?_
        show alistGet sd1.cache i = some v0
        exact hcp1 i v0 h0
      · intro dh2 hp
        simp only [agreesF]
        have hr : agreesF dh2 vs ts = true := hagf3 dh2 hp
        have hone2 : agreesB dh2 v t = true :=
          stableM_mono hag1 (by omega) hpres13 dh2 hp
        rw [hone2, hr]
        rfl

/-- Sharing-aware correctness of the NSDictionary populate loop. -/
theorem dict_loopG {objs : List PValue} :
    ∀ (ps : PyPairs) (kus vus : List Nat) (dfuel : Nat) (sd : UState)
      (XP : List (Nat × Nat)) (m : Nat) (mu : Bool) (acc : List (DVal × DVal)),
      DecPairsG objs kus vus ps →
      depthP ps < dfuel →
      (pairKeys ps).all isHashableT = true →
      distinctT (pairKeys ps) = true →
      (∀ p ∈ acc, ∀ k2 ∈ pairKeys ps, pyEqD p.1 (scalarDVal k2) = false) →
      sd.objects = objs →
      GoodCacheXP objs sd XP →
      DeeperX objs (XP.map Prod.fst) (depthP ps) →
      (∀ p ∈ XP, p.2 < sd.dheap.length) →
      m ∈ XP.map Prod.snd →
      sd.dheap.get? m = some (.ddict mu acc) →
      ∃ prs sd2,
        dict_loop (decode_object dfuel) m (kus.map .puid) (.dparr (vus.map .puid)) sd
          = .ok sd2 ∧
        sd2.objects = sd.objects ∧
        sd.dheap.length ≤ sd2.dheap.length ∧
        (∀ j, j < sd.dheap.length → j ≠ m → sd2.dheap.get? j = sd.dheap.get? j) ∧
        sd2.dheap.get? m = some (.ddict mu (acc ++ prs)) ∧
        CachePresG sd sd2 ∧
        GoodCacheXP objs sd2 XP ∧
        StableAgreeMP (XP.map Prod.snd) sd2.dheap prs ps
  | .nil => by
    intro kus vus dfuel sd XP m mu acc hdp _ _ _ _ _ hgood _ _ _ hnode
    cases kus with
    | nil =>
      cases vus with
      | nil =>
        exact ⟨[], sd, rfl, rfl, le_refl _, fun j _ _ => rfl, by simpa using hnode,
          fun i v h => h, hgood, fun dh2 _ => rfl⟩
      | cons vu vus => exact absurd hdp (by simp [DecPairsG])
    | cons ku kus => exact absurd hdp (by simp [DecPairsG])
  | .cons k v rest => by
    intro kus vus dfuel sd XP m mu acc hdp hdep hhash hdist hacc hobj hgood hdeep hbound hm hnode
    cases kus with
    | nil => exact absurd hdp (by simp [DecPairsG])
    | cons ku kus =>
      cases vus with
      | nil => exact absurd hdp (by simp [DecPairsG])
      | cons vu vus =>
        obtain ⟨honeK, honeV, hrest⟩ := hdp
        simp only [depthP] at hdep
        rw [Nat.max_lt] at hdep
        obtain ⟨hdepK, hdep2⟩ := hdep
        rw [Nat.max_lt] at hdep2
        obtain ⟨hdepV, hdepR⟩ := hdep2
        simp only [pairKeys, List.all_cons, Bool.and_eq_true] at hhash
        simp only [pairKeys, distinctT, Bool.and_eq_true] at hdist
        have hmlt : m < sd.dheap.length := get_some_lt hnode
        obtain ⟨kd, sd1, hdecK, hobj1, hlen1, hpres1, hcpK, hgood1, hagK⟩ :=
          honeK dfuel sd XP hdepK hobj hgood
            (deeperx_mono hdeep (Nat.le_max_left _ _)) hbound
        have hkd : kd = scalarDVal k := by
          refine agrees_scalar hhash.1 (hagK sd1.dheap ?_)
          intro j _ _
          rfl
        have hobj1o : sd1.objects = objs := by rw [hobj1, hobj]
        obtain ⟨vd, sd2, hdecV, hobj2, hlen2, hpres2, hcpV, hgood2, hagV⟩ :=
          honeV dfuel sd1 XP hdepV hobj1o hgood1
            (deeperx_mono hdeep (le_trans (Nat.le_max_left _ _) (Nat.le_max_right _ _)))
            (fun p hp => by have := hbound p hp; omega)
        have hnode2 : sd2.dheap.get? m = some (.ddict mu acc) := by
          rw [hpres2 m (by omega), hpres1 m hmlt]
          exact hnode
        have hm2n : m < sd2.dheap.length := get_some_lt hnode2
        have hD : isHashableD kd = true := by
          rw [hkd]; exact isHashableD_scalar hhash.1
        have hins : pyInsertD acc kd vd = acc ++ [(kd, vd)] := by
          refine pyInsertD_append acc kd vd ?_
          intro p hp
          rw [hkd]
          exact hacc p hp k (by simp [pairKeys])
        set sdm : UState := { sd2 with
          dheap := sd2.dheap.set m (.ddict mu (acc ++ [(kd, vd)])) } with hsd3
        have hgood3 : GoodCacheXP objs sdm XP := by
          refine goodXP_evol hgood2 rfl (by simp [hsd3]) ?_
          intro j hj hjm
          show (sd2.dheap.set m _).get? j = _
          rw [List.get?_set_ne _ _ (fun he => hjm (by rw [← he]; exact hm))]
        have hnode3 : sdm.dheap.get? m = some (.ddict mu (acc ++ [(kd, vd)])) := by
          show (sd2.dheap.set m _).get? m = _
          exact List.get?_set_eq_of_lt _ hm2n
        have hobj3 : sdm.objects = objs := by
          show sd2.objects = objs
          rw [hobj2, hobj1o]
        have hacc3 : ∀ p ∈ acc ++ [(kd, vd)], ∀ k2 ∈ pairKeys rest,
            pyEqD p.1 (scalarDVal k2) = false := by
          intro p hp k2 hk2
          rcases List.mem_append.mp hp with hp | hp
          · exact hacc p hp k2 (by simp [pairKeys, hk2])
          · have hpv : p = (kd, vd) := by simpa using hp
            subst hpv
            simp only
            rw [hkd]
            have hhk2 : isHashableT k2 = true := by
              have := List.all_eq_true.mp hhash.2 k2 hk2
              simpa using this
            rw [pyEqD_scalar hhash.1 hhk2]
            have := List.all_eq_true.mp hdist.1 k2 hk2
            simpa using this
        obtain ⟨prs, sd4, hloop, hobj4, hlen4, hpres4, hnode4, hcp4, hgood4, hagp4⟩ :=
          dict_loopG rest kus vus dfuel sdm XP m mu (acc ++ [(kd, vd)])
            hrest hdepR hhash.2 hdist.2 hacc3 hobj3 hgood3
            (deeperx_mono hdeep (le_trans (Nat.le_max_right _ _) (Nat.le_max_right _ _)))
            (fun p hp => by
              have h1 := hbound p hp
              have h2 : sdm.dheap.length = sd2.dheap.length := by simp [hsd3]
              omega)
            hm hnode3
        have hlen3e : sdm.dheap.length = sd2.dheap.length := by simp [hsd3]
        have hpres24 : ∀ j, j < sd2.dheap.length → j ∉ XP.map Prod.snd →
            sd4.dheap.get? j = sd2.dheap.get? j := by
          intro j hj hjm
          have hjne : j ≠ m := fun he => hjm (by rw [he]; exact hm)
          rw [hpres4 j (by omega) hjne]
          show (sd2.dheap.set m _).get? j = _
          rw [List.get?_set_ne _ _ (Ne.symm hjne)]
        refine ⟨(kd, vd) :: prs, sd4, ?_, ?_, ?_, ?_, ?_, ?_, hgood4, ?_⟩
        · simp only [List.map_cons, dict_loop, decode_index, hdecK, pyerr_bind_ok]
          rw [hdecV]
          simp only [pyerr_bind_ok]
          rw [hD]
          simp only [if_true]
          rw [hnode2]
          dsimp only
          rw [hins]
          exact hloop
        · rw [hobj4]
          show sd2.objects = sd.objects
          rw [hobj2, hobj1]
        · omega
        · intro j hj hjm
          rw [hpres4 j (by omega) hjm]
          show (sd2.dheap.set m _).get? j = _
          rw [List.get?_set_ne _ _ (Ne.symm hjm)]
          rw [hpres2 j (by omega)]
          exact hpres1 j hj
        · rw [hnode4]
          simp
        · intro i v0 h0
          refine hcp4 i v0 ?_
          show alistGet sd2.cache i = some v0
          exact hcpV i v0 (hcpK i v0 h0)
        · intro dh2 hp
          simp only [agreesP]
          have hrest2 : agreesP dh2 prs rest = true := hagp4 dh2 hp
          have hkd2 : agreesB dh2 kd k = true := by
            rw [hkd]
            exact agrees_scalar_self hhash.1
          have hvd2 : agreesB dh2 vd v = true := by
            refine stableM_mono hagV (by omega) hpres24 dh2 hp
          rw [hkd2, hvd2, hrest2]
          rfl

/-- Sharing-aware decode-correctness of a list slot. -/
theorem decG_list {objs : List PValue} {u c : Nat} {us : List Nat} {xs : PyForest}
    (hu : u ≠ 0)
    (hslot : objs.get? u = some (.pdict
      [("$class", .puid c), ("NS.objects", .parray (us.map .puid))]))
    (hmeta : objs.get? c = some (metaFor "NSArray"))
    (hs : SlotT objs u (.vlist xs))
    (hdf : DecForestG objs us xs) :
    DecOneG objs u (.vlist xs) := by
  refine decOneG_of_fresh hs hu ?_
  intro d sd XP hd hobj hgood hdeep hbound hc
  simp only [depthT] at hd
  have hdf2 : depthF xs < d := by omega
  have hget : sd.objects.get? u = some (.pdict
      [("$class", .puid c), ("NS.objects", .parray (us.map .puid))]) := by
    rw [hobj]; exact hslot
  have hgetc : sd.objects.get? c = some (metaFor "NSArray") := by
    rw [hobj]; exact hmeta
  have hcfu : class_for_uid sd c = .ok (.arrayD, sd) := class_for_uid_meta hgetc rfl
  set sd1 : UState := { sd with
      dheap := sd.dheap ++ [.dlist false []],
      cache := (u, .dref sd.dheap.length) :: sd.cache } with hsd1
  have hgood1 : GoodCacheXP objs sd1 ((u, sd.dheap.length) :: XP) :=
    goodXP_push hgood rfl rfl
  have hdeep1 : DeeperX objs (((u, sd.dheap.length) :: XP).map Prod.fst)
      (depthF xs) := by
    intro x hx t2 ht2
    simp only [List.map_cons, List.mem_cons] at hx
    rcases hx with rfl | hx
    · have he := slotT_unique t2 objs x (.vlist xs) ht2 hs
      rw [he]
      simp only [depthT]
      omega
    · have h1 := hdeep x hx t2 ht2
      simp only [depthT] at h1
      omega
  have hbound1 : ∀ p ∈ (u, sd.dheap.length) :: XP, p.2 < sd1.dheap.length := by
    intro p hp
    have hl : sd1.dheap.length = sd.dheap.length + 1 := by simp [hsd1]
    rcases List.mem_cons.mp hp with rfl | hp
    · omega
    · have := hbound p hp
      omega
  have hm1mem : sd.dheap.length ∈ ((u, sd.dheap.length) :: XP).map Prod.snd := by
    simp
  have hnode1 : sd1.dheap.get? sd.dheap.length = some (.dlist false []) := by
    show (sd.dheap ++ [DNode.dlist false []]).get? sd.dheap.length = _
    exact List.get?_concat_length _ _
  have hobj1 : sd1.objects = objs := by
    show sd.objects = objs
    exact hobj
  obtain ⟨vs, sd2, hloop, hobj2, hlen2, hpres2, hnode2, hcp2, hgood2, hagf2⟩ :=
    arr_loopG xs us d sd1 ((u, sd.dheap.length) :: XP) sd.dheap.length false []
      hdf hdf2 hobj1 hgood1 hdeep1 hbound1 hm1mem hnode1
  have hlen1e : sd1.dheap.length = sd.dheap.length + 1 := by simp [hsd1]
  have hcacheu : alistGet sd2.cache u = some (.dref sd.dheap.length) := by
    refine hcp2 u _ ?_
    show alistGet ((u, DVal.dref sd.dheap.length) :: sd.cache) u = _
    simp [alistGet]
  have hnodefin : sd2.dheap.get? sd.dheap.length = some (.dlist false vs) := by
    rw [hnode2]; simp
  have hmlt2 : sd.dheap.length < sd2.dheap.length := get_some_lt hnodefin
  have hmnotM : sd.dheap.length ∉ XP.map Prod.snd := by
    intro hmem
    rcases List.mem_map.mp hmem with ⟨p, hp, hpe⟩
    have := hbound p hp
    omega
  have hstab : StableAgreeM (XP.map Prod.snd) sd2.dheap
      (.dref sd.dheap.length) (.vlist xs) := by
    intro dh2 hp
    have hfv : agreesF dh2 vs xs = true := by
      refine hagf2 dh2 ?_
      intro j hj hjm
      refine hp j hj (fun hjM => hjm ?_)
      simp only [List.map_cons, List.mem_cons]
      exact Or.inr hjM
    have hgetm : dh2.get? sd.dheap.length = some (.dlist false vs) := by
      rw [hp sd.dheap.length hmlt2 hmnotM]
      exact hnodefin
    simp only [agreesB, hgetm]
    rw [hfv]
    rfl
  have hgoodF : GoodCacheXP objs sd2 XP := by
    refine goodXP_pop hgood2 ?_
    intro v hv
    rw [hcacheu] at hv
    obtain rfl := (Option.some.inj hv).symm
    refine ⟨by simp, by simp, ?_⟩
    intro t2 ht2
    have he := slotT_unique t2 objs u (.vlist xs) ht2 hs
    rw [he]
    exact hstab
  refine ⟨.dref sd.dheap.length, sd2, ?_, ?_, ?_, ?_, ?_, hgoodF, hstab⟩
  · simp only [decode_object, if_neg hu, hc]
    simp only [decode_slot, hget]
    rw [show recordGet [("$class", PValue.puid c),
        ("NS.objects", PValue.parray (us.map PValue.puid))] "$class"
      = some (PValue.puid c) from rfl]
    dsimp only
    rw [hcfu, pyerr_bind_ok]
    simp only [delegate_new, delegate_decode_archive, decode_key]
    rw [show recordGet [("$class", PValue.puid c),
        ("NS.objects", PValue.parray (us.map PValue.puid))] "NS.objects"
      = some (PValue.parray (us.map PValue.puid)) from rfl]
    simp only [pvalToDVal, pyerr_bind_ok]
    rw [← hsd1, hloop, pyerr_bind_ok]
    rfl
  · rw [hobj2]
  · omega
  · intro j hj
    rw [hpres2 j (by omega) (by omega)]
    show (sd.dheap ++ [DNode.dlist false []]).get? j = _
    exact List.get?_append hj
  · intro i v0 h0
    refine hcp2 i v0 ?_
    show alistGet ((u, DVal.dref sd.dheap.length) :: sd.cache) i = some v0
    simp only [alistGet]
    rw [if_neg (fun he => by
      rw [← he] at h0
      rw [hc] at h0
      exact Option.noConfusion h0)]
    exact h0

/-- Sharing-aware decode-correctness of a set slot. -/
theorem decG_set {objs : List PValue} {u c : Nat} {us : List Nat} {xs : PyForest}
    (hu : u ≠ 0)
    (hhash : (forestList xs).all isHashableT = true)
    (hdist : distinctT (forestList xs) = true)
    (hslot : objs.get? u = some (.pdict
      [("$class", .puid c), ("NS.objects", .parray (us.map .puid))]))
    (hmeta : objs.get? c = some (metaFor "NSSet"))
    (hs : SlotT objs u (.vset xs))
    (hdf : DecForestG objs us xs) :
    DecOneG objs u (.vset xs) := by
  refine decOneG_of_fresh hs hu ?_
  intro d sd XP hd hobj hgood hdeep hbound hc
  simp only [depthT] at hd
  have hdf2 : depthF xs < d := by omega
  have hget : sd.objects.get? u = some (.pdict
      [("$class", .puid c), ("NS.objects", .parray (us.map .puid))]) := by
    rw [hobj]; exact hslot
  have hgetc : sd.objects.get? c = some (metaFor "NSSet") := by
    rw [hobj]; exact hmeta
  have hcfu : class_for_uid sd c = .ok (.setD, sd) := class_for_uid_meta hgetc rfl
  set sd1 : UState := { sd with
      dheap := sd.dheap ++ [.dset false []],
      cache := (u, .dref sd.dheap.length) :: sd.cache } with hsd1
  have hgood1 : GoodCacheXP objs sd1 ((u, sd.dheap.length) :: XP) :=
    goodXP_push hgood rfl rfl
  have hdeep1 : DeeperX objs (((u, sd.dheap.length) :: XP).map Prod.fst)
      (depthF xs) := by
    intro x hx t2 ht2
    simp only [List.map_cons, List.mem_cons] at hx
    rcases hx with rfl | hx
    · have he := slotT_unique t2 objs x (.vset xs) ht2 hs
      rw [he]
      simp only [depthT]
      omega
    · have h1 := hdeep x hx t2 ht2
      simp only [depthT] at h1
      omega
  have hbound1 : ∀ p ∈ (u, sd.dheap.length) :: XP, p.2 < sd1.dheap.length := by
    intro p hp
    have hl : sd1.dheap.length = sd.dheap.length + 1 := by simp [hsd1]
    rcases List.mem_cons.mp hp with rfl | hp
    · omega
    · have := hbound p hp
      omega
  have hm1mem : sd.dheap.length ∈ ((u, sd.dheap.length) :: XP).map Prod.snd := by
    simp
  have hnode1 : sd1.dheap.get? sd.dheap.length = some (.dset false []) := by
    show (sd.dheap ++ [DNode.dset false []]).get? sd.dheap.length = _
    exact List.get?_concat_length _ _
  have hobj1 : sd1.objects = objs := by
    show sd.objects = objs
    exact hobj
  obtain ⟨vs, sd2, hloop, hobj2, hlen2, hpres2, hnode2, hcp2, hgood2, hagf2⟩ :=
    set_loopG xs us d sd1 ((u, sd.dheap.length) :: XP) sd.dheap.length false []
      hdf hdf2 hhash hdist (fun x hx => absurd hx (List.not_mem_nil x))
      hobj1 hgood1 hdeep1 hbound1 hm1mem hnode1
  have hlen1e : sd1.dheap.length = sd.dheap.length + 1 := by simp [hsd1]
  have hcacheu : alistGet sd2.cache u = some (.dref sd.dheap.length) := by
    refine hcp2 u _ ?_
    show alistGet ((u, DVal.dref sd.dheap.length) :: sd.cache) u = _
    simp [alistGet]
  have hnodefin : sd2.dheap.get? sd.dheap.length = some (.dset false vs) := by
    rw [hnode2]; simp
  have hmlt2 : sd.dheap.length < sd2.dheap.length := get_some_lt hnodefin
  have hmnotM : sd.dheap.length ∉ XP.map Prod.snd := by
    intro hmem
    rcases List.mem_map.mp hmem with ⟨p, hp, hpe⟩
    have := hbound p hp
    omega
  have hstab : StableAgreeM (XP.map Prod.snd) sd2.dheap
      (.dref sd.dheap.length) (.vset xs) := by
    intro dh2 hp
    have hfv : agreesF dh2 vs xs = true := by
      refine hagf2 dh2 ?_
      intro j hj hjm
      refine hp j hj (fun hjM => hjm ?_)
      simp only [List.map_cons, List.mem_cons]
      exact Or.inr hjM
    have hgetm : dh2.get? sd.dheap.length = some (.dset false vs) := by
      rw [hp sd.dheap.length hmlt2 hmnotM]
      exact hnodefin
    simp only [agreesB, hgetm]
    rw [hfv]
    rfl
  have hgoodF : GoodCacheXP objs sd2 XP := by
    refine goodXP_pop hgood2 ?_
    intro v hv
    rw [hcacheu] at hv
    obtain rfl := (Option.some.inj hv).symm
    refine ⟨by simp, by simp, ?_⟩
    intro t2 ht2
    have he := slotT_unique t2 objs u (.vset xs) ht2 hs
    rw [he]
    exact hstab
  refine ⟨.dref sd.dheap.length, sd2, ?_, ?_, ?_, ?_, ?_, hgoodF, hstab⟩
  · simp only [decode_object, if_neg hu, hc]
    simp only [decode_slot, hget]
    rw [show recordGet [("$class", PValue.puid c),
        ("NS.objects", PValue.parray (us.map PValue.puid))] "$class"
      = some (PValue.puid c) from rfl]
    dsimp only
    rw [hcfu, pyerr_bind_ok]
    simp only [delegate_new, delegate_decode_archive, decode_key]
    rw [show recordGet [("$class", PValue.puid c),
        ("NS.objects", PValue.parray (us.map PValue.puid))] "NS.objects"
      = some (PValue.parray (us.map PValue.puid)) from rfl]
    simp only [pvalToDVal, pyerr_bind_ok]
    rw [← hsd1, hloop, pyerr_bind_ok]
    rfl
  · rw [hobj2]
  · omega
  · intro j hj
    rw [hpres2 j (by omega) (by omega)]
    show (sd.dheap ++ [DNode.dset false []]).get? j = _
    exact List.get?_append hj
  · intro i v0 h0
    refine hcp2 i v0 ?_
    show alistGet ((u, DVal.dref sd.dheap.length) :: sd.cache) i = some v0
    simp only [alistGet]
    rw [if_neg (fun he => by
      rw [← he] at h0
      rw [hc] at h0
      exact Option.noConfusion h0)]
    exact h0

/-- Sharing-aware decode-correctness of a dict slot. -/
theorem decG_dict {objs : List PValue} {u c : Nat} {kus vus : List Nat}
    {kvs : PyPairs}
    (hu : u ≠ 0)
    (hhash : (pairKeys kvs).all isHashableT = true)
    (hdist : distinctT (pairKeys kvs) = true)
    (hslot : objs.get? u = some (.pdict
      [("$class", .puid c), ("NS.keys", .parray (kus.map .puid)),
       ("NS.objects", .parray (vus.map .puid))]))
    (hmeta : objs.get? c = some (metaFor "NSDictionary"))
    (hs : SlotT objs u (.vdict kvs))
    (hdp : DecPairsG objs kus vus kvs) :
    DecOneG objs u (.vdict kvs) := by
  refine decOneG_of_fresh hs hu ?_
  intro d sd XP hd hobj hgood hdeep hbound hc
  simp only [depthT] at hd
  have hdp2 : depthP kvs < d := by omega
  have hget : sd.objects.get? u = some (.pdict
      [("$class", .puid c), ("NS.keys", .parray (kus.map .puid)),
       ("NS.objects", .parray (vus.map .puid))]) := by
    rw [hobj]; exact hslot
  have hgetc : sd.objects.get? c = some (metaFor "NSDictionary") := by
    rw [hobj]; exact hmeta
  have hcfu : class_for_uid sd c = .ok (.dictD, sd) := class_for_uid_meta hgetc rfl
  set sd1 : UState := { sd with
      dheap := sd.dheap ++ [.ddict false []],
      cache := (u, .dref sd.dheap.length) :: sd.cache } with hsd1
  have hgood1 : GoodCacheXP objs sd1 ((u, sd.dheap.length) :: XP) :=
    goodXP_push hgood rfl rfl
  have hdeep1 : DeeperX objs (((u, sd.dheap.length) :: XP).map Prod.fst)
      (depthP kvs) := by
    intro x hx t2 ht2
    simp only [List.map_cons, List.mem_cons] at hx
    rcases hx with rfl | hx
    · have he := slotT_unique t2 objs x (.vdict kvs) ht2 hs
      rw [he]
      simp only [depthT]
      omega
    · have h1 := hdeep x hx t2 ht2
      simp only [depthT] at h1
      omega
  have hbound1 : ∀ p ∈ (u, sd.dheap.length) :: XP, p.2 < sd1.dheap.length := by
    intro p hp
    have hl : sd1.dheap.length = sd.dheap.length + 1 := by simp [hsd1]
    rcases List.mem_cons.mp hp with rfl | hp
    · omega
    · have := hbound p hp
      omega
  have hm1mem : sd.dheap.length ∈ ((u, sd.dheap.length) :: XP).map Prod.snd := by
    simp
  have hnode1 : sd1.dheap.get? sd.dheap.length = some (.ddict false []) := by
    show (sd.dheap ++ [DNode.ddict false []]).get? sd.dheap.length = _
    exact List.get?_concat_length _ _
  have hobj1 : sd1.objects = objs := by
    show sd.objects = objs
    exact hobj
  obtain ⟨prs, sd2, hloop, hobj2, hlen2, hpres2, hnode2, hcp2, hgood2, hagp2⟩ :=
    dict_loopG kvs kus vus d sd1 ((u, sd.dheap.length) :: XP) sd.dheap.length
      false [] hdp hdp2 hhash hdist (fun x hx => absurd hx (List.not_mem_nil x))
      hobj1 hgood1 hdeep1 hbound1 hm1mem hnode1
  have hlen1e : sd1.dheap.length = sd.dheap.length + 1 := by simp [hsd1]
  have hcacheu : alistGet sd2.cache u = some (.dref sd.dheap.length) := by
    refine hcp2 u _ ?_
    show alistGet ((u, DVal.dref sd.dheap.length) :: sd.cache) u = _
    simp [alistGet]
  have hnodefin : sd2.dheap.get? sd.dheap.length = some (.ddict false prs) := by
    rw [hnode2]; simp
  have hmlt2 : sd.dheap.length < sd2.dheap.length := get_some_lt hnodefin
  have hmnotM : sd.dheap.length ∉ XP.map Prod.snd := by
    intro hmem
    rcases List.mem_map.mp hmem with ⟨p, hp, hpe⟩
    have := hbound p hp
    omega
  have hstab : StableAgreeM (XP.map Prod.snd) sd2.dheap
      (.dref sd.dheap.length) (.vdict kvs) := by
    intro dh2 hp
    have hfv : agreesP dh2 prs kvs = true := by
      refine hagp2 dh2 ?_
      intro j hj hjm
      refine hp j hj (fun hjM => hjm ?_)
      simp only [List.map_cons, List.mem_cons]
      exact Or.inr hjM
    have hgetm : dh2.get? sd.dheap.length = some (.ddict false prs) := by
      rw [hp sd.dheap.length hmlt2 hmnotM]
      exact hnodefin
    simp only [agreesB, hgetm]
    rw [hfv]
    rfl
  have hgoodF : GoodCacheXP objs sd2 XP := by
    refine goodXP_pop hgood2 ?_
    intro v hv
    rw [hcacheu] at hv
    obtain rfl := (Option.some.inj hv).symm
    refine ⟨by simp, by simp, ?_⟩
    intro t2 ht2
    have he := slotT_unique t2 objs u (.vdict kvs) ht2 hs
    rw [he]
    exact hstab
  refine ⟨.dref sd.dheap.length, sd2, ?_, ?_, ?_, ?_, ?_, hgoodF, hstab⟩
  · simp only [decode_object, if_neg hu, hc]
    simp only [decode_slot, hget]
    rw [show recordGet [("$class", PValue.puid c),
        ("NS.keys", PValue.parray (kus.map PValue.puid)),
        ("NS.objects", PValue.parray (vus.map PValue.puid))] "$class"
      = some (PValue.puid c) from rfl]
    dsimp only
    rw [hcfu, pyerr_bind_ok]
    simp only [delegate_new, delegate_decode_archive, decode_key]
    rw [show recordGet [("$class", PValue.puid c),
        ("NS.keys", PValue.parray (kus.map PValue.puid)),
        ("NS.objects", PValue.parray (vus.map PValue.puid))] "NS.keys"
      = some (PValue.parray (kus.map PValue.puid)) from rfl]
    rw [show recordGet [("$class", PValue.puid c),
        ("NS.keys", PValue.parray (kus.map PValue.puid)),
        ("NS.objects", PValue.parray (vus.map PValue.puid))] "NS.objects"
      = some (PValue.parray (vus.map PValue.puid)) from rfl]
    simp only [pvalToDVal, pyerr_bind_ok]
    rw [← hsd1, hloop, pyerr_bind_ok]
    rfl
  · rw [hobj2]
  · omega
  · intro j hj
    rw [hpres2 j (by omega) (by omega)]
    show (sd.dheap ++ [DNode.ddict false []]).get? j = _
    exact List.get?_append hj
  · intro i v0 h0
    refine hcp2 i v0 ?_
    show alistGet ((u, DVal.dref sd.dheap.length) :: sd.cache) i = some v0
    simp only [alistGet]
    rw [if_neg (fun he => by
      rw [← he] at h0
      rw [hc] at h0
      exact Option.noConfusion h0)]
    exact h0

/-- Sharing-aware decode-correctness of an NSDate slot. -/
theorem decG_ts {objs : List PValue} {u c : Nat} {q : PyFloat}
    (hu : u ≠ 0)
    (hslot : objs.get? u = some (.pdict
      [("$class", .puid c), ("NS.time", .pfloat (q.sub unix2apple_epoch_delta))]))
    (hmeta : objs.get? c = some (metaFor "NSDate"))
    (hs : SlotT objs u (.vtimestamp q)) :
    DecOneG objs u (.vtimestamp q) := by
  refine decOneG_of_fresh hs hu ?_
  intro d sd XP hd hobj hgood hdeep hbound hc
  have hget : sd.objects.get? u = some (.pdict
      [("$class", .puid c), ("NS.time", .pfloat (q.sub unix2apple_epoch_delta))]) := by
    rw [hobj]; exact hslot
  have hgetc : sd.objects.get? c = some (metaFor "NSDate") := by
    rw [hobj]; exact hmeta
  have hcfu : class_for_uid sd c = .ok (.timestampDecD, sd) := class_for_uid_meta hgetc rfl
  set sd2 : UState := { sd with
      cache := (u, DVal.dtimestamp (unix2apple_epoch_delta.add
        (q.sub unix2apple_epoch_delta))) :: (u, DVal.dcycleToken) :: sd.cache }
    with hsd2
  have hstab : StableAgreeM (XP.map Prod.snd) sd2.dheap
      (.dtimestamp (unix2apple_epoch_delta.add (q.sub unix2apple_epoch_delta)))
      (.vtimestamp q) := by
    intro dh2 hp
    rw [delta_add_sub q]
    simp [agreesB]
  have hgoodF : GoodCacheXP objs sd2 XP := by
    intro i v hv
    by_cases he : u = i
    · subst he
      have hv2 : v = DVal.dtimestamp (unix2apple_epoch_delta.add
          (q.sub unix2apple_epoch_delta)) := by
        rw [hsd2] at hv
        simp only [alistGet, if_pos rfl] at hv
        exact (Option.some.inj hv).symm
      subst hv2
      refine Or.inr ⟨by simp, by simp, ?_⟩
      intro t2 ht2
      have he2 := slotT_unique t2 objs u (.vtimestamp q) ht2 hs
      rw [he2]
      exact hstab
    · have hv2 : alistGet sd.cache i = some v := by
        rw [hsd2] at hv
        simp only [alistGet] at hv
        rw [if_neg he, if_neg he] at hv
        exact hv
      rcases hgood i v hv2 with hx | ⟨h1, h2, hag⟩
      · exact Or.inl hx
      · exact Or.inr ⟨h1, h2, fun t2 ht2 => hag t2 ht2⟩
  refine ⟨.dtimestamp (unix2apple_epoch_delta.add (q.sub unix2apple_epoch_delta)),
    sd2, ?_, ?_, ?_, ?_, ?_, hgoodF, hstab⟩
  · simp only [decode_object, if_neg hu, hc]
    simp only [decode_slot, hget]
    rw [show recordGet [("$class", PValue.puid c),
        ("NS.time", PValue.pfloat (q.sub unix2apple_epoch_delta))] "$class"
      = some (PValue.puid c) from rfl]
    dsimp only
    rw [hcfu, pyerr_bind_ok]
    simp only [delegate_new, delegate_decode_archive, decode_key]
    rw [show recordGet [("$class", PValue.puid c),
        ("NS.time", PValue.pfloat (q.sub unix2apple_epoch_delta))] "NS.time"
      = some (PValue.pfloat (q.sub unix2apple_epoch_delta)) from rfl]
    simp only [pvalToDVal, pyerr_bind_ok, numValD]
  · rw [hsd2]
  · rw [hsd2]
  · intro j hj
    rw [hsd2]
  · intro i v0 h0
    rw [hsd2]
    show alistGet ((u, _) :: (u, _) :: sd.cache) i = some v0
    by_cases he : u = i
    · rw [← he] at h0
      rw [hc] at h0
      exact Option.noConfusion h0
    · simp only [alistGet]
      rw [if_neg he, if_neg he]
      exact h0

mutual
/-- Every slot that reads as a well-formed tree decodes correctly in the
sharing-aware sense, by structural induction on the tree. -/
theorem decGT : ∀ (t : PyTree) (objs : List PValue) (u : Nat),
    SlotT objs u t → wfT t = true → DecOneG objs u t
  | .vnone, objs, u, hs, _ => by
    cases hs
    intro dfuel sd XP hd hobj hgood hdeep hbound
    obtain ⟨d, rfl⟩ : ∃ d, dfuel = d + 1 := ⟨dfuel - 1, by omega⟩
    exact ⟨.dnone, sd, by simp [decode_object], rfl, le_refl _, fun j _ => rfl,
      fun i v h => h, hgood, fun dh2 _ => rfl⟩
  | .vbool b, objs, u, hs, _ => by
    cases hs with
    | sbool _ _ hne hg =>
      exact decG_scalar (.sbool u b hne hg) hne hg (fun kvs => by simp)
        (fun dh2 => by simp [pvalToDVal, agreesB])
  | .vint n, objs, u, hs, _ => by
    cases hs with
    | sint _ _ hne hg =>
      exact decG_scalar (.sint u n hne hg) hne hg (fun kvs => by simp)
        (fun dh2 => by simp [pvalToDVal, agreesB])
  | .vfloat q, objs, u, hs, _ => by
    cases hs with
    | sfloat _ _ hne hg =>
      exact decG_scalar (.sfloat u q hne hg) hne hg (fun kvs => by simp)
        (fun dh2 => by simp [pvalToDVal, agreesB])
  | .vstr s2, objs, u, hs, _ => by
    cases hs with
    | sstr _ _ hne hg =>
      exact decG_scalar (.sstr u s2 hne hg) hne hg (fun kvs => by simp)
        (fun dh2 => by simp [pvalToDVal, agreesB])
  | .vbytes bs, objs, u, hs, _ => by
    cases hs with
    | sbytes _ _ hne hg =>
      exact decG_scalar (.sbytes u bs hne hg) hne hg (fun kvs => by simp)
        (fun dh2 => by simp [pvalToDVal, agreesB])
  | .vuid n, objs, u, hs, _ => by
    cases hs with
    | suid _ _ hne hg =>
      exact decG_scalar (.suid u n hne hg) hne hg (fun kvs => by simp)
        (fun dh2 => by simp [pvalToDVal, agreesB])
  | .vtimestamp q, objs, u, hs, _ => by
    cases hs with
    | sts _ c _ hne hg hm =>
      exact decG_ts hne hg hm (.sts u c q hne hg hm)
  | .vlist xs, objs, u, hs, hw => by
    cases hs with
    | slist _ c us _ hne hg hm hf =>
      have hwf : wfF xs = true := by simpa [wfT] using hw
      exact decG_list hne hg hm (.slist u c us xs hne hg hm hf) (decGFall xs objs us hf hwf)
  | .vset xs, objs, u, hs, hw => by
    cases hs with
    | sset _ c us _ hne hg hm hf =>
      have h3 : wfF xs = true ∧ distinctT (forestList xs) = true
          ∧ (forestList xs).all isHashableT = true := by
        have h4 := hw
        simp only [wfT, Bool.and_eq_true] at h4
        exact ⟨h4.1.1, h4.1.2, h4.2⟩
      exact decG_set hne h3.2.2 h3.2.1 hg hm (.sset u c us xs hne hg hm hf)
        (decGFall xs objs us hf h3.1)
  | .vdict kvs, objs, u, hs, hw => by
    cases hs with
    | sdict _ c kus vus _ hne hg hm hp =>
      have h3 : wfP kvs = true ∧ distinctT (pairKeys kvs) = true
          ∧ (pairKeys kvs).all isHashableT = true := by
        have h4 := hw
        simp only [wfT, Bool.and_eq_true] at h4
        exact ⟨h4.1.1, h4.1.2, h4.2⟩
      exact decG_dict hne h3.2.2 h3.2.1 hg hm (.sdict u c kus vus kvs hne hg hm hp)
        (decGPall kvs objs kus vus hp h3.1)
/-- Forest version of decGT. -/
theorem decGFall : ∀ (xs : PyForest) (objs : List PValue) (us : List Nat),
    SlotF objs us xs → wfF xs = true → DecForestG objs us xs
  | .nil, objs, us, hf, _ => by
    cases hf
    trivial
  | .cons t ts, objs, us, hf, hw => by
    cases hf with
    | fcons u us2 _ _ ht hf2 =>
      have hw2 : wfT t = true ∧ wfF ts = true := by
        simpa [wfF, Bool.and_eq_true] using hw
      exact ⟨decGT t objs u ht hw2.1, decGFall ts objs us2 hf2 hw2.2⟩
/-- Pairs version of decGT. -/
theorem decGPall : ∀ (kvs : PyPairs) (objs : List PValue) (kus vus : List Nat),
    SlotP objs kus vus kvs → wfP kvs = true → DecPairsG objs kus vus kvs
  | .nil, objs, kus, vus, hp, _ => by
    cases hp
    trivial
  | .cons k v rest, objs, kus, vus, hp, hw => by
    cases hp with
    | pcons ku vu kus2 vus2 _ _ _ hk hv hp2 =>
      have hw3 : wfT k = true ∧ wfT v = true ∧ wfP rest = true := by
        have h4 := hw
        simp only [wfP, Bool.and_eq_true] at h4
        exact ⟨h4.1.1, h4.1.2, h4.2⟩
      exact ⟨decGT k objs ku hk hw3.1, decGT v objs vu hv hw3.2.1,
        decGPall rest objs kus2 vus2 hp2 hw3.2.2⟩
end

/-- Identity-cache bindings persist across encoding steps. -/
def RefMonoG (st st2 : AState) : Prop :=
  ∀ r u, alistGet st.ref_cache r = some u → alistGet st2.ref_cache r = some u

/-- Encoder invariant outside the in-progress live addresses `X`: the class
cache is sound, slot 0 is occupied, and every cached identity maps to a
nonzero UID whose slot reads (contents-wise) as any unfolding of that
object — unless the object is still being encoded. -/
def EncInvX (h : List PyNode) (st : AState) (X : List Nat) : Prop :=
  ClassInvA st ∧ 1 ≤ st.objects.length ∧
  ∀ a u, alistGet st.ref_cache a = some u →
    u ≠ 0 ∧ (a ∈ X ∨ ∀ t, NodeT h a t → SlotT st.objects u t)

/-- Every in-progress live address unfolds to a strictly deeper tree than
`d` (acyclicity: an object cannot occur below itself). -/
def DeeperNX (h : List PyNode) (X : List Nat) (d : Nat) : Prop :=
  ∀ x ∈ X, ∀ t2, NodeT h x t2 → d < depthT t2

/-- A smaller depth bound is easier. -/
theorem deepernx_mono {h : List PyNode} {X : List Nat} {d d2 : Nat}
    (hx : DeeperNX h X d) (hle : d2 ≤ d) : DeeperNX h X d2 :=
  fun x hm t2 ht => lt_of_le_of_lt hle (hx x hm t2 ht)

/-- Extending the in-progress set with an address known to unfold deeper. -/
theorem deepernx_cons {h : List PyNode} {X : List Nat} {r d : Nat}
    (hr : ∀ t2, NodeT h r t2 → d < depthT t2) (hx : DeeperNX h X d) :
    DeeperNX h (r :: X) d := by
  intro x hmem t2 ht
  rcases List.mem_cons.mp hmem with rfl | hm
  · exact hr t2 ht
  · exact hx x hm t2 ht

/-- Sharing-aware encode-correctness of one live object: archiving it from
any invariant-respecting state succeeds, preserves written slots and cache
bindings, keeps the invariant, and leaves a slot reading as its unfolding;
an uncached non-None object lands in the next free slot. -/
def EncOneG (h : List PyNode) (r : Nat) (t : PyTree) : Prop :=
  ∀ (fuel : Nat) (st : AState) (X : List Nat),
    depthT t < fuel → EncInvX h st X → DeeperNX h X (depthT t) →
    ∃ u st2, archive h fuel st r = .ok (u, st2) ∧
      SlotsPres st.objects st2.objects ∧
      RefMonoG st st2 ∧
      EncInvX h st2 X ∧
      SlotT st2.objects u t ∧
      (alistGet st.ref_cache r = none → t ≠ .vnone → u = st.objects.length)

/-- Per-element encode-correctness of sibling addresses. -/
def EncForestG (h : List PyNode) : List Nat → PyForest → Prop
  | [], .nil => True
  | r :: rs, .cons t ts => EncOneG h r t ∧ EncForestG h rs ts
  | _, _ => False

/-- Per-element encode-correctness of dict entry address pairs. -/
def EncPairsG (h : List PyNode) : List (Nat × Nat) → PyPairs → Prop
  | [], .nil => True
  | (rk, rv) :: prs, .cons k v rest =>
    EncOneG h rk k ∧ EncOneG h rv v ∧ EncPairsG h prs rest
  | _, _ => False

theorem refmono_of_eq {st st2 : AState} (hrc : st2.ref_cache = st.ref_cache) :
    RefMonoG st st2 := fun a v hv => by rw [hrc]; exact hv

theorem refmono_trans {s1 s2 s3 : AState} (a : RefMonoG s1 s2) (b : RefMonoG s2 s3) :
    RefMonoG s1 s3 := fun x v hv => b x v (a x v hv)

/-- Binding a previously uncached identity preserves all bindings. -/
theorem refmono_cons {st st2 : AState} {r u : Nat}
    (hrc : st2.ref_cache = (r, u) :: st.ref_cache)
    (hc : alistGet st.ref_cache r = none) : RefMonoG st st2 := by
  intro a v hv
  rw [hrc]
  simp only [alistGet]
  by_cases he : r = a
  · subst he
    rw [hv] at hc
    exact Option.noConfusion hc
  · rw [if_neg he]
    exact hv

/-- The encoder invariant survives any step that keeps the identity cache
and only appends table slots. -/
theorem encinvx_mono {h : List PyNode} {st st2 : AState} {X : List Nat}
    (hi : EncInvX h st X) (hrc : st2.ref_cache = st.ref_cache)
    (hs : SlotsPres st.objects st2.objects) (hcl : ClassInvA st2) :
    EncInvX h st2 X := by
  refine ⟨hcl, le_trans hi.2.1 hs.1, ?_⟩
  intro a u hv
  rw [hrc] at hv
  obtain ⟨hu0, hor⟩ := hi.2.2 a u hv
  refine ⟨hu0, ?_⟩
  rcases hor with hx | hslot
  · exact Or.inl hx
  · exact Or.inr (fun t ht => slotT_mono t (hslot t ht) hs)

/-- Reserving a placeholder slot for a fresh object: the new binding joins
the in-progress set. -/
theorem encinvx_push {h : List PyNode} {st st1 : AState} {X : List Nat} {r : Nat}
    (hi : EncInvX h st X)
    (hrc : st1.ref_cache = (r, st.objects.length) :: st.ref_cache)
    (hcc : st1.class_cache = st.class_cache)
    (ho : st1.objects = st.objects ++ [.pdict []]) :
    EncInvX h st1 (r :: X) := by
  have hs : SlotsPres st.objects st1.objects := by rw [ho]; exact slots_of_append _ _
  refine ⟨classinv_slots hi.1 hcc hs, le_trans hi.2.1 hs.1, ?_⟩
  intro a u hv
  rw [hrc] at hv
  simp only [alistGet] at hv
  by_cases he : r = a
  · subst he
    rw [if_pos rfl] at hv
    obtain rfl : st.objects.length = u := Option.some.inj hv
    refine ⟨by have := hi.2.1; omega, Or.inl (List.mem_cons_self r X)⟩
  · rw [if_neg he] at hv
    obtain ⟨hu0, hor⟩ := hi.2.2 a u hv
    refine ⟨hu0, ?_⟩
    rcases hor with hx | hslot
    · exact Or.inl (List.mem_cons_of_mem r hx)
    · exact Or.inr (fun t ht => slotT_mono t (hslot t ht) hs)

/-- Writing the finished record back over the placeholder retires the
object from the in-progress set, given its slot now reads correctly. -/
theorem encinvx_pop {h : List PyNode} {st3 st4 : AState} {X : List Nat} {r L : Nat}
    {x : PValue}
    (hi : EncInvX h st3 (r :: X))
    (hrc : st4.ref_cache = st3.ref_cache)
    (ho : st4.objects = st3.objects.set L x)
    (hidx : st3.objects.get? L = some (.pdict []))
    (hcl : ClassInvA st4)
    (hbind : alistGet st3.ref_cache r = some L)
    (hfix : ∀ t2, NodeT h r t2 → SlotT st4.objects L t2) :
    EncInvX h st4 X := by
  refine ⟨hcl, by rw [ho, List.length_set]; exact hi.2.1, ?_⟩
  intro a u hv
  rw [hrc] at hv
  obtain ⟨hu0, hor⟩ := hi.2.2 a u hv
  refine ⟨hu0, ?_⟩
  by_cases he : a = r
  · subst he
    rw [hv] at hbind
    obtain rfl : u = L := Option.some.inj hbind
    exact Or.inr hfix
  · rcases hor with hx | hslot
    · rcases List.mem_cons.mp hx with h1 | h1
      · exact absurd h1 he
      · exact Or.inl h1
    · refine Or.inr (fun t ht => ?_)
      rw [ho]
      exact slotT_setp t (hslot t ht) hidx

/-- Reduce EncOneG to the uncached case: a cache hit is resolved by the
encoder invariant. -/
theorem encG_of_miss {h : List PyNode} {r : Nat} {t : PyTree} {node : PyNode}
    (hget : h.get? r = some node) (hnn : node ≠ .noneN) (hn : NodeT h r t)
    (hmiss : ∀ (f : Nat) (st : AState) (X : List Nat),
      depthT t < f + 1 → EncInvX h st X → DeeperNX h X (depthT t) →
      alistGet st.ref_cache r = none →
      ∃ u st2, archive h (f + 1) st r = .ok (u, st2) ∧
        SlotsPres st.objects st2.objects ∧ RefMonoG st st2 ∧
        EncInvX h st2 X ∧ SlotT st2.objects u t ∧ u = st.objects.length) :
    EncOneG h r t := by
  intro fuel st X hd hinv hdeep
  obtain ⟨f, rfl⟩ : ∃ f, fuel = f + 1 := ⟨fuel - 1, by omega⟩
  cases hc : alistGet st.ref_cache r with
  | some u =>
    obtain ⟨hu0, hor⟩ := hinv.2.2 r u hc
    have hrX : r ∉ X := fun hx => absurd (hdeep r hx t hn) (lt_irrefl _)
    rcases hor with hx | hslot
    · exact absurd hx hrX
    · have hget2 : h[r]? = some node := by rw [← List.get?_eq_getElem?]; exact hget
      have harc : archive h (f + 1) st r = .ok (u, st) := by
        simp [archive, hget2, hnn, hc, hu0]
      exact ⟨u, st, harc, slots_refl _, fun a v hv => hv, hinv, hslot t hn,
        fun hnone _ => Option.noConfusion hnone⟩
  | none =>
    obtain ⟨u, st2, h1, h2, h3, h4, h5, h6⟩ := hmiss f st X hd hinv hdeep hc
    exact ⟨u, st2, h1, h2, h3, h4, h5, fun _ _ => h6⟩

/-- EncOneG for a primitive object: the slot is written inline. -/
theorem encG_scalar {h : List PyNode} {r : Nat} {t : PyTree} {node : PyNode}
    (hget : h.get? r = some node) (hn : NodeT h r t)
    (hnn : node ≠ .noneN) (hprim : isPrimitiveNode node = true)
    (hslot : ∀ (objs : List PValue) (u : Nat), u ≠ 0 →
      objs.get? u = some (primPValue node) → SlotT objs u t) :
    EncOneG h r t := by
  refine encG_of_miss hget hnn hn ?_
  intro f st X hd hinv hdeep hc
  set st2 : AState := { st with
      ref_cache := (r, st.objects.length) :: st.ref_cache,
      objects := st.objects ++ [primPValue node] } with hst2
  have harc : archive h (f + 1) st r = .ok (st.objects.length, st2) := by
    rw [archive_step hget hnn hc]
    simp only [archive_uncached, hprim, if_true]
  have hs : SlotsPres st.objects st2.objects := by
    rw [hst2]
    exact slots_of_append _ _
  have hu0 : st.objects.length ≠ 0 := by have := hinv.2.1; omega
  have hslotn : st2.objects.get? st.objects.length = some (primPValue node) := by
    rw [hst2]
    exact List.get?_concat_length _ _
  have hst : SlotT st2.objects st.objects.length t :=
    hslot st2.objects st.objects.length hu0 hslotn
  refine ⟨st.objects.length, st2, harc, hs, refmono_cons (by rw [hst2]) hc, ?_, hst, rfl⟩
  refine ⟨classinv_slots hinv.1 (by rw [hst2]) hs, le_trans hinv.2.1 hs.1, ?_⟩
  intro a u hv
  rw [hst2] at hv
  simp only [alistGet] at hv
  by_cases he : r = a
  · subst he
    rw [if_pos rfl] at hv
    obtain rfl : st.objects.length = u := Option.some.inj hv
    refine ⟨hu0, Or.inr (fun t2 ht2 => ?_)⟩
    rw [← nodeT_unique t h r t2 hn ht2]
    exact hst
  · rw [if_neg he] at hv
    obtain ⟨hu0b, hor⟩ := hinv.2.2 a u hv
    refine ⟨hu0b, ?_⟩
    rcases hor with hx | hslot2
    · exact Or.inl hx
    · exact Or.inr (fun t2 ht2 => slotT_mono t2 (hslot2 t2 ht2) hs)

/-- Sharing-aware correctness of the element archiving loop. -/
theorem arc_listG {h : List PyNode} :
    ∀ (xs : PyForest) (rs : List Nat) (f : Nat) (st : AState) (X : List Nat),
    NodeF h rs xs → EncForestG h rs xs → depthF xs < f →
    EncInvX h st X → DeeperNX h X (depthF xs) →
    ∃ us st2, arc_list (archive h f) rs st = .ok (us, st2) ∧
      SlotsPres st.objects st2.objects ∧ RefMonoG st st2 ∧
      EncInvX h st2 X ∧ SlotF st2.objects us xs
  | .nil, rs, f, st, X, hnf, hfg, hdf, hinv, hdeep => by
    cases hnf
    exact ⟨[], st, rfl, slots_refl _, fun a v hv => hv, hinv, .fnil⟩
  | .cons t ts, rs, f, st, X, hnf, hfg, hdf, hinv, hdeep => by
    cases hnf with
    | fcons r rs2 _ _ ht hf =>
      obtain ⟨h1, h2⟩ := hfg
      have hdt : depthT t < f := by
        simp only [depthF] at hdf
        exact lt_of_le_of_lt (le_max_left _ _) hdf
      have hdts : depthF ts < f := by
        simp only [depthF] at hdf
        exact lt_of_le_of_lt (le_max_right _ _) hdf
      obtain ⟨u, st1, harc, hs1, hm1, hi1, hslot1, _⟩ :=
        h1 f st X hdt hinv
          (deepernx_mono hdeep (by simp only [depthF]; exact le_max_left _ _))
      obtain ⟨us, st2, hrest, hs2, hm2, hi2, hsf2⟩ :=
        arc_listG ts rs2 f st1 X hf h2 hdts hi1
          (deepernx_mono hdeep (by simp only [depthF]; exact le_max_right _ _))
      refine ⟨u :: us, st2, ?_, slots_trans hs1 hs2, refmono_trans hm1 hm2, hi2,
        .fcons u us t ts (slotT_mono t hslot1 hs2) hsf2⟩
      simp only [arc_list]
      rw [harc, pyerr_bind_ok, hrest, pyerr_bind_ok]

/-- Sharing-aware correctness of the dict entry archiving loop. -/
theorem arc_pairsG {h : List PyNode} :
    ∀ (kvs : PyPairs) (prs : List (Nat × Nat)) (f : Nat) (st : AState) (X : List Nat),
    NodeP h prs kvs → EncPairsG h prs kvs → depthP kvs < f →
    EncInvX h st X → DeeperNX h X (depthP kvs) →
    ∃ kus vus st2, arc_pairs (archive h f) prs st = .ok (kus, vus, st2) ∧
      SlotsPres st.objects st2.objects ∧ RefMonoG st st2 ∧
      EncInvX h st2 X ∧ SlotP st2.objects kus vus kvs
  | .nil, prs, f, st, X, hnp, hpg, hdp, hinv, hdeep => by
    cases hnp
    exact ⟨[], [], st, rfl, slots_refl _, fun a v hv => hv, hinv, .pnil⟩
  | .cons k v rest, prs, f, st, X, hnp, hpg, hdp, hinv, hdeep => by
    cases hnp with
    | pcons rk rv prs2 _ _ _ hk hv hp =>
      obtain ⟨h1, h2, h3⟩ := hpg
      have hdk : depthT k < f := by
        simp only [depthP] at hdp
        exact lt_of_le_of_lt (le_max_left _ _) hdp
      have hdv : depthT v < f := by
        simp only [depthP] at hdp
        exact lt_of_le_of_lt (le_trans (le_max_left _ _) (le_max_right _ _)) hdp
      have hdr : depthP rest < f := by
        simp only [depthP] at hdp
        exact lt_of_le_of_lt (le_trans (le_max_right _ _) (le_max_right _ _)) hdp
      obtain ⟨ku, st1, harck, hs1, hm1, hi1, hslotk, _⟩ :=
        h1 f st X hdk hinv
          (deepernx_mono hdeep (by simp only [depthP]; exact le_max_left _ _))
      obtain ⟨vu, st2, harcv, hs2, hm2, hi2, hslotv, _⟩ :=
        h2 f st1 X hdv hi1
          (deepernx_mono hdeep (by
            simp only [depthP]
            exact le_trans (le_max_left _ _) (le_max_right _ _)))
      obtain ⟨kus, vus, st3, hrest, hs3, hm3, hi3, hsp3⟩ :=
        arc_pairsG rest prs2 f st2 X hp h3 hdr hi2
          (deepernx_mono hdeep (by
            simp only [depthP]
            exact le_trans (le_max_right _ _) (le_max_right _ _)))
      refine ⟨ku :: kus, vu :: vus, st3, ?_,
        slots_trans hs1 (slots_trans hs2 hs3),
        refmono_trans hm1 (refmono_trans hm2 hm3), hi3,
        .pcons ku vu kus vus k v rest
          (slotT_mono k hslotk (slots_trans hs2 hs3))
          (slotT_mono v hslotv hs3) hsp3⟩
      simp only [arc_pairs]
      rw [harck, pyerr_bind_ok, harcv, pyerr_bind_ok, hrest, pyerr_bind_ok]

/-- EncOneG for a timestamp object. -/
theorem encG_ts {h : List PyNode} {r : Nat} {q : PyFloat}
    (hget : h.get? r = some (.timestampN q)) : EncOneG h r (.vtimestamp q) := by
  have hn : NodeT h r (.vtimestamp q) := .nts r q hget
  refine encG_of_miss hget (by simp) hn ?_
  intro f st X hd hinv hdeep hc
  set st1 : AState := { st with
      ref_cache := (r, st.objects.length) :: st.ref_cache,
      objects := st.objects ++ [.pdict []] } with hst1
  have he1 : st1.ref_cache = (r, st.objects.length) :: st.ref_cache := by rw [hst1]
  have ho1 : st1.objects = st.objects ++ [.pdict []] := by rw [hst1]
  have hinv1 : EncInvX h st1 (r :: X) := encinvx_push hinv he1 (by rw [hst1]) ho1
  have hslots1 : SlotsPres st.objects st1.objects := by
    rw [ho1]
    exact slots_of_append _ _
  have hlen1e : st1.objects.length = st.objects.length + 1 := by rw [ho1]; simp
  obtain ⟨c, st2, hcch, hrc2, hslots2, hinv2cl, hmetac, hc0, hlenb⟩ :=
    uid_chain_nsclass "NSDate" hinv1.1 hinv1.2.1
  have hinv2 : EncInvX h st2 (r :: X) := encinvx_mono hinv1 hrc2 hslots2 hinv2cl
  have hetl := @etl_ts_run (archive h f) st1 st2 r c q hcch
  set st4 : AState := { st2 with objects := st2.objects.set st.objects.length (.pdict
      [("$class", .puid c),
       ("NS.time", .pfloat (q.sub unix2apple_epoch_delta))]) } with hst4
  have hau : archive_uncached (archive h f) st r (.timestampN q)
      = .ok (st.objects.length, st4) := by
    rw [hst4]
    refine archive_uncached_run rfl ?_
    rw [← hst1]
    exact hetl
  have harc : archive h (f + 1) st r = .ok (st.objects.length, st4) := by
    rw [archive_step hget (by simp) hc, hau]
  have hlt1 : st.objects.length < st1.objects.length := by omega
  have hlt2 : st.objects.length < st2.objects.length := lt_of_lt_of_le hlt1 hslots2.1
  have hidx1 : st1.objects.get? st.objects.length = some (.pdict []) := by
    rw [ho1]
    exact List.get?_concat_length _ _
  have hidx2 : st2.objects.get? st.objects.length = some (.pdict []) := by
    rw [hslots2.2 _ hlt1]
    exact hidx1
  have hcne : c ≠ st.objects.length := by
    intro he
    rw [he, hidx2] at hmetac
    exact absurd (Option.some.inj hmetac) (pdict_nil_ne_meta _)
  have hmeta4 : st4.objects.get? c = some (metaFor "NSDate") := by
    rw [hst4]
    show (st2.objects.set _ _).get? c = _
    rw [List.get?_set_ne _ _ (Ne.symm hcne)]
    exact hmetac
  have hslot4 : st4.objects.get? st.objects.length
      = some (.pdict [("$class", .puid c),
          ("NS.time", .pfloat (q.sub unix2apple_epoch_delta))]) := by
    rw [hst4]
    exact List.get?_set_eq_of_lt _ hlt2
  have hu0 : st.objects.length ≠ 0 := by have := hinv.2.1; omega
  have hst : SlotT st4.objects st.objects.length (.vtimestamp q) :=
    .sts st.objects.length c q hu0 hslot4 hmeta4
  have hbind2 : alistGet st2.ref_cache r = some st.objects.length := by
    rw [hrc2, he1]
    simp [alistGet]
  refine ⟨st.objects.length, st4, harc, ?_, ?_, ?_, hst, rfl⟩
  · rw [hst4]
    exact slots_set_above (slots_trans hslots1 hslots2) (le_refl _) _
  · refine refmono_trans (refmono_cons he1 hc) (refmono_of_eq ?_)
    rw [hst4]
    exact hrc2
  · refine encinvx_pop hinv2 (by rw [hst4]) (by rw [hst4]) hidx2 ?_ hbind2 ?_
    · rw [hst4]
      exact classinv_set_placeholder _ hinv2.1 hidx2
    · intro t2 ht2
      rw [← nodeT_unique (.vtimestamp q) h r t2 hn ht2]
      exact hst

/-- EncOneG for a list object. -/
theorem encG_list {h : List PyNode} {r : Nat} {rs : List Nat} {xs : PyForest}
    (hget : h.get? r = some (.listN rs)) (hnf : NodeF h rs xs)
    (hfg : EncForestG h rs xs) : EncOneG h r (.vlist xs) := by
  have hn : NodeT h r (.vlist xs) := .nlist r rs xs hget hnf
  refine encG_of_miss hget (by simp) hn ?_
  intro f st X hd hinv hdeep hc
  set st1 : AState := { st with
      ref_cache := (r, st.objects.length) :: st.ref_cache,
      objects := st.objects ++ [.pdict []] } with hst1
  have he1 : st1.ref_cache = (r, st.objects.length) :: st.ref_cache := by rw [hst1]
  have ho1 : st1.objects = st.objects ++ [.pdict []] := by rw [hst1]
  have hinv1 : EncInvX h st1 (r :: X) := encinvx_push hinv he1 (by rw [hst1]) ho1
  have hslots1 : SlotsPres st.objects st1.objects := by
    rw [ho1]
    exact slots_of_append _ _
  have hlen1e : st1.objects.length = st.objects.length + 1 := by rw [ho1]; simp
  obtain ⟨c, st2, hcch, hrc2, hslots2, hinv2cl, hmetac, hc0, hlenb⟩ :=
    uid_chain_nsclass "NSArray" hinv1.1 hinv1.2.1
  have hinv2 : EncInvX h st2 (r :: X) := encinvx_mono hinv1 hrc2 hslots2 hinv2cl
  have hdf : depthF xs < f := by simp only [depthT] at hd; omega
  have hdeepF : DeeperNX h (r :: X) (depthF xs) := by
    refine deepernx_cons ?_ (deepernx_mono hdeep (by simp only [depthT]; omega))
    intro t2 ht2
    rw [← nodeT_unique (.vlist xs) h r t2 hn ht2]
    simp only [depthT]
    omega
  obtain ⟨us, st3, hl, hslots3, hmono3, hinv3, hsf3⟩ :=
    arc_listG xs rs f st2 (r :: X) hnf hfg hdf hinv2 hdeepF
  have hetl := @etl_list_run (archive h f) st1 st2 st3 r c rs us hcch hl
  set st4 : AState := { st3 with objects := st3.objects.set st.objects.length (.pdict
      [("$class", .puid c),
       ("NS.objects", .parray (us.map .puid))]) } with hst4
  have hau : archive_uncached (archive h f) st r (.listN rs)
      = .ok (st.objects.length, st4) := by
    rw [hst4]
    refine archive_uncached_run rfl ?_
    rw [← hst1]
    exact hetl
  have harc : archive h (f + 1) st r = .ok (st.objects.length, st4) := by
    rw [archive_step hget (by simp) hc, hau]
  have hlt1 : st.objects.length < st1.objects.length := by omega
  have hlt2 : st.objects.length < st2.objects.length := lt_of_lt_of_le hlt1 hslots2.1
  have hlt3 : st.objects.length < st3.objects.length := lt_of_lt_of_le hlt2 hslots3.1
  have hidx1 : st1.objects.get? st.objects.length = some (.pdict []) := by
    rw [ho1]
    exact List.get?_concat_length _ _
  have hidx2 : st2.objects.get? st.objects.length = some (.pdict []) := by
    rw [hslots2.2 _ hlt1]
    exact hidx1
  have hidx3 : st3.objects.get? st.objects.length = some (.pdict []) := by
    rw [hslots3.2 _ hlt2]
    exact hidx2
  have hmeta3 : st3.objects.get? c = some (metaFor "NSArray") := by
    rw [hslots3.2 _ (get_some_lt hmetac)]
    exact hmetac
  have hcne : c ≠ st.objects.length := by
    intro he
    rw [he, hidx3] at hmeta3
    exact absurd (Option.some.inj hmeta3) (pdict_nil_ne_meta _)
  have hmeta4 : st4.objects.get? c = some (metaFor "NSArray") := by
    rw [hst4]
    show (st3.objects.set _ _).get? c = _
    rw [List.get?_set_ne _ _ (Ne.symm hcne)]
    exact hmeta3
  have hslot4 : st4.objects.get? st.objects.length
      = some (.pdict [("$class", .puid c),
          ("NS.objects", .parray (us.map .puid))]) := by
    rw [hst4]
    exact List.get?_set_eq_of_lt _ hlt3
  have hu0 : st.objects.length ≠ 0 := by have := hinv.2.1; omega
  have hsf4 : SlotF st4.objects us xs := by
    rw [hst4]
    exact slotF_setp xs hsf3 hidx3
  have hst : SlotT st4.objects st.objects.length (.vlist xs) :=
    .slist st.objects.length c us xs hu0 hslot4 hmeta4 hsf4
  have hbind3 : alistGet st3.ref_cache r = some st.objects.length := by
    refine hmono3 r st.objects.length ?_
    rw [hrc2, he1]
    simp [alistGet]
  refine ⟨st.objects.length, st4, harc, ?_, ?_, ?_, hst, rfl⟩
  · rw [hst4]
    exact slots_set_above (slots_trans hslots1 (slots_trans hslots2 hslots3))
      (le_refl _) _
  · refine refmono_trans (refmono_cons he1 hc)
      (refmono_trans (refmono_of_eq hrc2) (refmono_trans hmono3 (refmono_of_eq ?_)))
    rw [hst4]
  · refine encinvx_pop hinv3 (by rw [hst4]) (by rw [hst4]) hidx3 ?_ hbind3 ?_
    · rw [hst4]
      exact classinv_set_placeholder _ hinv3.1 hidx3
    · intro t2 ht2
      rw [← nodeT_unique (.vlist xs) h r t2 hn ht2]
      exact hst

/-- EncOneG for a set object. -/
theorem encG_set {h : List PyNode} {r : Nat} {rs : List Nat} {xs : PyForest}
    (hget : h.get? r = some (.setN rs)) (hnf : NodeF h rs xs)
    (hfg : EncForestG h rs xs) : EncOneG h r (.vset xs) := by
  have hn : NodeT h r (.vset xs) := .nset r rs xs hget hnf
  refine encG_of_miss hget (by simp) hn ?_
  intro f st X hd hinv hdeep hc
  set st1 : AState := { st with
      ref_cache := (r, st.objects.length) :: st.ref_cache,
      objects := st.objects ++ [.pdict []] } with hst1
  have he1 : st1.ref_cache = (r, st.objects.length) :: st.ref_cache := by rw [hst1]
  have ho1 : st1.objects = st.objects ++ [.pdict []] := by rw [hst1]
  have hinv1 : EncInvX h st1 (r :: X) := encinvx_push hinv he1 (by rw [hst1]) ho1
  have hslots1 : SlotsPres st.objects st1.objects := by
    rw [ho1]
    exact slots_of_append _ _
  have hlen1e : st1.objects.length = st.objects.length + 1 := by rw [ho1]; simp
  obtain ⟨c, st2, hcch, hrc2, hslots2, hinv2cl, hmetac, hc0, hlenb⟩ :=
    uid_chain_nsclass "NSSet" hinv1.1 hinv1.2.1
  have hinv2 : EncInvX h st2 (r :: X) := encinvx_mono hinv1 hrc2 hslots2 hinv2cl
  have hdf : depthF xs < f := by simp only [depthT] at hd; omega
  have hdeepF : DeeperNX h (r :: X) (depthF xs) := by
    refine deepernx_cons ?_ (deepernx_mono hdeep (by simp only [depthT]; omega))
    intro t2 ht2
    rw [← nodeT_unique (.vset xs) h r t2 hn ht2]
    simp only [depthT]
    omega
  obtain ⟨us, st3, hl, hslots3, hmono3, hinv3, hsf3⟩ :=
    arc_listG xs rs f st2 (r :: X) hnf hfg hdf hinv2 hdeepF
  have hetl := @etl_set_run (archive h f) st1 st2 st3 r c rs us hcch hl
  set st4 : AState := { st3 with objects := st3.objects.set st.objects.length (.pdict
      [("$class", .puid c),
       ("NS.objects", .parray (us.map .puid))]) } with hst4
  have hau : archive_uncached (archive h f) st r (.setN rs)
      = .ok (st.objects.length, st4) := by
    rw [hst4]
    refine archive_uncached_run rfl ?_
    rw [← hst1]
    exact hetl
  have harc : archive h (f + 1) st r = .ok (st.objects.length, st4) := by
    rw [archive_step hget (by simp) hc, hau]
  have hlt1 : st.objects.length < st1.objects.length := by omega
  have hlt2 : st.objects.length < st2.objects.length := lt_of_lt_of_le hlt1 hslots2.1
  have hlt3 : st.objects.length < st3.objects.length := lt_of_lt_of_le hlt2 hslots3.1
  have hidx1 : st1.objects.get? st.objects.length = some (.pdict []) := by
    rw [ho1]
    exact List.get?_concat_length _ _
  have hidx2 : st2.objects.get? st.objects.length = some (.pdict []) := by
    rw [hslots2.2 _ hlt1]
    exact hidx1
  have hidx3 : st3.objects.get? st.objects.length = some (.pdict []) := by
    rw [hslots3.2 _ hlt2]
    exact hidx2
  have hmeta3 : st3.objects.get? c = some (metaFor "NSSet") := by
    rw [hslots3.2 _ (get_some_lt hmetac)]
    exact hmetac
  have hcne : c ≠ st.objects.length := by
    intro he
    rw [he, hidx3] at hmeta3
    exact absurd (Option.some.inj hmeta3) (pdict_nil_ne_meta _)
  have hmeta4 : st4.objects.get? c = some (metaFor "NSSet") := by
    rw [hst4]
    show (st3.objects.set _ _).get? c = _
    rw [List.get?_set_ne _ _ (Ne.symm hcne)]
    exact hmeta3
  have hslot4 : st4.objects.get? st.objects.length
      = some (.pdict [("$class", .puid c),
          ("NS.objects", .parray (us.map .puid))]) := by
    rw [hst4]
    exact List.get?_set_eq_of_lt _ hlt3
  have hu0 : st.objects.length ≠ 0 := by have := hinv.2.1; omega
  have hsf4 : SlotF st4.objects us xs := by
    rw [hst4]
    exact slotF_setp xs hsf3 hidx3
  have hst : SlotT st4.objects st.objects.length (.vset xs) :=
    .sset st.objects.length c us xs hu0 hslot4 hmeta4 hsf4
  have hbind3 : alistGet st3.ref_cache r = some st.objects.length := by
    refine hmono3 r st.objects.length ?_
    rw [hrc2, he1]
    simp [alistGet]
  refine ⟨st.objects.length, st4, harc, ?_, ?_, ?_, hst, rfl⟩
  · rw [hst4]
    exact slots_set_above (slots_trans hslots1 (slots_trans hslots2 hslots3))
      (le_refl _) _
  · refine refmono_trans (refmono_cons he1 hc)
      (refmono_trans (refmono_of_eq hrc2) (refmono_trans hmono3 (refmono_of_eq ?_)))
    rw [hst4]
  · refine encinvx_pop hinv3 (by rw [hst4]) (by rw [hst4]) hidx3 ?_ hbind3 ?_
    · rw [hst4]
      exact classinv_set_placeholder _ hinv3.1 hidx3
    · intro t2 ht2
      rw [← nodeT_unique (.vset xs) h r t2 hn ht2]
      exact hst

/-- EncOneG for a dict object. -/
theorem encG_dict {h : List PyNode} {r : Nat} {prs : List (Nat × Nat)} {kvs : PyPairs}
    (hget : h.get? r = some (.dictN prs)) (hnp : NodeP h prs kvs)
    (hpg : EncPairsG h prs kvs) : EncOneG h r (.vdict kvs) := by
  have hn : NodeT h r (.vdict kvs) := .ndict r prs kvs hget hnp
  refine encG_of_miss hget (by simp) hn ?_
  intro f st X hd hinv hdeep hc
  set st1 : AState := { st with
      ref_cache := (r, st.objects.length) :: st.ref_cache,
      objects := st.objects ++ [.pdict []] } with hst1
  have he1 : st1.ref_cache = (r, st.objects.length) :: st.ref_cache := by rw [hst1]
  have ho1 : st1.objects = st.objects ++ [.pdict []] := by rw [hst1]
  have hinv1 : EncInvX h st1 (r :: X) := encinvx_push hinv he1 (by rw [hst1]) ho1
  have hslots1 : SlotsPres st.objects st1.objects := by
    rw [ho1]
    exact slots_of_append _ _
  have hlen1e : st1.objects.length = st.objects.length + 1 := by rw [ho1]; simp
  obtain ⟨c, st2, hcch, hrc2, hslots2, hinv2cl, hmetac, hc0, hlenb⟩ :=
    uid_chain_nsclass "NSDictionary" hinv1.1 hinv1.2.1
  have hinv2 : EncInvX h st2 (r :: X) := encinvx_mono hinv1 hrc2 hslots2 hinv2cl
  have hdp : depthP kvs < f := by simp only [depthT] at hd; omega
  have hdeepP : DeeperNX h (r :: X) (depthP kvs) := by
    refine deepernx_cons ?_ (deepernx_mono hdeep (by simp only [depthT]; omega))
    intro t2 ht2
    rw [← nodeT_unique (.vdict kvs) h r t2 hn ht2]
    simp only [depthT]
    omega
  obtain ⟨kus, vus, st3, hl, hslots3, hmono3, hinv3, hsp3⟩ :=
    arc_pairsG kvs prs f st2 (r :: X) hnp hpg hdp hinv2 hdeepP
  have hetl := @etl_dict_run (archive h f) st1 st2 st3 r c prs kus vus hcch hl
  set st4 : AState := { st3 with objects := st3.objects.set st.objects.length (.pdict
      [("$class", .puid c),
       ("NS.keys", .parray (kus.map .puid)),
       ("NS.objects", .parray (vus.map .puid))]) } with hst4
  have hau : archive_uncached (archive h f) st r (.dictN prs)
      = .ok (st.objects.length, st4) := by
    rw [hst4]
    refine archive_uncached_run rfl ?_
    rw [← hst1]
    exact hetl
  have harc : archive h (f + 1) st r = .ok (st.objects.length, st4) := by
    rw [archive_step hget (by simp) hc, hau]
  have hlt1 : st.objects.length < st1.objects.length := by omega
  have hlt2 : st.objects.length < st2.objects.length := lt_of_lt_of_le hlt1 hslots2.1
  have hlt3 : st.objects.length < st3.objects.length := lt_of_lt_of_le hlt2 hslots3.1
  have hidx1 : st1.objects.get? st.objects.length = some (.pdict []) := by
    rw [ho1]
    exact List.get?_concat_length _ _
  have hidx2 : st2.objects.get? st.objects.length = some (.pdict []) := by
    rw [hslots2.2 _ hlt1]
    exact hidx1
  have hidx3 : st3.objects.get? st.objects.length = some (.pdict []) := by
    rw [hslots3.2 _ hlt2]
    exact hidx2
  have hmeta3 : st3.objects.get? c = some (metaFor "NSDictionary") := by
    rw [hslots3.2 _ (get_some_lt hmetac)]
    exact hmetac
  have hcne : c ≠ st.objects.length := by
    intro he
    rw [he, hidx3] at hmeta3
    exact absurd (Option.some.inj hmeta3) (pdict_nil_ne_meta _)
  have hmeta4 : st4.objects.get? c = some (metaFor "NSDictionary") := by
    rw [hst4]
    show (st3.objects.set _ _).get? c = _
    rw [List.get?_set_ne _ _ (Ne.symm hcne)]
    exact hmeta3
  have hslot4 : st4.objects.get? st.objects.length
      = some (.pdict [("$class", .puid c),
          ("NS.keys", .parray (kus.map .puid)),
          ("NS.objects", .parray (vus.map .puid))]) := by
    rw [hst4]
    exact List.get?_set_eq_of_lt _ hlt3
  have hu0 : st.objects.length ≠ 0 := by have := hinv.2.1; omega
  have hsp4 : SlotP st4.objects kus vus kvs := by
    rw [hst4]
    exact slotP_setp kvs hsp3 hidx3
  have hst : SlotT st4.objects st.objects.length (.vdict kvs) :=
    .sdict st.objects.length c kus vus kvs hu0 hslot4 hmeta4 hsp4
  have hbind3 : alistGet st3.ref_cache r = some st.objects.length := by
    refine hmono3 r st.objects.length ?_
    rw [hrc2, he1]
    simp [alistGet]
  refine ⟨st.objects.length, st4, harc, ?_, ?_, ?_, hst, rfl⟩
  · rw [hst4]
    exact slots_set_above (slots_trans hslots1 (slots_trans hslots2 hslots3))
      (le_refl _) _
  · refine refmono_trans (refmono_cons he1 hc)
      (refmono_trans (refmono_of_eq hrc2) (refmono_trans hmono3 (refmono_of_eq ?_)))
    rw [hst4]
  · refine encinvx_pop hinv3 (by rw [hst4]) (by rw [hst4]) hidx3 ?_ hbind3 ?_
    · rw [hst4]
      exact classinv_set_placeholder _ hinv3.1 hidx3
    · intro t2 ht2
      rw [← nodeT_unique (.vdict kvs) h r t2 hn ht2]
      exact hst

mutual
/-- Every live object with an acyclic unfolding encodes correctly in the
sharing-aware sense, by structural induction on the unfolding. -/
theorem encGT : ∀ (t : PyTree) (h : List PyNode) (r : Nat),
    NodeT h r t → EncOneG h r t
  | .vnone, h, r, hn => by
    cases hn with
    | nnone _ hget =>
      intro fuel st X hd hinv hdeep
      obtain ⟨f, rfl⟩ : ∃ f, fuel = f + 1 := ⟨fuel - 1, by omega⟩
      have hget2 : h[r]? = some PyNode.noneN := by
        rw [← List.get?_eq_getElem?]
        exact hget
      exact ⟨0, st, by simp [archive, hget2], slots_refl _, fun a v hv => hv, hinv,
        .snone, fun _ hne => absurd rfl hne⟩
  | .vbool b, h, r, hn => by
    cases hn with
    | nbool _ _ hget =>
      exact encG_scalar hget (.nbool r b hget) (by simp) rfl
        (fun objs u hu hg => .sbool u b hu hg)
  | .vint n, h, r, hn => by
    cases hn with
    | nint _ _ hget =>
      exact encG_scalar hget (.nint r n hget) (by simp) rfl
        (fun objs u hu hg => .sint u n hu hg)
  | .vfloat q, h, r, hn => by
    cases hn with
    | nfloat _ _ hget =>
      exact encG_scalar hget (.nfloat r q hget) (by simp) rfl
        (fun objs u hu hg => .sfloat u q hu hg)
  | .vstr s2, h, r, hn => by
    cases hn with
    | nstr _ _ hget =>
      exact encG_scalar hget (.nstr r s2 hget) (by simp) rfl
        (fun objs u hu hg => .sstr u s2 hu hg)
  | .vbytes bs, h, r, hn => by
    cases hn with
    | nbytes _ _ hget =>
      exact encG_scalar hget (.nbytes r bs hget) (by simp) rfl
        (fun objs u hu hg => .sbytes u bs hu hg)
  | .vuid n, h, r, hn => by
    cases hn with
    | nuid _ _ hget =>
      exact encG_scalar hget (.nuid r n hget) (by simp) rfl
        (fun objs u hu hg => .suid u n hu hg)
  | .vtimestamp q, h, r, hn => by
    cases hn with
    | nts _ _ hget => exact encG_ts hget
  | .vlist xs, h, r, hn => by
    cases hn with
    | nlist _ rs _ hget hnf => exact encG_list hget hnf (encGFall xs h rs hnf)
  | .vset xs, h, r, hn => by
    cases hn with
    | nset _ rs _ hget hnf => exact encG_set hget hnf (encGFall xs h rs hnf)
  | .vdict kvs, h, r, hn => by
    cases hn with
    | ndict _ prs _ hget hnp => exact encG_dict hget hnp (encGPall kvs h prs hnp)
/-- Forest version of encGT. -/
theorem encGFall : ∀ (xs : PyForest) (h : List PyNode) (rs : List Nat),
    NodeF h rs xs → EncForestG h rs xs
  | .nil, h, rs, hnf => by
    cases hnf
    trivial
  | .cons t ts, h, rs, hnf => by
    cases hnf with
    | fcons r rs2 _ _ ht hf => exact ⟨encGT t h r ht, encGFall ts h rs2 hf⟩
/-- Pairs version of encGT. -/
theorem encGPall : ∀ (kvs : PyPairs) (h : List PyNode) (prs : List (Nat × Nat)),
    NodeP h prs kvs → EncPairsG h prs kvs
  | .nil, h, prs, hnp => by
    cases hnp
    trivial
  | .cons k v rest, h, prs, hnp => by
    cases hnp with
    | pcons rk rv prs2 _ _ _ hk hv hp =>
      exact ⟨encGT k h rk hk, encGT v h rv hv, encGPall rest h prs2 hp⟩
end

end Bpylist
